import Mathlib

/-!
# The software renderer of `engine.c`

A shallow embedding of the pixel compositing and drawing code of `src/engine.c`
(blend functions, clip rectangle, point / line / rectangle / circle primitives,
the scaled image blit and text drawing), of its font loader and of its input state
(key, mouse and character events, the frame boundary), followed by theorems about it.

Modelling conventions:

* C `int` values are `Int`; the arithmetic is exact, so every statement is about
  executions in which no signed overflow occurs (signed overflow is undefined in C).
  `uint32_t` arithmetic is taken modulo `2^32` and `uint8_t` stores modulo `256`.
* A `Color` is the four channel bytes `b, g, r, a` (the field order of `engine.h`);
  `Color.w` is the packed little-endian word of the union.
* An `Image` owns its pixels as a flat list indexed by `x + y * w`.  A load or a store
  whose index is outside the list is undefined in C; here such a load yields
  transparent black and such a store changes nothing.
* A counted `for` loop is a structural recursion on the number of iterations left;
  a loop without a syntactic bound (`engine_draw_line`, the circle loops) takes a
  fuel argument and returns the state reached when the loop exits or the fuel ends.
  The fuel handed to these loops is never used up (`draw_line_fuel_enough`,
  `draw_circle_fuel_enough`): the loops leave by their own exit.
* The source image of a blit is a value of its own; blitting the screen onto itself
  (aliasing) is outside the model.
* The input fields of `Engine` form a state of their own (`InputState`); a window
  message handled by `engine_wndproc` is a function on it (`wndproc_keydown`, …), and
  `engine_update_clear` is the clearing step that `engine_update` runs before it
  dispatches the pending messages.
* The target is 64-bit: `int` has 32 bits, `size_t` and pointers have 64, so
  `sizeof(Image)` is 16.  The byte count of an image block is computed in `size_t` and
  converted to the `int` parameter of `engine_alloc` (`image_alloc_size`); the image has
  the pixels that the block holds behind its header.
* `calloc` may return no block: `engine_create_image_alloc` takes the outcome as an
  argument, and a request of `2^63` bytes or more is never granted.  The drawing code
  works on images that exist, so `engine_create_image` and `engine_create` are the runs
  in which `calloc` grants what it can.
* The points a line, a rectangle outline or a circle outline passes to
  `engine_draw_point` are listed by `engine_draw_line_points`, `engine_draw_rect_points`
  and `engine_draw_circle_points`, the same loops with the call recorded;
  `draw_line_eq_points`, `draw_rect_eq_points` and `draw_circle_eq_points` tie them to the
  drawing code.  In the same way `engine_draw_image3_samples` lists the pixel accesses of
  a blit (`draw_image3_eq_samples`).
* An input query returns `none` when it reads outside its table, which is undefined
  in C.
-/

namespace Blink

/-! ## Data model (`engine.h`) -/

/-- The union `Color` of engine.h: `struct { uint8_t b, g, r, a; }`. -/
structure Color where
  b : Nat
  g : Nat
  r : Nat
  a : Nat
deriving DecidableEq, Repr

instance : Inhabited Color := ⟨⟨0, 0, 0, 0⟩⟩

/-- All four channels are bytes. -/
def Color.wf (c : Color) : Prop := c.b < 256 ∧ c.g < 256 ∧ c.r < 256 ∧ c.a < 256

instance (c : Color) : Decidable c.wf := by unfold Color.wf; infer_instance

/-- The member `w` of the union: the four bytes as one little-endian 32-bit word. -/
def Color.w (c : Color) : Nat := c.b + c.g * 256 + c.r * 65536 + c.a * 16777216

/-- Writing the member `w` of the union: the bytes of a 32-bit word. -/
def Color.ofWord (w : Nat) : Color :=
  ⟨w % 256, w / 256 % 256, w / 65536 % 256, w / 16777216 % 256⟩

/-- `typedef struct { int x, y, w, h; } Rect;` -/
structure Rect where
  x : Int
  y : Int
  w : Int
  h : Int
deriving DecidableEq, Repr

instance : Inhabited Rect := ⟨⟨0, 0, 0, 0⟩⟩

/-- `typedef struct { Color *pixels; int w, h; } Image;` -/
structure Image where
  pixels : List Color
  w : Int
  h : Int
deriving DecidableEq, Repr

/-- `typedef struct { Rect rect; int xadv; } Glyph;` -/
structure Glyph where
  rect : Rect
  xadv : Int
deriving DecidableEq, Repr

instance : Inhabited Glyph := ⟨⟨default, 0⟩⟩

/-- `typedef struct { Image *image; Glyph glyphs[256]; } Font;` -/
structure Font where
  image : Image
  glyphs : List Glyph
deriving DecidableEq, Repr

/-- The drawing state of `Engine`: the clip rectangle and the screen surface. -/
structure Engine where
  clip : Rect
  screen : Image
deriving DecidableEq, Repr

/-- The clip rectangle lies inside the surface. -/
def Engine.clip_ok (e : Engine) : Prop :=
  0 ≤ e.clip.x ∧ 0 ≤ e.clip.y ∧ e.clip.x + e.clip.w ≤ e.screen.w ∧
    e.clip.y + e.clip.h ≤ e.screen.h

/-- `#define engine_rect(X, Y, W, H) ((Rect) { (X), (Y), (W), (H) })` -/
def engine_rect (x y w h : Int) : Rect := ⟨x, y, w, h⟩

/-- `#define engine_rgba(R, G, B, A) ((Color) { .r = (R), .g = (G), .b = (B), .a = (A) })` -/
def engine_rgba (r g b a : Nat) : Color := ⟨b % 256, g % 256, r % 256, a % 256⟩

/-- `#define engine_rgb(R, G, B) engine_rgba(R, G, B, 0xff)` -/
def engine_rgb (r g b : Nat) : Color := engine_rgba r g b 0xff

/-- `#define ENGINE_WHITE engine_rgb(0xff, 0xff, 0xff)` -/
def ENGINE_WHITE : Color := engine_rgb 0xff 0xff 0xff

/-- `#define ENGINE_BLACK engine_rgb(0, 0, 0)` -/
def ENGINE_BLACK : Color := engine_rgb 0 0 0

/-- `img->pixels[i]` read. -/
def Image.load (img : Image) (i : Int) : Color :=
  if 0 ≤ i then img.pixels.getD i.toNat default else default

/-- `img->pixels[i] = c`. -/
def Image.store (img : Image) (i : Int) (c : Color) : Image :=
  if 0 ≤ i then { img with pixels := img.pixels.set i.toNat c } else img

/-- The pixel at column `x`, row `y`: `img->pixels[x + y * img->w]`. -/
def Image.pixel (img : Image) (x y : Int) : Color := img.load (x + y * img.w)

/-- What `engine_create_image` establishes when the byte count of the image block fits
an `int`: positive dimensions, `w * h` pixels, each of four bytes. -/
def Image.valid (img : Image) : Prop :=
  0 < img.w ∧ 0 < img.h ∧ (img.pixels.length : Int) = img.w * img.h ∧
    ∀ c ∈ img.pixels, c.wf

instance (img : Image) : Decidable img.valid := by unfold Image.valid; infer_instance

instance (e : Engine) : Decidable e.clip_ok := by unfold Engine.clip_ok; infer_instance

/-- The point `(px, py)` lies in the rectangle `r` (left/top inclusive, right/bottom
exclusive), the test of `engine_draw_point`. -/
def Rect.contains (r : Rect) (px py : Int) : Prop :=
  r.x ≤ px ∧ r.y ≤ py ∧ px < r.x + r.w ∧ py < r.y + r.h

instance (r : Rect) (px py : Int) : Decidable (r.contains px py) := by
  unfold Rect.contains; infer_instance

/-! ## Helpers and blend functions -/

/-- `engine_intersect_rects` (engine.c:37). -/
def engine_intersect_rects (a b : Rect) : Rect :=
  let x1 := max a.x b.x
  let y1 := max a.y b.y
  let x2 := min (a.x + a.w) (b.x + b.w)
  let y2 := min (a.y + a.h) (b.y + b.h)
  ⟨x1, y1, x2 - x1, y2 - y1⟩

/-- `engine_blend_pixel` (engine.c:56).  The first assignment is `uint32_t` arithmetic
on the packed r/b pair, the second is `int` arithmetic stored to a byte. -/
def engine_blend_pixel (dst src : Color) : Color :=
  let dm := dst.w &&& 0xff00ff
  let sm := src.w &&& 0xff00ff
  let diff := (sm + 2 ^ 32 - dm) % 2 ^ 32
  let w := (dm + (((diff * src.a) % 2 ^ 32) >>> 8)) % 2 ^ 32
  let res := Color.ofWord w
  let g : Int :=
    ((dst.g : Int) + ((((src.g : Int) - (dst.g : Int)) * (src.a : Int)) >>> (8 : Nat))) % 256
  { b := res.b, g := g.toNat, r := res.r, a := dst.a }

/-- `engine_blend_pixel2` (engine.c:64). -/
def engine_blend_pixel2 (dst src clr : Color) : Color :=
  let sa := ((src.a * clr.a) >>> 8) % 256
  let ia := 0xff - sa
  { b := (((src.b * clr.b * sa) >>> 16) + ((dst.b * ia) >>> 8)) % 256,
    g := (((src.g * clr.g * sa) >>> 16) + ((dst.g * ia) >>> 8)) % 256,
    r := (((src.r * clr.r * sa) >>> 16) + ((dst.r * ia) >>> 8)) % 256,
    a := dst.a }

/-- `engine_blend_pixel3` (engine.c:74). -/
def engine_blend_pixel3 (dst src clr add : Color) : Color :=
  let src1 : Color :=
    { b := min 255 (src.b + add.b), g := min 255 (src.g + add.g),
      r := min 255 (src.r + add.r), a := src.a }
  engine_blend_pixel2 dst src1 clr

/-! ## Clip and the solid primitives -/

/-- `engine_set_clip` (engine.c:613). -/
def engine_set_clip (e : Engine) (rect : Rect) : Engine :=
  let screen_rect := engine_rect 0 0 e.screen.w e.screen.h
  { e with clip := engine_intersect_rects rect screen_rect }

/-- `engine_draw_point` (engine.c:619). -/
def engine_draw_point (e : Engine) (x y : Int) (color : Color) : Engine :=
  if color.a = 0 then e else
  let r := e.clip
  if x < r.x ∨ y < r.y ∨ x ≥ r.x + r.w ∨ y ≥ r.y + r.h then e else
  let i := x + y * e.screen.w
  { e with screen := e.screen.store i (engine_blend_pixel (e.screen.load i) color) }

/-- The inner loop of `engine_draw_rect_fill`: `n` times `*d = blend(*d, color); d++`.
Returns the surface and the advanced pointer `d` (an index into the pixels). -/
def rect_fill_row (color : Color) : Nat → Image → Int → Image × Int
  | 0, img, d => (img, d)
  | n + 1, img, d =>
    rect_fill_row color n (img.store d (engine_blend_pixel (img.load d) color)) (d + 1)

/-- The outer loop of `engine_draw_rect_fill`: `n` rows of `w` pixels, `d += dr` after
each row. -/
def rect_fill_rows (color : Color) (w : Nat) (dr : Int) : Nat → Image → Int → Image
  | 0, img, _ => img
  | n + 1, img, d =>
    let r := rect_fill_row color w img d
    rect_fill_rows color w dr n r.1 (r.2 + dr)

/-- `engine_draw_rect_fill` (engine.c:646). -/
def engine_draw_rect_fill (e : Engine) (rect : Rect) (color : Color) : Engine :=
  if color.a = 0 then e else
  let rect := engine_intersect_rects rect e.clip
  let d := rect.x + rect.y * e.screen.w
  let dr := e.screen.w - rect.w
  { e with screen := rect_fill_rows color rect.w.toNat dr rect.h.toNat e.screen d }

/-- `engine_clear` (engine.c:609). -/
def engine_clear (e : Engine) (color : Color) : Engine :=
  engine_draw_rect_fill e (engine_rect 0 0 0xffffff 0xffffff) color

/-- The loop of `engine_draw_line`, run for at most `fuel` iterations; the state is the
engine and the locals `x1`, `y1`, `err`. -/
def draw_line_loop (x2 y2 dx sx dy sy : Int) (color : Color) :
    Nat → Engine → Int → Int → Int → Engine
  | 0, e, _, _, _ => e
  | fuel + 1, e, x1, y1, err =>
    let e1 := engine_draw_point e x1 y1 color
    if x1 = x2 ∧ y1 = y2 then e1 else
    let e2 := err * 2
    let err1 := if e2 ≥ dy then err + dy else err
    let x1n := if e2 ≥ dy then x1 + sx else x1
    let err2 := if e2 ≤ dx then err1 + dx else err1
    let y1n := if e2 ≤ dx then y1 + sy else y1
    draw_line_loop x2 y2 dx sx dy sy color fuel e1 x1n y1n err2

/-- `engine_draw_line` (engine.c:733); the fuel `|x2 - x1| + |y2 - y1| + 1` bounds the
number of iterations. -/
def engine_draw_line (e : Engine) (x1 y1 x2 y2 : Int) (color : Color) : Engine :=
  let dx : Int := (x2 - x1).natAbs
  let sx : Int := if x1 < x2 then 1 else -1
  let dy : Int := -((y2 - y1).natAbs : Int)
  let sy : Int := if y1 < y2 then 1 else -1
  let err := dx + dy
  draw_line_loop x2 y2 dx sx dy sy color ((x2 - x1).natAbs + (y2 - y1).natAbs + 1) e x1 y1 err

/-- `engine_draw_rect` (engine.c:629). -/
def engine_draw_rect (e : Engine) (rect : Rect) (color : Color) : Engine :=
  if color.a = 0 then e else
  if rect.w ≤ 0 ∨ rect.h ≤ 0 then e else
  if rect.w = 1 then
    engine_draw_line e rect.x rect.y rect.x (rect.y + rect.h) color
  else if rect.h = 1 then
    engine_draw_line e rect.x rect.y (rect.x + rect.w) rect.y color
  else
    let x1 := rect.x + rect.w - 1
    let y1 := rect.y + rect.h - 1
    let e := engine_draw_line e rect.x rect.y x1 rect.y color
    let e := engine_draw_line e x1 rect.y x1 y1 color
    let e := engine_draw_line e x1 y1 rect.x y1 color
    engine_draw_line e rect.x y1 rect.x rect.y color

/-- The `while (x < y - 1)` loop of `engine_draw_circle`, run for at most `fuel`
iterations; the state is the engine and the locals `E`, `dx`, `dy`, `x`, `y`. -/
def draw_circle_loop (x0 y0 : Int) (color : Color) :
    Nat → Engine → Int → Int → Int → Int → Int → Engine
  | 0, e, _, _, _, _, _ => e
  | fuel + 1, e, E, dx, dy, x, y =>
    if x < y - 1 then
      let x := x + 1
      let y1 := if E ≥ 0 then y - 1 else y
      let dy1 := if E ≥ 0 then dy + 2 else dy
      let E1 := if E ≥ 0 then E + dy1 else E
      let dx := dx + 2
      let E2 := E1 + (dx + 1)
      let e := engine_draw_point e (x0 + x) (y0 + y1) color
      let e := engine_draw_point e (x0 - x) (y0 + y1) color
      let e := engine_draw_point e (x0 + x) (y0 - y1) color
      let e := engine_draw_point e (x0 - x) (y0 - y1) color
      let e :=
        if x ≠ y1 then
          let e := engine_draw_point e (x0 + y1) (y0 + x) color
          let e := engine_draw_point e (x0 - y1) (y0 + x) color
          let e := engine_draw_point e (x0 + y1) (y0 - x) color
          engine_draw_point e (x0 - y1) (y0 - x) color
        else e
      draw_circle_loop x0 y0 color fuel e E2 dx dy1 x y1
    else e

/-- `engine_draw_circle` (engine.c:660); `x` grows by one per iteration while
`x < y - 1 ≤ radius - 1`, so `radius` iterations of fuel are enough. -/
def engine_draw_circle (e : Engine) (x0 y0 radius : Int) (color : Color) : Engine :=
  if color.a = 0 then e else
  let E := 1 - radius
  let dx : Int := 0
  let dy := -2 * radius
  let x : Int := 0
  let y := radius
  let e := engine_draw_point e x0 (y0 + radius) color
  let e := engine_draw_point e x0 (y0 - radius) color
  let e := engine_draw_point e (x0 + radius) y0 color
  let e := engine_draw_point e (x0 - radius) y0 color
  draw_circle_loop x0 y0 color radius.toNat e E dx dy x y

/-- The `while (x < y - 1)` loop of `engine_draw_circle_fill`, run for at most `fuel`
iterations. -/
def draw_circle_fill_loop (x0 y0 : Int) (color : Color) :
    Nat → Engine → Int → Int → Int → Int → Int → Engine
  | 0, e, _, _, _, _, _ => e
  | fuel + 1, e, E, dx, dy, x, y =>
    if x < y - 1 then
      let x := x + 1
      let y1 := if E ≥ 0 then y - 1 else y
      let dy1 := if E ≥ 0 then dy + 2 else dy
      let E1 := if E ≥ 0 then E + dy1 else E
      let e :=
        if E ≥ 0 then
          let e := engine_draw_line e (x0 - x + 1) (y0 + y1) (x0 + x) (y0 + y1) color
          engine_draw_line e (x0 - x + 1) (y0 - y1) (x0 + x) (y0 - y1) color
        else e
      let dx := dx + 2
      let E2 := E1 + (dx + 1)
      let e :=
        if x ≠ y1 then
          let e := engine_draw_line e (x0 - y1 + 1) (y0 + x) (x0 + y1) (y0 + x) color
          engine_draw_line e (x0 - y1 + 1) (y0 - x) (x0 + y1) (y0 - x) color
        else e
      draw_circle_fill_loop x0 y0 color fuel e E2 dx dy1 x y1
    else e

/-- `engine_draw_circle_fill` (engine.c:700). -/
def engine_draw_circle_fill (e : Engine) (x0 y0 radius : Int) (color : Color) : Engine :=
  if color.a = 0 then e else
  if radius ≤ 0 then e else
  let E := 1 - radius
  let dx : Int := 0
  let dy := -2 * radius
  let x : Int := 0
  let y := radius
  let e := engine_draw_line e (x0 - radius + 1) y0 (x0 + radius) y0 color
  draw_circle_fill_loop x0 y0 color radius.toNat e E dx dy x y

/-! ## The image blit and text -/

/-- The test of engine.c:778 on the additive colour:
`(add_color.w & 0xffffff00) != 0xffffff00`. -/
def image3_add_nondefault (add_color : Color) : Prop :=
  (add_color.w &&& 0xffffff00) ≠ 0xffffff00

instance (c : Color) : Decidable (image3_add_nondefault c) := by
  unfold image3_add_nondefault; infer_instance

/-- The blend function chosen by `engine_draw_image3` (engine.c:776-778). -/
def image3_blend_fn (mul_color add_color : Color) : Nat :=
  let blend_fn := 1
  let blend_fn := if mul_color.w ≠ 0xffffffff then 2 else blend_fn
  let blend_fn := if image3_add_nondefault add_color then 3 else blend_fn
  blend_fn

/-- The `switch (blend_fn)` of `engine_draw_image3` (engine.c:793): the new value of
`*d` from the old value `d` and the sampled source pixel `s`. -/
def image3_blend (blend_fn : Nat) (d s mul_color add_color : Color) : Color :=
  match blend_fn with
  | 1 => engine_blend_pixel d s
  | 2 => engine_blend_pixel2 d s mul_color
  | 3 => engine_blend_pixel3 d s mul_color add_color
  | _ => d

/-- The inner loop `for (; dx < ex; dx++)` of `engine_draw_image3`; `srow` and `drow`
are the indices of the first pixel of the source and destination rows. -/
def image3_cols (img : Image) (srow drow stepx : Int) (blend_fn : Nat)
    (mul_color add_color : Color) : Nat → Image → Int → Int → Image
  | 0, scr, _, _ => scr
  | n + 1, scr, dx, sx =>
    let s := img.load (srow + (sx >>> (10 : Nat)))
    let d := drow + dx
    image3_cols img srow drow stepx blend_fn mul_color add_color n
      (scr.store d (image3_blend blend_fn (scr.load d) s mul_color add_color))
      (dx + 1) (sx + stepx)

/-- One iteration of the outer loop `for (; dy < ey; dy++)` of `engine_draw_image3`,
without the final `sy += stepy`. -/
def image3_row (img : Image) (dst src : Rect) (cx1 cy1 cx2 cy2 stepx : Int)
    (blend_fn : Nat) (mul_color add_color : Color) (scr : Image) (dy sy : Int) : Image :=
  if dy ≥ cy1 ∧ dy < cy2 then
    let sx := src.x * 1024
    let srow := (sy >>> (10 : Nat)) * img.w
    let drow := dy * scr.w
    let dx := dst.x
    let sx1 := if dx < cx1 then sx + (cx1 - dx) * stepx else sx
    let dx1 := if dx < cx1 then cx1 else dx
    let ex := min cx2 (dst.x + dst.w)
    image3_cols img srow drow stepx blend_fn mul_color add_color (ex - dx1).toNat scr dx1 sx1
  else scr

/-- The outer loop `for (; dy < ey; dy++)` of `engine_draw_image3`. -/
def image3_rows (img : Image) (dst src : Rect) (cx1 cy1 cx2 cy2 stepx stepy : Int)
    (blend_fn : Nat) (mul_color add_color : Color) : Nat → Image → Int → Int → Image
  | 0, scr, _, _ => scr
  | n + 1, scr, dy, sy =>
    image3_rows img dst src cx1 cy1 cx2 cy2 stepx stepy blend_fn mul_color add_color n
      (image3_row img dst src cx1 cy1 cx2 cy2 stepx blend_fn mul_color add_color scr dy sy)
      (dy + 1) (sy + stepy)

/-- `engine_draw_image3` (engine.c:759).  `src.w << 10` is `src.w * 1024`, `/` on `int`
truncates toward zero, `>> 10` on `int` is the arithmetic shift. -/
def engine_draw_image3 (e : Engine) (img : Image) (dst src : Rect)
    (mul_color add_color : Color) : Engine :=
  if src.w = 0 ∨ src.w = 0 ∨ dst.w = 0 ∨ dst.h = 0 then e else
  let cx1 := e.clip.x
  let cy1 := e.clip.y
  let cx2 := cx1 + e.clip.w
  let cy2 := cy1 + e.clip.h
  let stepx := Int.tdiv (src.w * 1024) dst.w
  let stepy := Int.tdiv (src.h * 1024) dst.h
  let sy := src.y * 1024
  let dy := dst.y
  let sy1 := if dy < cy1 then sy + (cy1 - dy) * stepy else sy
  let dy1 := if dy < cy1 then cy1 else dy
  let ey := min cy2 (dst.y + dst.h)
  let blend_fn := image3_blend_fn mul_color add_color
  let scr :=
    image3_rows img dst src cx1 cy1 cx2 cy2 stepx stepy blend_fn mul_color add_color
      (ey - dy1).toNat e.screen dy1 sy1
  { e with screen := scr }

/-- `engine_draw_image` (engine.c:748). -/
def engine_draw_image (e : Engine) (img : Image) (x y : Int) : Engine :=
  let dst := engine_rect x y img.w img.h
  let src := engine_rect 0 0 img.w img.h
  engine_draw_image3 e img dst src ENGINE_WHITE ENGINE_BLACK

/-- `engine_draw_image2` (engine.c:754). -/
def engine_draw_image2 (e : Engine) (img : Image) (x y : Int) (src : Rect)
    (color : Color) : Engine :=
  let dst := engine_rect x y src.w.natAbs src.h.natAbs
  engine_draw_image3 e img dst src color ENGINE_BLACK

/-- `engine_draw_text2` (engine.c:809).  The text is the list of its bytes; the loop
stops at the first zero byte (or at the end of the list, where the terminator is).
Returns the engine and the final `x`. -/
def engine_draw_text2 (font : Font) (y : Int) (color : Color) :
    List Nat → Engine → Int → Engine × Int
  | [], e, x => (e, x)
  | p :: ps, e, x =>
    if p = 0 then (e, x) else
    let g := font.glyphs.getD p default
    engine_draw_text2 font y color ps
      (engine_draw_image2 e font.image x y g.rect color) (x + g.xadv)

/-! ## Allocation and surface creation -/

/-- Conversion of an unsigned value to `int` (the argument of `engine_alloc`, the store
`char_buf[i] = wparam`): the low 32 bits, read as a two's complement number. -/
def to_int32 (n : Nat) : Int :=
  if n % 2 ^ 32 < 2 ^ 31 then ((n % 2 ^ 32 : Nat) : Int) else ((n % 2 ^ 32 : Nat) : Int) - 2 ^ 32

/-- Conversion of an `int` to the 64-bit `size_t`. -/
def to_size_t (n : Int) : Nat := (n % 2 ^ 64).toNat

/-- `sizeof(Image)`: a pointer and two `int`s. -/
def SIZEOF_IMAGE : Nat := 16

/-- `sizeof(Color)`: four bytes. -/
def SIZEOF_COLOR : Nat := 4

/-- `engine_alloc` (engine.c:31): `calloc(1, n)` with the `int n` converted to `size_t`.
`calloc_ok` tells whether `calloc` returns a block; a request of `2^63` bytes or more
(which is what a negative `n` becomes) exceeds the address space and is never granted.
`none` is the fatal `engine_panic("out of memory")`; otherwise the result is the size in
bytes of the block, whose bytes `calloc` has all set to zero. -/
def engine_alloc (calloc_ok : Bool) (n : Int) : Option Nat :=
  if to_size_t n ≥ 2 ^ 63 then none
  else if calloc_ok then some (to_size_t n) else none

/-- The argument that `engine_create_image` hands to `engine_alloc` (engine.c:476):
`sizeof(Image) + width * height * sizeof(Color)`, computed in `size_t` and converted to
the `int` parameter. -/
def image_alloc_size (width height : Int) : Int :=
  to_int32 ((SIZEOF_IMAGE + to_size_t (width * height) * SIZEOF_COLOR) % 2 ^ 64)

/-- `engine_create_image` (engine.c:474) with the outcome of its `calloc` as an argument:
`none` is either of the two fatal `engine_panic` exits.  The pixels are the `Color`s of
the zeroed block behind the `Image` header (`image->pixels = (Color*) (image + 1)`), as
many as the block holds.  (A block smaller than the header makes the stores to
`image->w` undefined in C; here such an image has no pixel.) -/
def engine_create_image_alloc (calloc_ok : Bool) (width height : Int) : Option Image :=
  if ¬ (width > 0 ∧ height > 0) then none
  else
    match engine_alloc calloc_ok (image_alloc_size width height) with
    | none => none
    | some size =>
      some ⟨List.replicate ((size - SIZEOF_IMAGE) / SIZEOF_COLOR) ⟨0, 0, 0, 0⟩, width, height⟩

/-- `engine_create_image` (engine.c:474) in a run in which `calloc` grants what it can. -/
def engine_create_image (width height : Int) : Option Image :=
  engine_create_image_alloc true width height

/-- The drawing state set up by `engine_create` (engine.c:295-296). -/
def engine_create (width height : Int) : Option Engine :=
  match engine_create_image width height with
  | none => none
  | some img => some ⟨engine_rect 0 0 width height, img⟩

/-- The clip is inside the surface and the pixel array has `w * h` entries. -/
def Engine.ok (e : Engine) : Prop :=
  e.clip_ok ∧ (e.screen.pixels.length : Int) = e.screen.w * e.screen.h

/-- The clip of `e` is one that `engine_create` (the full surface) or `engine_set_clip`
(some requested rectangle) establishes for the surface of `e`. -/
def Engine.clip_established (e : Engine) : Prop :=
  e.clip = engine_rect 0 0 e.screen.w e.screen.h ∨ ∃ R, e.clip = (engine_set_clip e R).clip

/-- The engine `e2` has the clip and the surface shape of `e1`, and every surface pixel
outside the clip of `e1` has the same value in both. -/
def Engine.same_outside_clip (e1 e2 : Engine) : Prop :=
  e2.clip = e1.clip ∧ e2.screen.w = e1.screen.w ∧ e2.screen.h = e1.screen.h ∧
    e2.screen.pixels.length = e1.screen.pixels.length ∧
    ∀ px py : Int, 0 ≤ px → px < e1.screen.w → 0 ≤ py → py < e1.screen.h →
      ¬ e1.clip.contains px py → e2.screen.pixel px py = e1.screen.pixel px py

/-- The source column sampled for destination column `px`, in the words of the blit's
description: `(src.x * 1024 + (px - dst.x) * stepx) >> 10` with
`stepx = (src.w << 10) / dst.w`. -/
def image3_src_col (dst src : Rect) (px : Int) : Int :=
  (src.x * 1024 + (px - dst.x) * Int.tdiv (src.w * 1024) dst.w) >>> (10 : Nat)

/-- The source row sampled for destination row `py`:
`(src.y * 1024 + (py - dst.y) * stepy) >> 10` with `stepy = (src.h << 10) / dst.h`. -/
def image3_src_row (dst src : Rect) (py : Int) : Int :=
  (src.y * 1024 + (py - dst.y) * Int.tdiv (src.h * 1024) dst.h) >>> (10 : Nat)

/-! ## The points a line passes to `engine_draw_point` -/

/-- The loop of `engine_draw_line` with each call `engine_draw_point(engine, x1, y1, color)`
recorded: the list of the points passed to `engine_draw_point`, in order, for at most
`fuel` iterations. -/
def draw_line_points_loop (x2 y2 dx sx dy sy : Int) : Nat → Int → Int → Int → List (Int × Int)
  | 0, _, _, _ => []
  | fuel + 1, x1, y1, err =>
    (x1, y1) ::
      (if x1 = x2 ∧ y1 = y2 then [] else
        let e2 := err * 2
        let err1 := if e2 ≥ dy then err + dy else err
        let x1n := if e2 ≥ dy then x1 + sx else x1
        let err2 := if e2 ≤ dx then err1 + dx else err1
        let y1n := if e2 ≤ dx then y1 + sy else y1
        draw_line_points_loop x2 y2 dx sx dy sy fuel x1n y1n err2)

/-- The points that `engine_draw_line(engine, x1, y1, x2, y2, color)` passes to
`engine_draw_point`, in order (same locals and fuel as `engine_draw_line`). -/
def engine_draw_line_points (x1 y1 x2 y2 : Int) : List (Int × Int) :=
  let dx : Int := (x2 - x1).natAbs
  let sx : Int := if x1 < x2 then 1 else -1
  let dy : Int := -((y2 - y1).natAbs : Int)
  let sy : Int := if y1 < y2 then 1 else -1
  let err := dx + dy
  draw_line_points_loop x2 y2 dx sx dy sy ((x2 - x1).natAbs + (y2 - y1).natAbs + 1) x1 y1 err

/-- Drawing a list of points one after the other with `engine_draw_point`. -/
def draw_points (color : Color) (e : Engine) (pts : List (Int × Int)) : Engine :=
  pts.foldl (fun e1 p => engine_draw_point e1 p.1 p.2 color) e

/-- The invariant of the loop of `engine_draw_line` in the state `x1`, `y1`, `err`, with
end point `(x2, y2)`, steps `sx`, `sy` and `A = dx`, `B = -dy`: there are `a` steps to go
along x and `b` along y, and the error term is `A - B + a * B - b * A`. -/
def line_inv (x2 y2 A B sx sy x1 y1 err a b : Int) : Prop :=
  0 ≤ a ∧ 0 ≤ b ∧ a ≤ A ∧ b ≤ B ∧ x2 - x1 = sx * a ∧ y2 - y1 = sy * b ∧
    err = A - B + a * B - b * A

/-! ## Invariants of the drawing state -/

/-- The surface `b` has the shape of `a` and every pixel of `b` has the alpha of the
pixel of `a` at the same index. -/
def Image.same_alpha (a b : Image) : Prop :=
  b.w = a.w ∧ b.h = a.h ∧ b.pixels.length = a.pixels.length ∧
    ∀ j : Int, (b.load j).a = (a.load j).a

/-- The engine `e2` has the clip of `e1` and a surface with the same shape and the same
alpha in every pixel. -/
def Engine.same_alpha (e1 e2 : Engine) : Prop :=
  e2.clip = e1.clip ∧ e1.screen.same_alpha e2.screen

/-- One call of the drawing interface of engine.h, with its arguments
(`engine_draw_text` is `draw_text2` with the font of the engine). -/
inductive Call where
  | set_clip (rect : Rect)
  | clear (color : Color)
  | draw_point (x y : Int) (color : Color)
  | draw_rect (rect : Rect) (color : Color)
  | draw_rect_fill (rect : Rect) (color : Color)
  | draw_circle (x0 y0 radius : Int) (color : Color)
  | draw_circle_fill (x0 y0 radius : Int) (color : Color)
  | draw_line (x1 y1 x2 y2 : Int) (color : Color)
  | draw_image (img : Image) (x y : Int)
  | draw_image2 (img : Image) (x y : Int) (src : Rect) (color : Color)
  | draw_image3 (img : Image) (dst src : Rect) (mul_color add_color : Color)
  | draw_text2 (font : Font) (text : List Nat) (x y : Int) (color : Color)

/-- The effect of a call on the drawing state. -/
def Call.run : Call → Engine → Engine
  | .set_clip rect, e => engine_set_clip e rect
  | .clear color, e => engine_clear e color
  | .draw_point x y color, e => engine_draw_point e x y color
  | .draw_rect rect color, e => engine_draw_rect e rect color
  | .draw_rect_fill rect color, e => engine_draw_rect_fill e rect color
  | .draw_circle x0 y0 radius color, e => engine_draw_circle e x0 y0 radius color
  | .draw_circle_fill x0 y0 radius color, e => engine_draw_circle_fill e x0 y0 radius color
  | .draw_line x1 y1 x2 y2 color, e => engine_draw_line e x1 y1 x2 y2 color
  | .draw_image img x y, e => engine_draw_image e img x y
  | .draw_image2 img x y src color, e => engine_draw_image2 e img x y src color
  | .draw_image3 img dst src mul_color add_color, e =>
    engine_draw_image3 e img dst src mul_color add_color
  | .draw_text2 font text x y color, e => (engine_draw_text2 font y color text e x).1

/-- The drawing states that a program can reach from a surface whose image block fits an
`int` byte count: the state that `engine_create` returns for such a size, and the state
after any call on a reachable state. -/
inductive Engine.Reachable : Engine → Prop where
  | create (width height : Int) (e : Engine)
      (hfit : (SIZEOF_IMAGE : Int) + width * height * SIZEOF_COLOR < 2 ^ 31)
      (h : engine_create width height = some e) : Engine.Reachable e
  | call (c : Call) (e : Engine) (h : Engine.Reachable e) : Engine.Reachable (c.run e)

/-! ## Font atlas -/

/-- The loop of `engine_check_column` (engine.c:81): `n` is the number of rows left. -/
def check_column_loop (img : Image) (x : Int) : Nat → Int → Bool
  | 0, _ => false
  | n + 1, y =>
    if (img.load (x + y * img.w)).a ≠ 0 then true else check_column_loop img x n (y + 1)

/-- `engine_check_column` (engine.c:81). -/
def engine_check_column (img : Image) (x y h : Int) : Bool :=
  check_column_loop img x h.toNat y

/-- The first trimming loop of `engine_load_font_from_image` (engine.c:107):
`for (x = r.x + r.w - 1; x >= r.x; x--)`, with `n` the number of columns from `x` down to
`r.x`; returns the new `r.w`. -/
def font_trim_right (img : Image) (ry rh : Int) : Nat → Int → Int → Int
  | 0, _, rw => rw
  | n + 1, x, rw =>
    if engine_check_column img x ry rh then rw
    else font_trim_right img ry rh n (x - 1) (rw - 1)

/-- The second trimming loop of `engine_load_font_from_image` (engine.c:112):
`for (x = r.x; x < r.x + r.w; x++)`, run for at most `fuel` iterations; returns the new
`r.x` and `r.w`. -/
def font_trim_left (img : Image) (ry rh : Int) : Nat → Int → Int → Int → Int × Int
  | 0, _, rx, rw => (rx, rw)
  | fuel + 1, x, rx, rw =>
    if x < rx + rw then
      if engine_check_column img x ry rh then (rx, rw)
      else font_trim_left img ry rh fuel (x + 1) (rx + 1) (rw - 1)
    else (rx, rw)

/-- The glyph cell `i` of the 16×16 grid before trimming (engine.c:99-104). -/
def font_cell (img : Image) (i : Nat) : Rect :=
  ⟨Int.tdiv img.w 16 * ((i % 16 : Nat) : Int), Int.tdiv img.h 16 * ((i / 16 : Nat) : Int),
    Int.tdiv img.w 16, Int.tdiv img.h 16⟩

/-- The body of the glyph loop of `engine_load_font_from_image` for index `i`
(engine.c:98-119).  The second loop gets `r.w` iterations of fuel: `r.x + r.w` stays the
same and `x` grows by one in each iteration. -/
def font_glyph (img : Image) (i : Nat) : Glyph :=
  let r := font_cell img i
  let rw1 := font_trim_right img r.y r.h r.w.toNat (r.x + r.w - 1) r.w
  let t := font_trim_left img r.y r.h rw1.toNat r.x r.x rw1
  ⟨⟨t.1, r.y, t.2, r.h⟩, t.2 + 1⟩

/-- The font that `engine_load_font_from_image` builds from a non-null image
(engine.c:94-124). -/
def font_from_image (img : Image) : Font :=
  let glyphs := (List.range 256).map (font_glyph img)
  let glyphs1 := glyphs.set 32 { glyphs.getD 32 default with rect := ⟨0, 0, 0, 0⟩ }
  let glyphs2 := glyphs1.set 32 { glyphs1.getD 32 default with xadv := (glyphs1.getD 97 default).xadv }
  ⟨img, glyphs2⟩

/-- `engine_load_font_from_image` (engine.c:92): `none` is the null pointer. -/
def engine_load_font_from_image : Option Image → Option Font
  | none => none
  | some img => some (font_from_image img)

/-- The points that `engine_draw_rect(engine, rect, color)` passes to `engine_draw_point`
when `color.a` is not 0: the points of the lines it draws, in order (engine.c:631-643). -/
def engine_draw_rect_points (rect : Rect) : List (Int × Int) :=
  if rect.w ≤ 0 ∨ rect.h ≤ 0 then [] else
  if rect.w = 1 then
    engine_draw_line_points rect.x rect.y rect.x (rect.y + rect.h)
  else if rect.h = 1 then
    engine_draw_line_points rect.x rect.y (rect.x + rect.w) rect.y
  else
    let x1 := rect.x + rect.w - 1
    let y1 := rect.y + rect.h - 1
    engine_draw_line_points rect.x rect.y x1 rect.y ++
      (engine_draw_line_points x1 rect.y x1 y1 ++
        (engine_draw_line_points x1 y1 rect.x y1 ++
          engine_draw_line_points rect.x y1 rect.x rect.y))

/-! ## Text width -/

/-- The loop of `engine_text_width` (engine.c:555) over the bytes of the text, with the
running `x`; it stops at the first zero byte (or at the end of the list, where the
terminator is). -/
def text_width_loop (font : Font) : List Nat → Int → Int
  | [], x => x
  | p :: ps, x =>
    if p = 0 then x else text_width_loop font ps (x + (font.glyphs.getD p default).xadv)

/-- `engine_text_width` (engine.c:553). -/
def engine_text_width (font : Font) (text : List Nat) : Int :=
  text_width_loop font text 0

/-- The bytes of a text in front of its zero terminator. -/
def text_bytes (text : List Nat) : List Nat := text.takeWhile (fun b => b ≠ 0)

/-! ## Input state (`engine_wndproc`, `engine_update`) -/

/-- `ENGINE_INPUT_DOWN = (1 << 0)` (engine.c). -/
def ENGINE_INPUT_DOWN : Nat := 1 <<< 0

/-- `ENGINE_INPUT_PRESSED = (1 << 1)`. -/
def ENGINE_INPUT_PRESSED : Nat := 1 <<< 1

/-- `ENGINE_INPUT_RELEASED = (1 << 2)`. -/
def ENGINE_INPUT_RELEASED : Nat := 1 <<< 2

/-- The input fields of `Engine` (engine.h:35-40): `int char_buf[32]`,
`uint8_t key_state[256]`, `uint8_t mouse_state[16]`, `mouse_pos`, `mouse_delta` and
`mouse_scroll`.  The scroll value is kept as the integer wheel delta it is computed from
(the C field is that number divided by `WHEEL_DELTA`, as a float). -/
structure InputState where
  char_buf : List Int
  key_state : List Nat
  mouse_state : List Nat
  mouse_pos : Int × Int
  mouse_delta : Int × Int
  mouse_scroll : Int
deriving DecidableEq, Repr

/-- The arrays have the sizes that engine.h declares and the flag cells are bytes. -/
def InputState.wf (s : InputState) : Prop :=
  s.char_buf.length = 32 ∧ s.key_state.length = 256 ∧ s.mouse_state.length = 16

instance (s : InputState) : Decidable s.wf := by unfold InputState.wf; infer_instance

/-- The input state of a fresh engine: `engine_alloc` zeroes the whole `Engine`
(engine.c:291). -/
def InputState.zero : InputState :=
  ⟨List.replicate 32 0, List.replicate 256 0, List.replicate 16 0, (0, 0), (0, 0), 0⟩

/-- `cell &= ~m` on a `uint8_t` cell: the bits of `m` are cleared. -/
def byte_and_not (x m : Nat) : Nat := x &&& (0xff ^^^ m)

/-- `cell |= m` on a `uint8_t` cell. -/
def byte_or (x m : Nat) : Nat := (x ||| m) % 256

/-- `WM_KEYDOWN` / `WM_SYSKEYDOWN` of `engine_wndproc` (engine.c:196): bit 30 of `lparam`
marks an auto-repeat, which is ignored. -/
def wndproc_keydown (s : InputState) (wparam lparam : Nat) : InputState :=
  if lparam &&& (1 <<< 30) ≠ 0 then s
  else
    { s with key_state :=
        s.key_state.set (wparam % 256) (ENGINE_INPUT_DOWN ||| ENGINE_INPUT_PRESSED) }

/-- `WM_KEYUP` / `WM_SYSKEYUP` of `engine_wndproc` (engine.c:204). -/
def wndproc_keyup (s : InputState) (wparam : Nat) : InputState :=
  let k := wparam % 256
  let t1 := s.key_state.set k (byte_and_not (s.key_state.getD k 0) ENGINE_INPUT_DOWN)
  let t2 := t1.set k (byte_or (t1.getD k 0) ENGINE_INPUT_RELEASED)
  { s with key_state := t2 }

/-- The slot search of `WM_CHAR` (engine.c:212): `n` slots are left, `i` is the index. -/
def char_store_loop (c : Int) : Nat → Nat → List Int → List Int
  | 0, _, buf => buf
  | n + 1, i, buf =>
    if buf.getD i 0 ≠ 0 then char_store_loop c n (i + 1) buf else buf.set i c

/-- `WM_CHAR` of `engine_wndproc` (engine.c:210). -/
def wndproc_char (s : InputState) (wparam : Nat) : InputState :=
  if wparam < 32 then s
  else { s with char_buf := char_store_loop (to_int32 wparam) 32 0 s.char_buf }

/-- `WM_MOUSEMOVE` of `engine_wndproc` (engine.c:233).  The arguments are the surface
coordinates `(GET_X_LPARAM(lparam) - wr.x) * screen->w / wr.w` and the same for `y` that
the message is scaled to. -/
def wndproc_mousemove (s : InputState) (nx ny : Int) : InputState :=
  let prevx := s.mouse_pos.1
  let prevy := s.mouse_pos.2
  { s with mouse_pos := (nx, ny),
           mouse_delta := (s.mouse_delta.1 + (nx - prevx), s.mouse_delta.2 + (ny - prevy)) }

/-- `WM_LBUTTONDOWN`, `WM_RBUTTONDOWN`, `WM_MBUTTONDOWN` (engine.c:219) for the button
index 1, 2 or 3; the case has no `break` and runs on into `WM_MOUSEMOVE`. -/
def wndproc_buttondown (s : InputState) (button : Nat) (nx ny : Int) : InputState :=
  wndproc_mousemove
    { s with mouse_state :=
        s.mouse_state.set button (ENGINE_INPUT_DOWN ||| ENGINE_INPUT_PRESSED) } nx ny

/-- `WM_LBUTTONUP`, `WM_RBUTTONUP`, `WM_MBUTTONUP` (engine.c:219), running on into
`WM_MOUSEMOVE`. -/
def wndproc_buttonup (s : InputState) (button : Nat) (nx ny : Int) : InputState :=
  let t1 := s.mouse_state.set button
    (byte_and_not (s.mouse_state.getD button 0) ENGINE_INPUT_DOWN)
  let t2 := t1.set button (byte_or (t1.getD button 0) ENGINE_INPUT_RELEASED)
  wndproc_mousemove { s with mouse_state := t2 } nx ny

/-- `WM_MOUSEWHEEL` of `engine_wndproc` (engine.c:243). -/
def wndproc_mousewheel (s : InputState) (wheel_delta : Int) : InputState :=
  { s with mouse_scroll := wheel_delta }

/-- The loops `for (i = 0; i < sizeof(t); i++) t[i] &= ~(PRESSED | RELEASED)` of
`engine_update` (engine.c:398-403): `n` cells are left, `i` is the index. -/
def clear_edges_loop : Nat → Nat → List Nat → List Nat
  | 0, _, t => t
  | n + 1, i, t =>
    clear_edges_loop n (i + 1)
      (t.set i (byte_and_not (t.getD i 0) (ENGINE_INPUT_PRESSED ||| ENGINE_INPUT_RELEASED)))

/-- The frame boundary: the clearing step of `engine_update` (engine.c:397-404), which
runs before the pending window messages are dispatched. -/
def engine_update_clear (s : InputState) : InputState :=
  { s with char_buf := List.replicate 32 0,
           key_state := clear_edges_loop 256 0 s.key_state,
           mouse_state := clear_edges_loop 16 0 s.mouse_state,
           mouse_scroll := 0 }

/-- The loop of `engine_get_char` (engine.c:562): `n` slots are left, `i` is the index;
returns the result and the buffer. -/
def get_char_loop : Nat → Nat → List Int → Int × List Int
  | 0, _, buf => (0, buf)
  | n + 1, i, buf =>
    if ¬ (buf.getD i 0 ≠ 0) then get_char_loop n (i + 1) buf
    else (buf.getD i 0, buf.set i 0)

/-- `engine_get_char` (engine.c:561). -/
def engine_get_char (s : InputState) : Int × InputState :=
  let r := get_char_loop 32 0 s.char_buf
  (r.1, { s with char_buf := r.2 })

/-- `engine_mouse_delta` (engine.c:588): the two values it writes. -/
def engine_mouse_delta (s : InputState) : Int × Int := (s.mouse_delta.1, s.mouse_delta.2)

/-- `engine_mouse_scroll` (engine.c:605), as the integer wheel delta. -/
def engine_mouse_scroll (s : InputState) : Int := s.mouse_scroll

/-- `n` frame boundaries in a row, no event in between. -/
def frame_boundaries : Nat → InputState → InputState
  | 0, s => s
  | n + 1, s => frame_boundaries n (engine_update_clear s)

/-- The `WM_CHAR` events of the characters `cs`, in order. -/
def type_chars (cs : List Nat) (s : InputState) : InputState :=
  cs.foldl wndproc_char s

/-- `n` calls of `engine_get_char` in a row: the results in order, and the state. -/
def get_chars : Nat → InputState → List Int × InputState
  | 0, s => ([], s)
  | n + 1, s =>
    let r := engine_get_char s
    let rs := get_chars n r.2
    (r.1 :: rs.1, rs.2)

/-- The per-channel linear interpolation `d + floor((s - d) * a / 256)`. -/
def lerp_channel (d s a : Nat) : Int := (d : Int) + (((s : Int) - (d : Int)) * (a : Int)) / 256

/-! ## The source pixels a blit reads -/

/-- The body of the inner loop of `engine_draw_image3` for the access
`t = (dx, dy, col, row)`: the source pixel `img->pixels[row * img->w + col]` is blended
into the destination pixel `screen->pixels[dy * screen->w + dx]`. -/
def image3_access (img : Image) (blend_fn : Nat) (mul_color add_color : Color)
    (scr : Image) (t : Int × Int × Int × Int) : Image :=
  let s := img.load (t.2.2.2 * img.w + t.2.2.1)
  let d := t.2.1 * scr.w + t.1
  scr.store d (image3_blend blend_fn (scr.load d) s mul_color add_color)

/-! ## The points of a circle outline -/

/-- The loop of `engine_draw_circle` with each call of `engine_draw_point` recorded: the
points passed, in order, for at most `fuel` iterations. -/
def draw_circle_points_loop (x0 y0 : Int) : Nat → Int → Int → Int → Int → Int → List (Int × Int)
  | 0, _, _, _, _, _ => []
  | fuel + 1, E, dx, dy, x, y =>
    if x < y - 1 then
      let x := x + 1
      let y1 := if E ≥ 0 then y - 1 else y
      let dy1 := if E ≥ 0 then dy + 2 else dy
      let E1 := if E ≥ 0 then E + dy1 else E
      let dx := dx + 2
      let E2 := E1 + (dx + 1)
      [(x0 + x, y0 + y1), (x0 - x, y0 + y1), (x0 + x, y0 - y1), (x0 - x, y0 - y1)] ++
        ((if x ≠ y1 then
            [(x0 + y1, y0 + x), (x0 - y1, y0 + x), (x0 + y1, y0 - x), (x0 - y1, y0 - x)]
          else []) ++
          draw_circle_points_loop x0 y0 fuel E2 dx dy1 x y1)
    else []

/-- The points that `engine_draw_circle(engine, x0, y0, radius, color)` passes to
`engine_draw_point` when `color.a` is not 0, in order (same locals and fuel as
`engine_draw_circle`). -/
def engine_draw_circle_points (x0 y0 radius : Int) : List (Int × Int) :=
  [(x0, y0 + radius), (x0, y0 - radius), (x0 + radius, y0), (x0 - radius, y0)] ++
    draw_circle_points_loop x0 y0 radius.toNat (1 - radius) 0 (-2 * radius) 0 radius

/-! ## Input queries and the reachable input states -/

/-- Conversion of an `int` argument to the `uint32_t` parameter `idx`. -/
def to_uint32 (n : Int) : Nat := (n % 2 ^ 32).toNat

/-- `engine_check_input_flag` (engine.c:45) on a table `t`: `none` is a read outside the
table (undefined in C), `some b` the returned value. -/
def engine_check_input_flag (t : List Nat) (idx cap flag : Nat) : Option Bool :=
  if idx > cap then some false
  else
    match t[idx]? with
    | none => none
    | some v => some (decide (v &&& flag ≠ 0))

/-- `engine_key_down` (engine.c:571); `sizeof(engine->key_state)` is 256. -/
def engine_key_down (s : InputState) (key : Int) : Option Bool :=
  engine_check_input_flag s.key_state (to_uint32 key) 256 ENGINE_INPUT_DOWN

/-- `engine_key_pressed` (engine.c:575). -/
def engine_key_pressed (s : InputState) (key : Int) : Option Bool :=
  engine_check_input_flag s.key_state (to_uint32 key) 256 ENGINE_INPUT_PRESSED

/-- `engine_key_released` (engine.c:579). -/
def engine_key_released (s : InputState) (key : Int) : Option Bool :=
  engine_check_input_flag s.key_state (to_uint32 key) 256 ENGINE_INPUT_RELEASED

/-- `engine_mouse_down` (engine.c:593); `sizeof(engine->mouse_state)` is 16. -/
def engine_mouse_down (s : InputState) (button : Int) : Option Bool :=
  engine_check_input_flag s.mouse_state (to_uint32 button) 16 ENGINE_INPUT_DOWN

/-- `engine_mouse_pressed` (engine.c:597). -/
def engine_mouse_pressed (s : InputState) (button : Int) : Option Bool :=
  engine_check_input_flag s.mouse_state (to_uint32 button) 16 ENGINE_INPUT_PRESSED

/-- `engine_mouse_released` (engine.c:601). -/
def engine_mouse_released (s : InputState) (button : Int) : Option Bool :=
  engine_check_input_flag s.mouse_state (to_uint32 button) 16 ENGINE_INPUT_RELEASED

/-- The three buttons that `engine_wndproc` tells apart (engine.c:222). -/
inductive MouseButton where
  | left
  | right
  | middle
deriving DecidableEq, Repr

/-- The index of a button in `mouse_state` (engine.c:222):
`int button = (left) ? 1 : (right) ? 2 : 3`. -/
def MouseButton.index : MouseButton → Nat
  | .left => 1
  | .right => 2
  | .middle => 3

/-- What happens to the input state: the window messages that `engine_wndproc` handles,
and the frame boundary. -/
inductive InputEvent where
  | keydown (wparam lparam : Nat)
  | keyup (wparam : Nat)
  | char (wparam : Nat)
  | buttondown (button : MouseButton) (nx ny : Int)
  | buttonup (button : MouseButton) (nx ny : Int)
  | mousemove (nx ny : Int)
  | mousewheel (wheel_delta : Int)
  | frame
deriving DecidableEq, Repr

/-- The input state after an event. -/
def InputEvent.run : InputEvent → InputState → InputState
  | .keydown wparam lparam, s => wndproc_keydown s wparam lparam
  | .keyup wparam, s => wndproc_keyup s wparam
  | .char wparam, s => wndproc_char s wparam
  | .buttondown button nx ny, s => wndproc_buttondown s button.index nx ny
  | .buttonup button nx ny, s => wndproc_buttonup s button.index nx ny
  | .mousemove nx ny, s => wndproc_mousemove s nx ny
  | .mousewheel wheel_delta, s => wndproc_mousewheel s wheel_delta
  | .frame, s => engine_update_clear s

/-- The input states that a run can reach: the all-zero state of a fresh engine, and the
state after one more event. -/
inductive InputState.Reachable : InputState → Prop where
  | zero : InputState.Reachable InputState.zero
  | step (ev : InputEvent) (s : InputState) (h : InputState.Reachable s) :
      InputState.Reachable (ev.run s)

/-- A flag cell uses only the three flag bits and does not have `DOWN` and `RELEASED`
both set. -/
def flags_ok (v : Nat) : Prop :=
  v < 8 ∧ ¬ (v &&& ENGINE_INPUT_DOWN ≠ 0 ∧ v &&& ENGINE_INPUT_RELEASED ≠ 0)

instance (v : Nat) : Decidable (flags_ok v) := by unfold flags_ok; infer_instance

/-- The invariant of the loop of `engine_draw_circle` for the radius `r`: `(x, y)` is in
the second octant, `dx` and `dy` are `2x` and `-2y`, the error term is the midpoint
value `(x + 1)^2 + y^2 - y - r^2`, and `x^2 + y^2` is away from `r^2` by less than `y`. -/
def circle_inv (r E dx dy x y : Int) : Prop :=
  0 ≤ x ∧ x ≤ y ∧ y ≤ r ∧ dx = 2 * x ∧ dy = -2 * y ∧
    E = (x + 1) * (x + 1) + y * y - y - r * r ∧
    -y ≤ x * x + y * y - r * r ∧ x * x + y * y - r * r ≤ y - 1

/-- The point `p` is one of the eight reflections of the offset `(a, b)` about the
centre `(x0, y0)`. -/
def on_octants (x0 y0 a b : Int) (p : Int × Int) : Prop :=
  p = (x0 + a, y0 + b) ∨ p = (x0 - a, y0 + b) ∨ p = (x0 + a, y0 - b) ∨
    p = (x0 - a, y0 - b) ∨ p = (x0 + b, y0 + a) ∨ p = (x0 - b, y0 + a) ∨
    p = (x0 + b, y0 - a) ∨ p = (x0 - b, y0 - a)

/-! # Lemmas

## Loads and stores -/

theorem Image.store_w (img : Image) (i : Int) (c : Color) : (img.store i c).w = img.w := by
  unfold Image.store; split <;> rfl

theorem Image.store_h (img : Image) (i : Int) (c : Color) : (img.store i c).h = img.h := by
  unfold Image.store; split <;> rfl

theorem Image.store_length (img : Image) (i : Int) (c : Color) :
    (img.store i c).pixels.length = img.pixels.length := by
  unfold Image.store; split <;> simp

/-- Reading back after a store, at an index inside the pixel array. -/
theorem Image.load_store (img : Image) (i j : Int) (c : Color)
    (hj : 0 ≤ j) (hjl : j < img.pixels.length) :
    (img.store i c).load j = if i = j then c else img.load j := by
  have hjn : j.toNat < img.pixels.length := by omega
  unfold Image.store Image.load
  by_cases hi : 0 ≤ i
  · simp only [hi, hj, if_true, List.getD_eq_getElem?_getD, List.getElem?_set]
    by_cases hij : i = j
    · subst hij
      simp [hjn]
    · have : i.toNat ≠ j.toNat := by omega
      simp [this, hij]
  · have hij : i ≠ j := by omega
    simp [hi, hj, hij]

/-- A pixel inside the surface has a flat index inside the pixel array. -/
theorem index_in_bounds (W H px py : Int) (hx0 : 0 ≤ px) (hx1 : px < W) (hy0 : 0 ≤ py)
    (hy1 : py < H) : 0 ≤ px + py * W ∧ px + py * W < W * H := by
  have hW : 0 < W := by omega
  constructor
  · have := mul_nonneg hy0 hW.le
    omega
  · have h1 : (py + 1) * W ≤ H * W := mul_le_mul_of_nonneg_right (by omega) hW.le
    have h2 : (py + 1) * W = py * W + W := by ring
    have h3 : H * W = W * H := mul_comm _ _
    omega

/-- The flat index `px + py * W` falls in the span `[x0, x0 + w)` of row `y0` exactly when
`(px, py)` is in that span; the span lies inside the row. -/
theorem index_in_span (W px py x0 y0 w : Int) (hx0 : 0 ≤ px) (hx1 : px < W)
    (h0 : 0 ≤ x0) (h1 : 0 < w → x0 + w ≤ W) :
    (x0 + y0 * W ≤ px + py * W ∧ px + py * W < x0 + y0 * W + w) ↔
      (py = y0 ∧ x0 ≤ px ∧ px < x0 + w) := by
  have hW : 0 ≤ W := by omega
  constructor
  · rintro ⟨ha, hb⟩
    rcases lt_trichotomy py y0 with h | h | h
    · exfalso
      have h2 : (py + 1) * W ≤ y0 * W := mul_le_mul_of_nonneg_right (by omega) hW
      have h3 : (py + 1) * W = py * W + W := by ring
      omega
    · subst h
      omega
    · exfalso
      have h2 : (y0 + 1) * W ≤ py * W := mul_le_mul_of_nonneg_right (by omega) hW
      have h3 : (y0 + 1) * W = y0 * W + W := by ring
      omega
  · rintro ⟨rfl, ha, hb⟩
    omega

/-! ## `engine_draw_rect_fill` -/

theorem rect_fill_row_spec (color : Color) (n : Nat) :
    ∀ (img : Image) (d : Int),
      (rect_fill_row color n img d).2 = d + n ∧
      (rect_fill_row color n img d).1.w = img.w ∧
      (rect_fill_row color n img d).1.h = img.h ∧
      (rect_fill_row color n img d).1.pixels.length = img.pixels.length ∧
      ∀ j : Int, 0 ≤ j → j < img.pixels.length →
        (rect_fill_row color n img d).1.load j =
          if d ≤ j ∧ j < d + n then engine_blend_pixel (img.load j) color else img.load j := by
  induction n with
  | zero =>
    intro img d
    refine ⟨by simp [rect_fill_row], rfl, rfl, rfl, ?_⟩
    intro j _ _
    have : ¬ (d ≤ j ∧ j < d + ((0 : Nat) : Int)) := by omega
    rw [if_neg this]
    rfl
  | succ n ih =>
    intro img d
    obtain ⟨h1, h2, h3, h4, h5⟩ :=
      ih (img.store d (engine_blend_pixel (img.load d) color)) (d + 1)
    simp only [rect_fill_row]
    refine ⟨by rw [h1]; push_cast; ring, by rw [h2, Image.store_w],
      by rw [h3, Image.store_h], by rw [h4, Image.store_length], ?_⟩
    intro j hj0 hj1
    rw [h5 j hj0 (by rw [Image.store_length]; exact hj1), Image.load_store _ _ _ _ hj0 hj1]
    by_cases hdj : d = j
    · subst hdj
      have c1 : ¬ (d + 1 ≤ d ∧ d < d + 1 + (n : Int)) := by omega
      have c2 : d ≤ d ∧ d < d + ((n + 1 : Nat) : Int) := by omega
      rw [if_neg c1, if_pos c2, if_pos rfl]
    · by_cases hc : d + 1 ≤ j ∧ j < d + 1 + (n : Int)
      · have c2 : d ≤ j ∧ j < d + ((n + 1 : Nat) : Int) := by omega
        rw [if_pos hc, if_pos c2, if_neg hdj]
      · have c2 : ¬ (d ≤ j ∧ j < d + ((n + 1 : Nat) : Int)) := by omega
        rw [if_neg hc, if_neg c2, if_neg hdj]

theorem rect_fill_rows_zero (color : Color) (dr : Int) (n : Nat) :
    ∀ (img : Image) (d : Int), rect_fill_rows color 0 dr n img d = img := by
  induction n with
  | zero => intro img d; rfl
  | succ n ih => intro img d; simp only [rect_fill_rows, rect_fill_row]; exact ih _ _

theorem rect_fill_rows_spec (color : Color) (w : Nat) (W x0 : Int) (h0 : 0 ≤ x0)
    (h1 : x0 + w ≤ W) (n : Nat) :
    ∀ (img : Image) (y0 : Int),
      (rect_fill_rows color w (W - w) n img (x0 + y0 * W)).w = img.w ∧
      (rect_fill_rows color w (W - w) n img (x0 + y0 * W)).h = img.h ∧
      (rect_fill_rows color w (W - w) n img (x0 + y0 * W)).pixels.length =
        img.pixels.length ∧
      ∀ px py : Int, 0 ≤ px → px < W → 0 ≤ px + py * W → px + py * W < img.pixels.length →
        (rect_fill_rows color w (W - w) n img (x0 + y0 * W)).load (px + py * W) =
          if (x0 ≤ px ∧ px < x0 + w) ∧ (y0 ≤ py ∧ py < y0 + n) then
            engine_blend_pixel (img.load (px + py * W)) color
          else img.load (px + py * W) := by
  induction n with
  | zero =>
    intro img y0
    refine ⟨rfl, rfl, rfl, ?_⟩
    intro px py _ _ _ _
    have : ¬ ((x0 ≤ px ∧ px < x0 + w) ∧ (y0 ≤ py ∧ py < y0 + ((0 : Nat) : Int))) := by omega
    rw [if_neg this]
    rfl
  | succ n ih =>
    intro img y0
    obtain ⟨r1, r2, r3, r4, r5⟩ := rect_fill_row_spec color w img (x0 + y0 * W)
    have hd : (rect_fill_row color w img (x0 + y0 * W)).2 + (W - w) = x0 + (y0 + 1) * W := by
      rw [r1]; ring
    obtain ⟨i1, i2, i3, i5⟩ := ih (rect_fill_row color w img (x0 + y0 * W)).1 (y0 + 1)
    simp only [rect_fill_rows]
    rw [hd]
    refine ⟨by rw [i1, r2], by rw [i2, r3], by rw [i3, r4], ?_⟩
    intro px py hx0 hx1 hj0 hj1
    rw [i5 px py hx0 hx1 hj0 (by rw [r4]; exact hj1), r5 _ hj0 hj1]
    have hspan := index_in_span W px py x0 y0 w hx0 hx1 h0 (fun _ => h1)
    by_cases hrow : py = y0
    · subst hrow
      have c1 : ¬ ((x0 ≤ px ∧ px < x0 + w) ∧ (py + 1 ≤ py ∧ py < py + 1 + (n : Int))) := by
        omega
      rw [if_neg c1]
      by_cases hcol : x0 ≤ px ∧ px < x0 + w
      · have c2 : (x0 ≤ px ∧ px < x0 + w) ∧ (py ≤ py ∧ py < py + ((n + 1 : Nat) : Int)) := by
          omega
        rw [if_pos (hspan.2 ⟨rfl, hcol⟩), if_pos c2]
      · have c2 : ¬ ((x0 ≤ px ∧ px < x0 + w) ∧ (py ≤ py ∧ py < py + ((n + 1 : Nat) : Int))) := by
          omega
        have c3 : ¬ (x0 + py * W ≤ px + py * W ∧ px + py * W < x0 + py * W + w) := by
          intro h; exact hcol (hspan.1 h).2
        rw [if_neg c3, if_neg c2]
    · have c3 : ¬ (x0 + y0 * W ≤ px + py * W ∧ px + py * W < x0 + y0 * W + w) := by
        intro h; exact hrow (hspan.1 h).1
      rw [if_neg c3]
      by_cases hc : (x0 ≤ px ∧ px < x0 + w) ∧ (y0 + 1 ≤ py ∧ py < y0 + 1 + (n : Int))
      · have c2 : (x0 ≤ px ∧ px < x0 + w) ∧ (y0 ≤ py ∧ py < y0 + ((n + 1 : Nat) : Int)) := by
          omega
        rw [if_pos hc, if_pos c2]
      · have c2 : ¬ ((x0 ≤ px ∧ px < x0 + w) ∧ (y0 ≤ py ∧ py < y0 + ((n + 1 : Nat) : Int))) := by
          omega
        rw [if_neg hc, if_neg c2]

theorem intersect_contains (a b : Rect) (px py : Int) :
    (engine_intersect_rects a b).contains px py ↔ a.contains px py ∧ b.contains px py := by
  unfold engine_intersect_rects Rect.contains
  simp only
  omega

theorem set_clip_clip_ok (e : Engine) (R : Rect) : (engine_set_clip e R).clip_ok := by
  unfold Engine.clip_ok engine_set_clip engine_intersect_rects engine_rect
  simp only
  omega

theorem set_clip_contains (e : Engine) (R : Rect) (px py : Int) :
    (engine_set_clip e R).clip.contains px py ↔
      R.contains px py ∧ (0 ≤ px ∧ px < e.screen.w ∧ 0 ≤ py ∧ py < e.screen.h) := by
  unfold engine_set_clip
  simp only [intersect_contains]
  unfold Rect.contains engine_rect
  simp only
  omega

/-- What `engine_draw_rect_fill` does to each pixel of the surface, for a clip inside the
surface. -/
theorem draw_rect_fill_pixel (e : Engine) (rect : Rect) (c : Color) (hc : e.clip_ok)
    (hl : (e.screen.pixels.length : Int) = e.screen.w * e.screen.h) (ha : c.a ≠ 0) :
    (engine_draw_rect_fill e rect c).clip = e.clip ∧
    (engine_draw_rect_fill e rect c).screen.w = e.screen.w ∧
    (engine_draw_rect_fill e rect c).screen.h = e.screen.h ∧
    (engine_draw_rect_fill e rect c).screen.pixels.length = e.screen.pixels.length ∧
    ∀ px py : Int, 0 ≤ px → px < e.screen.w → 0 ≤ py → py < e.screen.h →
      (engine_draw_rect_fill e rect c).screen.pixel px py =
        if rect.contains px py ∧ e.clip.contains px py then
          engine_blend_pixel (e.screen.pixel px py) c
        else e.screen.pixel px py := by
  obtain ⟨hc0, hc1, hc2, hc3⟩ := hc
  have hI := intersect_contains rect e.clip
  unfold engine_draw_rect_fill
  rw [if_neg ha]
  simp only
  generalize hr : engine_intersect_rects rect e.clip = r at hI
  have hrx : e.clip.x ≤ r.x := by
    rw [← hr]; unfold engine_intersect_rects; simp only; omega
  have hrw : r.x + r.w ≤ e.clip.x + e.clip.w := by
    rw [← hr]; unfold engine_intersect_rects; simp only; omega
  by_cases hw : r.w ≤ 0
  · have hz : r.w.toNat = 0 := by omega
    rw [hz, rect_fill_rows_zero]
    refine ⟨trivial, rfl, rfl, rfl, ?_⟩
    intro px py _ _ _ _
    have : ¬ (rect.contains px py ∧ e.clip.contains px py) := by
      rw [← hI]; unfold Rect.contains; omega
    rw [if_neg this]
  · have hwn : ((r.w.toNat : Nat) : Int) = r.w := by omega
    have key := rect_fill_rows_spec c r.w.toNat e.screen.w r.x (by omega) (by omega)
      r.h.toNat e.screen r.y
    rw [hwn] at key
    obtain ⟨k1, k2, k3, k5⟩ := key
    refine ⟨trivial, k1, k2, k3, ?_⟩
    intro px py hx0 hx1 hy0 hy1
    have hb := index_in_bounds e.screen.w e.screen.h px py hx0 hx1 hy0 hy1
    unfold Image.pixel
    simp only [k1]
    rw [k5 px py hx0 hx1 hb.1 (by rw [hl]; exact hb.2)]
    by_cases hin : rect.contains px py ∧ e.clip.contains px py
    · have c1 : (r.x ≤ px ∧ px < r.x + r.w) ∧ (r.y ≤ py ∧ py < r.y + (r.h.toNat : Int)) := by
        have := (hI px py).2 hin
        unfold Rect.contains at this
        omega
      rw [if_pos hin, if_pos c1]
    · have c1 : ¬ ((r.x ≤ px ∧ px < r.x + r.w) ∧ (r.y ≤ py ∧ py < r.y + (r.h.toNat : Int))) := by
        intro h
        apply hin
        rw [← hI]
        unfold Rect.contains
        omega
      rw [if_neg hin, if_neg c1]

/-- Two surfaces of the same shape with the same pixel at every position are equal. -/
theorem Image.ext_pixel (a b : Image) (hw : a.w = b.w) (hh : a.h = b.h)
    (hl : a.pixels.length = b.pixels.length) (hla : (a.pixels.length : Int) = a.w * a.h)
    (hW : 0 < a.w)
    (hp : ∀ px py : Int, 0 ≤ px → px < a.w → 0 ≤ py → py < a.h →
      a.pixel px py = b.pixel px py) : a = b := by
  obtain ⟨ap, aw, ah⟩ := a
  obtain ⟨bp, bw, bh⟩ := b
  simp only at hw hh hl hla hW hp
  subst hw hh
  have : ap = bp := by
    apply List.ext_getElem hl
    intro n h1 h2
    have hn : (n : Int) < aw * ah := by omega
    have hdiv : (n : Int) / aw < ah := by
      apply Int.ediv_lt_of_lt_mul hW
      rw [mul_comm]; exact hn
    have hq := hp ((n : Int) % aw) ((n : Int) / aw) (Int.emod_nonneg _ (by omega))
      (Int.emod_lt_of_pos _ hW) (Int.ediv_nonneg (by omega) hW.le) hdiv
    unfold Image.pixel Image.load at hq
    simp only at hq
    have hidx : (n : Int) % aw + (n : Int) / aw * aw = n := by
      rw [mul_comm]; exact Int.emod_add_ediv _ _
    rw [hidx] at hq
    simpa [List.getD_eq_getElem?_getD, h1, h2] using hq
  subst this
  rfl


/-! ## `engine_draw_image3` -/

theorem image3_cols_spec (img : Image) (srow drow stepx : Int) (fn : Nat)
    (mul add : Color) (n : Nat) :
    ∀ (scr : Image) (dx sx : Int),
      (image3_cols img srow drow stepx fn mul add n scr dx sx).w = scr.w ∧
      (image3_cols img srow drow stepx fn mul add n scr dx sx).h = scr.h ∧
      (image3_cols img srow drow stepx fn mul add n scr dx sx).pixels.length =
        scr.pixels.length ∧
      ∀ j : Int, 0 ≤ j → j < scr.pixels.length →
        (image3_cols img srow drow stepx fn mul add n scr dx sx).load j =
          if drow + dx ≤ j ∧ j < drow + dx + n then
            image3_blend fn (scr.load j)
              (img.load (srow + ((sx + (j - (drow + dx)) * stepx) >>> (10 : Nat)))) mul add
          else scr.load j := by
  induction n with
  | zero =>
    intro scr dx sx
    refine ⟨rfl, rfl, rfl, ?_⟩
    intro j _ _
    have : ¬ (drow + dx ≤ j ∧ j < drow + dx + ((0 : Nat) : Int)) := by omega
    rw [if_neg this]
    rfl
  | succ n ih =>
    intro scr dx sx
    obtain ⟨i1, i2, i3, i5⟩ := ih
      (scr.store (drow + dx)
        (image3_blend fn (scr.load (drow + dx)) (img.load (srow + (sx >>> (10 : Nat)))) mul add))
      (dx + 1) (sx + stepx)
    simp only [image3_cols]
    refine ⟨by rw [i1, Image.store_w], by rw [i2, Image.store_h],
      by rw [i3, Image.store_length], ?_⟩
    intro j hj0 hj1
    rw [i5 j hj0 (by rw [Image.store_length]; exact hj1), Image.load_store _ _ _ _ hj0 hj1]
    have hsx : sx + stepx + (j - (drow + (dx + 1))) * stepx = sx + (j - (drow + dx)) * stepx := by
      ring
    rw [hsx]
    by_cases hdj : drow + dx = j
    · have c1 : ¬ (drow + (dx + 1) ≤ j ∧ j < drow + (dx + 1) + (n : Int)) := by omega
      have c2 : drow + dx ≤ j ∧ j < drow + dx + ((n + 1 : Nat) : Int) := by omega
      rw [if_neg c1, if_pos c2, if_pos hdj]
      subst hdj
      simp
    · by_cases hc : drow + (dx + 1) ≤ j ∧ j < drow + (dx + 1) + (n : Int)
      · have c2 : drow + dx ≤ j ∧ j < drow + dx + ((n + 1 : Nat) : Int) := by omega
        rw [if_pos hc, if_pos c2, if_neg hdj]
      · have c2 : ¬ (drow + dx ≤ j ∧ j < drow + dx + ((n + 1 : Nat) : Int)) := by omega
        rw [if_neg hc, if_neg c2, if_neg hdj]

theorem image3_row_spec (img : Image) (dst src : Rect) (cx1 cy1 cx2 cy2 stepx : Int)
    (fn : Nat) (mul add : Color) (scr : Image) (dy sy : Int)
    (h0 : 0 ≤ cx1) (h1 : cx2 ≤ scr.w) :
    (image3_row img dst src cx1 cy1 cx2 cy2 stepx fn mul add scr dy sy).w = scr.w ∧
    (image3_row img dst src cx1 cy1 cx2 cy2 stepx fn mul add scr dy sy).h = scr.h ∧
    (image3_row img dst src cx1 cy1 cx2 cy2 stepx fn mul add scr dy sy).pixels.length =
      scr.pixels.length ∧
    ∀ px py : Int, 0 ≤ px → px < scr.w → 0 ≤ px + py * scr.w →
      px + py * scr.w < scr.pixels.length →
      (image3_row img dst src cx1 cy1 cx2 cy2 stepx fn mul add scr dy sy).load
          (px + py * scr.w) =
        if py = dy ∧ (cy1 ≤ py ∧ py < cy2) ∧ (dst.x ≤ px ∧ px < dst.x + dst.w) ∧
            (cx1 ≤ px ∧ px < cx2) then
          image3_blend fn (scr.load (px + py * scr.w))
            (img.load ((sy >>> (10 : Nat)) * img.w +
              ((src.x * 1024 + (px - dst.x) * stepx) >>> (10 : Nat)))) mul add
        else scr.load (px + py * scr.w) := by
  unfold image3_row
  by_cases hrow : dy ≥ cy1 ∧ dy < cy2
  · rw [if_pos hrow]
    simp only
    generalize hdx1 : (if dst.x < cx1 then cx1 else dst.x) = dx1
    generalize hsx1 : (if dst.x < cx1 then src.x * 1024 + (cx1 - dst.x) * stepx
      else src.x * 1024) = sx1
    have hdx1v : dx1 = max dst.x cx1 := by
      rw [← hdx1]; split <;> omega
    have hsx : ∀ px : Int, sx1 + (px - dx1) * stepx = src.x * 1024 + (px - dst.x) * stepx := by
      intro px
      rw [← hsx1, ← hdx1]
      split <;> ring
    obtain ⟨k1, k2, k3, k5⟩ := image3_cols_spec img ((sy >>> (10 : Nat)) * img.w) (dy * scr.w) stepx
      fn mul add (min cx2 (dst.x + dst.w) - dx1).toNat scr dx1 sx1
    refine ⟨k1, k2, k3, ?_⟩
    intro px py hx0 hx1 hj0 hj1
    rw [k5 _ hj0 hj1]
    have hspan := index_in_span scr.w px py dx1 dy
      ((min cx2 (dst.x + dst.w) - dx1).toNat : Int) hx0 hx1 (by omega) (by omega)
    have hcomm : dy * scr.w + dx1 = dx1 + dy * scr.w := by ring
    rw [hcomm]
    by_cases hin : py = dy ∧ (cy1 ≤ py ∧ py < cy2) ∧ (dst.x ≤ px ∧ px < dst.x + dst.w) ∧
        (cx1 ≤ px ∧ px < cx2)
    · have c1 := hspan.2 ⟨hin.1, by omega, by omega⟩
      rw [if_pos hin, if_pos c1]
      have hidx : px + py * scr.w - (dx1 + dy * scr.w) = px - dx1 := by
        rw [hin.1]; ring
      rw [hidx, hsx]
    · have c1 : ¬ (dx1 + dy * scr.w ≤ px + py * scr.w ∧
          px + py * scr.w < dx1 + dy * scr.w +
            ((min cx2 (dst.x + dst.w) - dx1).toNat : Int)) := by
        intro h
        have := hspan.1 h
        apply hin
        omega
      rw [if_neg hin, if_neg c1]
  · rw [if_neg hrow]
    refine ⟨rfl, rfl, rfl, ?_⟩
    intro px py _ _ _ _
    have : ¬ (py = dy ∧ (cy1 ≤ py ∧ py < cy2) ∧ (dst.x ≤ px ∧ px < dst.x + dst.w) ∧
        (cx1 ≤ px ∧ px < cx2)) := by
      omega
    rw [if_neg this]

theorem image3_rows_spec (img : Image) (dst src : Rect) (cx1 cy1 cx2 cy2 stepx stepy : Int)
    (fn : Nat) (mul add : Color) (W : Int) (h0 : 0 ≤ cx1) (h1 : cx2 ≤ W) (n : Nat) :
    ∀ (scr : Image) (dy sy : Int), scr.w = W →
      (image3_rows img dst src cx1 cy1 cx2 cy2 stepx stepy fn mul add n scr dy sy).w = scr.w ∧
      (image3_rows img dst src cx1 cy1 cx2 cy2 stepx stepy fn mul add n scr dy sy).h = scr.h ∧
      (image3_rows img dst src cx1 cy1 cx2 cy2 stepx stepy fn mul add n scr dy sy).pixels.length
        = scr.pixels.length ∧
      ∀ px py : Int, 0 ≤ px → px < W → 0 ≤ px + py * W → px + py * W < scr.pixels.length →
        (image3_rows img dst src cx1 cy1 cx2 cy2 stepx stepy fn mul add n scr dy sy).load
            (px + py * W) =
          if (dy ≤ py ∧ py < dy + n) ∧ (cy1 ≤ py ∧ py < cy2) ∧
              (dst.x ≤ px ∧ px < dst.x + dst.w) ∧ (cx1 ≤ px ∧ px < cx2) then
            image3_blend fn (scr.load (px + py * W))
              (img.load (((sy + (py - dy) * stepy) >>> (10 : Nat)) * img.w +
                ((src.x * 1024 + (px - dst.x) * stepx) >>> (10 : Nat)))) mul add
          else scr.load (px + py * W) := by
  induction n with
  | zero =>
    intro scr dy sy _
    refine ⟨rfl, rfl, rfl, ?_⟩
    intro px py _ _ _ _
    have : ¬ ((dy ≤ py ∧ py < dy + ((0 : Nat) : Int)) ∧ (cy1 ≤ py ∧ py < cy2) ∧
        (dst.x ≤ px ∧ px < dst.x + dst.w) ∧ (cx1 ≤ px ∧ px < cx2)) := by omega
    rw [if_neg this]
    rfl
  | succ n ih =>
    intro scr dy sy hW
    obtain ⟨r1, r2, r3, r5⟩ := image3_row_spec img dst src cx1 cy1 cx2 cy2 stepx fn mul add
      scr dy sy h0 (by rw [hW]; exact h1)
    obtain ⟨i1, i2, i3, i5⟩ := ih
      (image3_row img dst src cx1 cy1 cx2 cy2 stepx fn mul add scr dy sy) (dy + 1)
      (sy + stepy) (by rw [r1, hW])
    simp only [image3_rows]
    refine ⟨by rw [i1, r1], by rw [i2, r2], by rw [i3, r3], ?_⟩
    intro px py hx0 hx1 hj0 hj1
    rw [hW] at r5
    rw [i5 px py hx0 hx1 hj0 (by rw [r3]; exact hj1), r5 px py hx0 hx1 hj0 hj1]
    have hsy : sy + stepy + (py - (dy + 1)) * stepy = sy + (py - dy) * stepy := by ring
    rw [hsy]
    by_cases hrow : py = dy
    · have c1 : ¬ ((dy + 1 ≤ py ∧ py < dy + 1 + (n : Int)) ∧ (cy1 ≤ py ∧ py < cy2) ∧
          (dst.x ≤ px ∧ px < dst.x + dst.w) ∧ (cx1 ≤ px ∧ px < cx2)) := by omega
      rw [if_neg c1]
      by_cases hin : py = dy ∧ (cy1 ≤ py ∧ py < cy2) ∧ (dst.x ≤ px ∧ px < dst.x + dst.w) ∧
          (cx1 ≤ px ∧ px < cx2)
      · have c2 : (dy ≤ py ∧ py < dy + ((n + 1 : Nat) : Int)) ∧ (cy1 ≤ py ∧ py < cy2) ∧
            (dst.x ≤ px ∧ px < dst.x + dst.w) ∧ (cx1 ≤ px ∧ px < cx2) := by omega
        rw [if_pos hin, if_pos c2]
        subst hrow
        simp
      · have c2 : ¬ ((dy ≤ py ∧ py < dy + ((n + 1 : Nat) : Int)) ∧ (cy1 ≤ py ∧ py < cy2) ∧
            (dst.x ≤ px ∧ px < dst.x + dst.w) ∧ (cx1 ≤ px ∧ px < cx2)) := by omega
        rw [if_neg hin, if_neg c2]
    · have c1 : ¬ (py = dy ∧ (cy1 ≤ py ∧ py < cy2) ∧ (dst.x ≤ px ∧ px < dst.x + dst.w) ∧
          (cx1 ≤ px ∧ px < cx2)) := by omega
      rw [if_neg c1]
      by_cases hc : (dy + 1 ≤ py ∧ py < dy + 1 + (n : Int)) ∧ (cy1 ≤ py ∧ py < cy2) ∧
          (dst.x ≤ px ∧ px < dst.x + dst.w) ∧ (cx1 ≤ px ∧ px < cx2)
      · have c2 : (dy ≤ py ∧ py < dy + ((n + 1 : Nat) : Int)) ∧ (cy1 ≤ py ∧ py < cy2) ∧
            (dst.x ≤ px ∧ px < dst.x + dst.w) ∧ (cx1 ≤ px ∧ px < cx2) := by omega
        rw [if_pos hc, if_pos c2]
      · have c2 : ¬ ((dy ≤ py ∧ py < dy + ((n + 1 : Nat) : Int)) ∧ (cy1 ≤ py ∧ py < cy2) ∧
            (dst.x ≤ px ∧ px < dst.x + dst.w) ∧ (cx1 ≤ px ∧ px < cx2)) := by omega
        rw [if_neg hc, if_neg c2]

/-- What `engine_draw_image3` does to each pixel of the surface, for a clip inside the
surface: a pixel in the destination rectangle and in the clip is blended with the source
pixel at row `image3_src_row`, column `image3_src_col`; every other pixel is kept. -/
theorem draw_image3_pixel (e : Engine) (img : Image) (dst src : Rect) (mul add : Color)
    (hc : e.clip_ok) (hl : (e.screen.pixels.length : Int) = e.screen.w * e.screen.h) :
    (engine_draw_image3 e img dst src mul add).clip = e.clip ∧
    (engine_draw_image3 e img dst src mul add).screen.w = e.screen.w ∧
    (engine_draw_image3 e img dst src mul add).screen.h = e.screen.h ∧
    (engine_draw_image3 e img dst src mul add).screen.pixels.length =
      e.screen.pixels.length ∧
    ∀ px py : Int, 0 ≤ px → px < e.screen.w → 0 ≤ py → py < e.screen.h →
      (engine_draw_image3 e img dst src mul add).screen.pixel px py =
        if (src.w ≠ 0 ∧ dst.w ≠ 0 ∧ dst.h ≠ 0) ∧ dst.contains px py ∧
            e.clip.contains px py then
          image3_blend (image3_blend_fn mul add) (e.screen.pixel px py)
            (img.load (image3_src_row dst src py * img.w + image3_src_col dst src px))
            mul add
        else e.screen.pixel px py := by
  obtain ⟨hc0, hc1, hc2, hc3⟩ := hc
  unfold engine_draw_image3
  by_cases hg : src.w = 0 ∨ src.w = 0 ∨ dst.w = 0 ∨ dst.h = 0
  · rw [if_pos hg]
    refine ⟨rfl, rfl, rfl, rfl, ?_⟩
    intro px py _ _ _ _
    have : ¬ ((src.w ≠ 0 ∧ dst.w ≠ 0 ∧ dst.h ≠ 0) ∧ dst.contains px py ∧
        e.clip.contains px py) := by
      intro h; omega
    rw [if_neg this]
  · rw [if_neg hg]
    simp only
    generalize hdy1 : (if dst.y < e.clip.y then e.clip.y else dst.y) = dy1
    generalize hsy1 : (if dst.y < e.clip.y then
      src.y * 1024 + (e.clip.y - dst.y) * Int.tdiv (src.h * 1024) dst.h
      else src.y * 1024) = sy1
    have hdy1v : dy1 = max dst.y e.clip.y := by
      rw [← hdy1]; split <;> omega
    have hsy : ∀ py : Int, sy1 + (py - dy1) * Int.tdiv (src.h * 1024) dst.h =
        src.y * 1024 + (py - dst.y) * Int.tdiv (src.h * 1024) dst.h := by
      intro py
      rw [← hsy1, ← hdy1]
      split <;> ring
    obtain ⟨k1, k2, k3, k5⟩ := image3_rows_spec img dst src e.clip.x e.clip.y
      (e.clip.x + e.clip.w) (e.clip.y + e.clip.h) (Int.tdiv (src.w * 1024) dst.w)
      (Int.tdiv (src.h * 1024) dst.h) (image3_blend_fn mul add) mul add e.screen.w hc0 hc2
      (min (e.clip.y + e.clip.h) (dst.y + dst.h) - dy1).toNat e.screen dy1 sy1 rfl
    refine ⟨trivial, k1, k2, k3, ?_⟩
    intro px py hx0 hx1 hy0 hy1
    have hb := index_in_bounds e.screen.w e.screen.h px py hx0 hx1 hy0 hy1
    unfold Image.pixel
    simp only [k1]
    rw [k5 px py hx0 hx1 hb.1 (by rw [hl]; exact hb.2), hsy]
    unfold Rect.contains image3_src_row image3_src_col
    by_cases hin : (src.w ≠ 0 ∧ dst.w ≠ 0 ∧ dst.h ≠ 0) ∧
        (dst.x ≤ px ∧ dst.y ≤ py ∧ px < dst.x + dst.w ∧ py < dst.y + dst.h) ∧
        (e.clip.x ≤ px ∧ e.clip.y ≤ py ∧ px < e.clip.x + e.clip.w ∧ py < e.clip.y + e.clip.h)
    · rw [if_pos hin, if_pos (by omega)]
    · rw [if_neg hin, if_neg (by omega)]


/-! ## Frame lemmas: nothing is drawn outside the clip -/

theorem established_clip_ok (e : Engine) (h : e.clip_established) : e.clip_ok := by
  rcases h with h | ⟨R, h⟩
  · unfold Engine.clip_ok; rw [h]; unfold engine_rect; simp
  · have := set_clip_clip_ok e R
    unfold Engine.clip_ok at this ⊢
    rw [h]
    exact this

theorem set_clip_established (e : Engine) (R : Rect) :
    (engine_set_clip e R).clip_established := Or.inr ⟨R, rfl⟩

/-- The converted byte count is an `int`. -/
theorem to_int32_range (m : Nat) : -(2 ^ 31) ≤ to_int32 m ∧ to_int32 m < 2 ^ 31 := by
  unfold to_int32
  split <;> omega

/-- `engine_alloc` panics exactly when the `int` byte count is negative or `calloc`
returns no block; otherwise the block has `n` bytes. -/
theorem engine_alloc_cases (calloc_ok : Bool) (n : Int) (h0 : -(2 ^ 31) ≤ n)
    (h1 : n < 2 ^ 31) :
    (engine_alloc calloc_ok n = none ↔ (n < 0 ∨ calloc_ok = false)) ∧
    ∀ size, engine_alloc calloc_ok n = some size → 0 ≤ n ∧ (size : Int) = n := by
  unfold engine_alloc to_size_t
  by_cases hn : n < 0
  · have hbig : (n % 2 ^ 64).toNat ≥ 2 ^ 63 := by omega
    rw [if_pos hbig]
    exact ⟨⟨fun _ => Or.inl hn, fun _ => rfl⟩, fun size h => by simp at h⟩
  · have hsmall : ¬ ((n % 2 ^ 64).toNat ≥ 2 ^ 63) := by omega
    rw [if_neg hsmall]
    cases calloc_ok
    · exact ⟨⟨fun _ => Or.inr rfl, fun _ => rfl⟩, fun size h => by simp at h⟩
    · refine ⟨⟨fun h => by simp at h, fun h => ?_⟩, fun size h => ?_⟩
      · rcases h with h | h
        · omega
        · simp at h
      · simp only [if_true, Option.some.injEq] at h
        omega

/-- When `sizeof(Image) + width * height * sizeof(Color)` fits an `int`, that is the
number handed to `engine_alloc`. -/
theorem image_alloc_size_fit (width height : Int) (hw : 0 < width) (hh : 0 < height)
    (hfit : (SIZEOF_IMAGE : Int) + width * height * SIZEOF_COLOR < 2 ^ 31) :
    image_alloc_size width height = SIZEOF_IMAGE + width * height * SIZEOF_COLOR := by
  have hp := mul_pos hw hh
  unfold image_alloc_size to_int32 to_size_t SIZEOF_IMAGE SIZEOF_COLOR at *
  generalize width * height = P at hp hfit ⊢
  push_cast at hfit ⊢
  split <;> omega

/-- What `engine_create_image` returns: an image of the given shape whose pixels are all
zero, `width * height` of them when the byte count fits an `int`. -/
theorem create_image_some (calloc_ok : Bool) (width height : Int) (img : Image)
    (h : engine_create_image_alloc calloc_ok width height = some img) :
    0 < width ∧ 0 < height ∧ img.w = width ∧ img.h = height ∧
    (∀ c, c ∈ img.pixels → c = ⟨0, 0, 0, 0⟩) ∧
    ((SIZEOF_IMAGE : Int) + width * height * SIZEOF_COLOR < 2 ^ 31 →
      (img.pixels.length : Int) = width * height) := by
  unfold engine_create_image_alloc at h
  by_cases hwh : width > 0 ∧ height > 0
  · rw [if_neg (not_not.2 hwh)] at h
    have hr := to_int32_range
      ((SIZEOF_IMAGE + to_size_t (width * height) * SIZEOF_COLOR) % 2 ^ 64)
    have hn : to_int32 ((SIZEOF_IMAGE + to_size_t (width * height) * SIZEOF_COLOR) % 2 ^ 64) =
        image_alloc_size width height := rfl
    rw [hn] at hr
    obtain ⟨_, hsz⟩ := engine_alloc_cases calloc_ok (image_alloc_size width height) hr.1 hr.2
    cases ha : engine_alloc calloc_ok (image_alloc_size width height) with
    | none => rw [ha] at h; simp at h
    | some size =>
      rw [ha] at h
      simp only [Option.some.injEq] at h
      subst h
      refine ⟨hwh.1, hwh.2, rfl, rfl, fun c hc => List.eq_of_mem_replicate hc, ?_⟩
      intro hfit
      have hs := (hsz size ha).2
      rw [image_alloc_size_fit width height hwh.1 hwh.2 hfit] at hs
      have hp := mul_pos hwh.1 hwh.2
      simp only [List.length_replicate]
      unfold SIZEOF_IMAGE SIZEOF_COLOR at *
      generalize width * height = P at hp hs hfit ⊢
      push_cast at hs hfit ⊢
      omega
  · rw [if_pos hwh] at h
    simp at h

theorem engine_create_established (w h : Int) (e : Engine)
    (hfit : (SIZEOF_IMAGE : Int) + w * h * SIZEOF_COLOR < 2 ^ 31)
    (he : engine_create w h = some e) :
    e.screen.valid ∧ e.clip = engine_rect 0 0 e.screen.w e.screen.h := by
  unfold engine_create engine_create_image at he
  cases hi : engine_create_image_alloc true w h with
  | none => rw [hi] at he; simp at he
  | some img =>
    rw [hi] at he
    simp only [Option.some.injEq] at he
    subst he
    obtain ⟨hw, hh, h1, h2, h3, h4⟩ := create_image_some true w h img hi
    refine ⟨⟨by rw [h1]; exact hw, by rw [h2]; exact hh, by rw [h1, h2]; exact h4 hfit, ?_⟩,
      by rw [h1, h2]⟩
    intro c hc
    rw [h3 c hc]
    decide

theorem same_outside_clip_refl (e : Engine) : e.same_outside_clip e :=
  ⟨rfl, rfl, rfl, rfl, fun _ _ _ _ _ _ _ => rfl⟩

theorem same_outside_clip_trans (e1 e2 e3 : Engine) (h12 : e1.same_outside_clip e2)
    (h23 : e2.same_outside_clip e3) : e1.same_outside_clip e3 := by
  obtain ⟨a1, a2, a3, a4, a5⟩ := h12
  obtain ⟨b1, b2, b3, b4, b5⟩ := h23
  refine ⟨by rw [b1, a1], by rw [b2, a2], by rw [b3, a3], by rw [b4, a4], ?_⟩
  intro px py hx0 hx1 hy0 hy1 hout
  rw [b5 px py hx0 (by rw [a2]; exact hx1) hy0 (by rw [a3]; exact hy1) (by rw [a1]; exact hout),
    a5 px py hx0 hx1 hy0 hy1 hout]

theorem ok_of_same_outside_clip (e1 e2 : Engine) (h : e1.same_outside_clip e2) (hok : e1.ok) :
    e2.ok := by
  obtain ⟨a1, a2, a3, a4, _⟩ := h
  unfold Engine.ok Engine.clip_ok at *
  rw [a1, a2, a3, a4]
  exact hok

/-- What `engine_draw_point` does to each pixel of the surface. -/
theorem draw_point_pixel (e : Engine) (x y : Int) (c : Color) (hok : e.ok) :
    (engine_draw_point e x y c).clip = e.clip ∧
    (engine_draw_point e x y c).screen.w = e.screen.w ∧
    (engine_draw_point e x y c).screen.h = e.screen.h ∧
    (engine_draw_point e x y c).screen.pixels.length = e.screen.pixels.length ∧
    ∀ px py : Int, 0 ≤ px → px < e.screen.w → 0 ≤ py → py < e.screen.h →
      (engine_draw_point e x y c).screen.pixel px py =
        if c.a ≠ 0 ∧ e.clip.contains x y ∧ px = x ∧ py = y then
          engine_blend_pixel (e.screen.pixel px py) c
        else e.screen.pixel px py := by
  obtain ⟨⟨hc0, hc1, hc2, hc3⟩, hl⟩ := hok
  unfold engine_draw_point
  by_cases ha : c.a = 0
  · rw [if_pos ha]
    refine ⟨rfl, rfl, rfl, rfl, ?_⟩
    intro px py _ _ _ _
    rw [if_neg (by intro h; exact h.1 ha)]
  · rw [if_neg ha]
    simp only
    by_cases hout : x < e.clip.x ∨ y < e.clip.y ∨ x ≥ e.clip.x + e.clip.w ∨
        y ≥ e.clip.y + e.clip.h
    · rw [if_pos hout]
      refine ⟨rfl, rfl, rfl, rfl, ?_⟩
      intro px py _ _ _ _
      rw [if_neg (by unfold Rect.contains; omega)]
    · rw [if_neg hout]
      refine ⟨rfl, Image.store_w _ _ _, Image.store_h _ _ _, Image.store_length _ _ _, ?_⟩
      intro px py hx0 hx1 hy0 hy1
      have hb := index_in_bounds e.screen.w e.screen.h px py hx0 hx1 hy0 hy1
      unfold Image.pixel
      simp only [Image.store_w]
      rw [Image.load_store _ _ _ _ hb.1 (by rw [hl]; exact hb.2)]
      have hspan := index_in_span e.screen.w px py x y 1 hx0 hx1 (by omega) (by omega)
      by_cases hxy : px = x ∧ py = y
      · rw [if_pos (by rw [hxy.1, hxy.2]), if_pos ⟨ha, by unfold Rect.contains; omega, hxy⟩,
          hxy.1, hxy.2]
      · have c1 : ¬ (x + y * e.screen.w = px + py * e.screen.w) := by
          intro h
          have := hspan.1 (by omega)
          omega
        rw [if_neg c1, if_neg (by intro h; exact hxy h.2.2)]

theorem draw_point_frame (e : Engine) (x y : Int) (c : Color) (hok : e.ok) :
    e.same_outside_clip (engine_draw_point e x y c) := by
  obtain ⟨p1, p2, p3, p4, p5⟩ := draw_point_pixel e x y c hok
  refine ⟨p1, p2, p3, p4, ?_⟩
  intro px py hx0 hx1 hy0 hy1 hout
  rw [p5 px py hx0 hx1 hy0 hy1, if_neg]
  rintro ⟨_, hin, rfl, rfl⟩
  exact hout hin

theorem draw_line_loop_frame (x2 y2 dx sx dy sy : Int) (c : Color) (fuel : Nat) :
    ∀ (e : Engine) (x1 y1 err : Int), e.ok →
      e.same_outside_clip (draw_line_loop x2 y2 dx sx dy sy c fuel e x1 y1 err) := by
  induction fuel with
  | zero => intro e _ _ _ _; exact same_outside_clip_refl e
  | succ n ih =>
    intro e x1 y1 err hok
    have hp := draw_point_frame e x1 y1 c hok
    simp only [draw_line_loop]
    split
    · exact hp
    · exact same_outside_clip_trans _ _ _ hp (ih _ _ _ _ (ok_of_same_outside_clip _ _ hp hok))

theorem draw_line_frame (e : Engine) (x1 y1 x2 y2 : Int) (c : Color) (hok : e.ok) :
    e.same_outside_clip (engine_draw_line e x1 y1 x2 y2 c) := by
  unfold engine_draw_line
  exact draw_line_loop_frame _ _ _ _ _ _ _ _ _ _ _ _ hok

theorem draw_rect_frame (e : Engine) (rect : Rect) (c : Color) (hok : e.ok) :
    e.same_outside_clip (engine_draw_rect e rect c) := by
  unfold engine_draw_rect
  split
  · exact same_outside_clip_refl e
  split
  · exact same_outside_clip_refl e
  split
  · exact draw_line_frame _ _ _ _ _ _ hok
  split
  · exact draw_line_frame _ _ _ _ _ _ hok
  · simp only
    have l1 := draw_line_frame e rect.x rect.y (rect.x + rect.w - 1) rect.y c hok
    have o1 := ok_of_same_outside_clip _ _ l1 hok
    have l2 := draw_line_frame _ (rect.x + rect.w - 1) rect.y (rect.x + rect.w - 1)
      (rect.y + rect.h - 1) c o1
    have o2 := ok_of_same_outside_clip _ _ l2 o1
    have l3 := draw_line_frame _ (rect.x + rect.w - 1) (rect.y + rect.h - 1) rect.x
      (rect.y + rect.h - 1) c o2
    have o3 := ok_of_same_outside_clip _ _ l3 o2
    have l4 := draw_line_frame _ rect.x (rect.y + rect.h - 1) rect.x rect.y c o3
    exact same_outside_clip_trans _ _ _ l1
      (same_outside_clip_trans _ _ _ l2 (same_outside_clip_trans _ _ _ l3 l4))

theorem draw_rect_fill_frame (e : Engine) (rect : Rect) (c : Color) (hok : e.ok) :
    e.same_outside_clip (engine_draw_rect_fill e rect c) := by
  by_cases ha : c.a = 0
  · unfold engine_draw_rect_fill
    rw [if_pos ha]
    exact same_outside_clip_refl e
  · obtain ⟨p1, p2, p3, p4, p5⟩ := draw_rect_fill_pixel e rect c hok.1 hok.2 ha
    refine ⟨p1, p2, p3, p4, ?_⟩
    intro px py hx0 hx1 hy0 hy1 hout
    rw [p5 px py hx0 hx1 hy0 hy1, if_neg (fun h => hout h.2)]

theorem draw_image3_frame (e : Engine) (img : Image) (dst src : Rect) (mul add : Color)
    (hok : e.ok) : e.same_outside_clip (engine_draw_image3 e img dst src mul add) := by
  obtain ⟨p1, p2, p3, p4, p5⟩ := draw_image3_pixel e img dst src mul add hok.1 hok.2
  refine ⟨p1, p2, p3, p4, ?_⟩
  intro px py hx0 hx1 hy0 hy1 hout
  rw [p5 px py hx0 hx1 hy0 hy1, if_neg (fun h => hout h.2.2)]

theorem draw_text2_frame (font : Font) (y : Int) (c : Color) (text : List Nat) :
    ∀ (e : Engine) (x : Int), e.ok →
      e.same_outside_clip (engine_draw_text2 font y c text e x).1 := by
  induction text with
  | nil => intro e _ _; exact same_outside_clip_refl e
  | cons p ps ih =>
    intro e x hok
    simp only [engine_draw_text2]
    split
    · exact same_outside_clip_refl e
    · have h1 : e.same_outside_clip (engine_draw_image2 e font.image x y
          (font.glyphs.getD p default).rect c) := by
        unfold engine_draw_image2
        exact draw_image3_frame _ _ _ _ _ _ hok
      exact same_outside_clip_trans _ _ _ h1 (ih _ _ (ok_of_same_outside_clip _ _ h1 hok))


theorem frame_point (e0 e : Engine) (x y : Int) (c : Color) (hok : e0.ok)
    (h : e0.same_outside_clip e) : e0.same_outside_clip (engine_draw_point e x y c) :=
  same_outside_clip_trans _ _ _ h (draw_point_frame e x y c (ok_of_same_outside_clip _ _ h hok))

theorem frame_line (e0 e : Engine) (x1 y1 x2 y2 : Int) (c : Color) (hok : e0.ok)
    (h : e0.same_outside_clip e) : e0.same_outside_clip (engine_draw_line e x1 y1 x2 y2 c) :=
  same_outside_clip_trans _ _ _ h
    (draw_line_frame e x1 y1 x2 y2 c (ok_of_same_outside_clip _ _ h hok))

theorem draw_circle_loop_frame (x0 y0 : Int) (c : Color) (e0 : Engine) (hok : e0.ok)
    (fuel : Nat) :
    ∀ (e : Engine) (E dx dy x y : Int), e0.same_outside_clip e →
      e0.same_outside_clip (draw_circle_loop x0 y0 c fuel e E dx dy x y) := by
  induction fuel with
  | zero => intro e _ _ _ _ _ h; exact h
  | succ n ih =>
    intro e E dx dy x y h
    simp only [draw_circle_loop]
    split
    · apply ih
      generalize (if E ≥ 0 then y - 1 else y) = y1
      split
      · exact frame_point _ _ _ _ _ hok (frame_point _ _ _ _ _ hok (frame_point _ _ _ _ _ hok
          (frame_point _ _ _ _ _ hok (frame_point _ _ _ _ _ hok (frame_point _ _ _ _ _ hok
          (frame_point _ _ _ _ _ hok (frame_point _ _ _ _ _ hok h)))))))
      · exact frame_point _ _ _ _ _ hok (frame_point _ _ _ _ _ hok (frame_point _ _ _ _ _ hok
          (frame_point _ _ _ _ _ hok h)))
    · exact h

theorem draw_circle_frame (e : Engine) (x0 y0 radius : Int) (c : Color) (hok : e.ok) :
    e.same_outside_clip (engine_draw_circle e x0 y0 radius c) := by
  unfold engine_draw_circle
  split
  · exact same_outside_clip_refl e
  · apply draw_circle_loop_frame _ _ _ _ hok
    exact frame_point _ _ _ _ _ hok (frame_point _ _ _ _ _ hok (frame_point _ _ _ _ _ hok
      (frame_point _ _ _ _ _ hok (same_outside_clip_refl e))))

theorem draw_circle_fill_loop_frame (x0 y0 : Int) (c : Color) (e0 : Engine) (hok : e0.ok)
    (fuel : Nat) :
    ∀ (e : Engine) (E dx dy x y : Int), e0.same_outside_clip e →
      e0.same_outside_clip (draw_circle_fill_loop x0 y0 c fuel e E dx dy x y) := by
  induction fuel with
  | zero => intro e _ _ _ _ _ h; exact h
  | succ n ih =>
    intro e E dx dy x y h
    simp only [draw_circle_fill_loop]
    split
    · apply ih
      generalize (if E ≥ 0 then y - 1 else y) = y1
      have h1 : e0.same_outside_clip
          (if E ≥ 0 then
            engine_draw_line
              (engine_draw_line e (x0 - (x + 1) + 1) (y0 + y1) (x0 + (x + 1)) (y0 + y1) c)
              (x0 - (x + 1) + 1) (y0 - y1) (x0 + (x + 1)) (y0 - y1) c
          else e) := by
        split
        · exact frame_line _ _ _ _ _ _ _ hok (frame_line _ _ _ _ _ _ _ hok h)
        · exact h
      split
      · exact frame_line _ _ _ _ _ _ _ hok (frame_line _ _ _ _ _ _ _ hok h1)
      · exact h1
    · exact h

theorem draw_circle_fill_frame (e : Engine) (x0 y0 radius : Int) (c : Color) (hok : e.ok) :
    e.same_outside_clip (engine_draw_circle_fill e x0 y0 radius c) := by
  unfold engine_draw_circle_fill
  split
  · exact same_outside_clip_refl e
  split
  · exact same_outside_clip_refl e
  · apply draw_circle_fill_loop_frame _ _ _ _ hok
    exact frame_line _ _ _ _ _ _ _ hok (same_outside_clip_refl e)

/-! ## A colour with alpha 0 draws nothing -/

theorem draw_point_alpha0 (e : Engine) (x y : Int) (c : Color) (ha : c.a = 0) :
    engine_draw_point e x y c = e := by
  unfold engine_draw_point
  rw [if_pos ha]

theorem draw_line_loop_alpha0 (x2 y2 dx sx dy sy : Int) (c : Color) (ha : c.a = 0)
    (fuel : Nat) :
    ∀ (e : Engine) (x1 y1 err : Int),
      draw_line_loop x2 y2 dx sx dy sy c fuel e x1 y1 err = e := by
  induction fuel with
  | zero => intro e _ _ _; rfl
  | succ n ih =>
    intro e x1 y1 err
    simp only [draw_line_loop, draw_point_alpha0 _ _ _ _ ha]
    split
    · rfl
    · exact ih _ _ _ _

theorem draw_line_alpha0 (e : Engine) (x1 y1 x2 y2 : Int) (c : Color) (ha : c.a = 0) :
    engine_draw_line e x1 y1 x2 y2 c = e := by
  unfold engine_draw_line
  exact draw_line_loop_alpha0 _ _ _ _ _ _ _ ha _ _ _ _ _


/-! ## Packed-word arithmetic -/

/-- Bitwise and of two numbers split at bit `k` acts on the two halves separately. -/
theorem and_split (k hi lo mhi mlo : Nat) (hlo : lo < 2 ^ k) (hmlo : mlo < 2 ^ k) :
    (2 ^ k * hi + lo) &&& (2 ^ k * mhi + mlo) = 2 ^ k * (hi &&& mhi) + (lo &&& mlo) := by
  apply Nat.eq_of_testBit_eq
  intro j
  rw [Nat.testBit_and, Nat.testBit_mul_pow_two_add _ hlo, Nat.testBit_mul_pow_two_add _ hmlo,
    Nat.testBit_mul_pow_two_add _ (Nat.and_lt_two_pow _ hmlo)]
  split <;> simp

/-- The mask `0xff00ff` keeps the b and r bytes of a packed colour. -/
theorem mask_rb (c : Color) (hb : c.b < 256) (hg : c.g < 256) (hr : c.r < 256) :
    c.w &&& 0xff00ff = c.b + c.r * 65536 := by
  have e1 : c.w = 2 ^ 8 * (2 ^ 8 * (c.r + c.a * 256) + c.g) + c.b := by
    unfold Color.w; ring
  have e2 : (0xff00ff : Nat) = 2 ^ 8 * (2 ^ 8 * (2 ^ 8 - 1) + 0) + (2 ^ 8 - 1) := by norm_num
  rw [e1, e2, and_split 8 _ _ _ _ (by omega) (by norm_num),
    and_split 8 _ _ _ _ (by omega) (by norm_num), Nat.and_pow_two_sub_one_eq_mod,
    Nat.and_pow_two_sub_one_eq_mod, Nat.and_zero]
  omega

theorem blend_pixel_a (dst src : Color) : (engine_blend_pixel dst src).a = dst.a := rfl

/-- A source of alpha 0 leaves a destination pixel of four bytes as it is under
`engine_blend_pixel`. -/
theorem blend_pixel_alpha0 (dst src : Color) (hd : dst.wf) (hs : src.a = 0) :
    engine_blend_pixel dst src = dst := by
  obtain ⟨hb, hg, hr, _⟩ := hd
  obtain ⟨b, g, r, a⟩ := dst
  simp only at hb hg hr
  unfold engine_blend_pixel
  rw [mask_rb ⟨b, g, r, a⟩ hb hg hr, hs]
  simp only [Nat.mul_zero, Nat.zero_mod, Nat.zero_shiftRight, Nat.add_zero, Color.ofWord,
    Nat.cast_zero, mul_zero, Int.shiftRight_eq_div_pow, Color.mk.injEq, and_true]
  refine ⟨?_, ?_, ?_⟩ <;> omega

/-- With a source of alpha 0, `engine_blend_pixel2` scales each destination channel by
`255 / 256`. -/
theorem blend_pixel2_alpha0 (dst src clr : Color) (hd : dst.wf) (hs : src.a = 0) :
    engine_blend_pixel2 dst src clr =
      ⟨(dst.b * 255) >>> 8, (dst.g * 255) >>> 8, (dst.r * 255) >>> 8, dst.a⟩ := by
  obtain ⟨hb, hg, hr, _⟩ := hd
  unfold engine_blend_pixel2
  rw [hs]
  simp only [Nat.zero_mul, Nat.zero_shiftRight, Nat.zero_mod, Nat.mul_zero, Nat.zero_add,
    Nat.sub_zero, Nat.shiftRight_eq_div_pow, Nat.zero_div, Color.mk.injEq, and_true]
  refine ⟨?_, ?_, ?_⟩ <;> omega

theorem blend_pixel3_alpha0 (dst src clr add : Color) (hd : dst.wf) (hs : src.a = 0) :
    engine_blend_pixel3 dst src clr add =
      ⟨(dst.b * 255) >>> 8, (dst.g * 255) >>> 8, (dst.r * 255) >>> 8, dst.a⟩ := by
  unfold engine_blend_pixel3
  exact blend_pixel2_alpha0 _ _ _ hd hs

theorem blend_fn_cases (mul add : Color) :
    image3_blend_fn mul add = 1 ∨ image3_blend_fn mul add = 2 ∨ image3_blend_fn mul add = 3 := by
  unfold image3_blend_fn
  by_cases h1 : image3_add_nondefault add <;>
    by_cases h2 : mul.w ≠ 0xffffffff <;> simp [h1, h2]

theorem image3_blend_a (fn : Nat) (d s mul add : Color) :
    (image3_blend fn d s mul add).a = d.a := by
  unfold image3_blend
  split <;> rfl

/-- A pixel of a valid surface has four bytes. -/
theorem valid_pixel_wf (img : Image) (hv : img.valid) (px py : Int) (hx0 : 0 ≤ px)
    (hx1 : px < img.w) (hy0 : 0 ≤ py) (hy1 : py < img.h) : (img.pixel px py).wf := by
  obtain ⟨_, _, hl, hwf⟩ := hv
  have hb := index_in_bounds img.w img.h px py hx0 hx1 hy0 hy1
  unfold Image.pixel Image.load
  rw [if_pos hb.1]
  have hn : (px + py * img.w).toNat < img.pixels.length := by omega
  rw [List.getD_eq_getElem?_getD, List.getElem?_eq_getElem hn]
  exact hwf _ (List.getElem_mem _)

/-- An additive colour whose g and r bytes are zero fails the default test of
`engine_draw_image3`, so function 3 is selected. -/
theorem blend_fn_zero_add (mul add : Color) (hb : add.b < 256) (hg : add.g = 0)
    (hr : add.r = 0) : image3_blend_fn mul add = 3 := by
  have hne : image3_add_nondefault add := by
    unfold image3_add_nondefault
    intro h
    have h8 : ((add.w &&& 0xffffff00).testBit 8) = true := by rw [h]; decide
    have hw : add.w = 2 ^ 24 * add.a + add.b := by
      unfold Color.w; rw [hg, hr]; ring
    rw [Nat.testBit_and, hw, Nat.testBit_mul_pow_two_add _ (by omega : add.b < 2 ^ 24)] at h8
    have h9 : add.b.testBit 8 = false := Nat.testBit_lt_two_pow (by omega)
    simp [h9] at h8
  unfold image3_blend_fn
  simp [hne]

/-- A scaled channel `(x * t * a) >> 16` with `t, a ≤ 255` is at most `x`. -/
theorem scaled_channel_le (x t a : Nat) (ht : t ≤ 255) (ha : a ≤ 255) :
    (x * t * a) >>> 16 ≤ x := by
  rw [Nat.shiftRight_eq_div_pow]
  apply Nat.div_le_of_le_mul
  have h1 : x * t * a ≤ x * 255 * 255 :=
    Nat.mul_le_mul (Nat.mul_le_mul_left x ht) ha
  omega

/-- Blending onto the all-zero pixel with `engine_blend_pixel3`, a tint of bytes and an
additive colour with zero r, g, b gives channels no larger than the source's. -/
theorem blend_pixel3_on_zero (s clr add : Color) (hc : clr.wf) (hb : add.b = 0)
    (hg : add.g = 0) (hr : add.r = 0) :
    (engine_blend_pixel3 ⟨0, 0, 0, 0⟩ s clr add).b ≤ s.b ∧
    (engine_blend_pixel3 ⟨0, 0, 0, 0⟩ s clr add).g ≤ s.g ∧
    (engine_blend_pixel3 ⟨0, 0, 0, 0⟩ s clr add).r ≤ s.r := by
  obtain ⟨cb, cg, cr, _⟩ := hc
  unfold engine_blend_pixel3 engine_blend_pixel2
  simp only [hb, hg, hr, Nat.add_zero, Nat.zero_mul, Nat.zero_shiftRight]
  have hsa : (s.a * clr.a) >>> 8 % 256 ≤ 255 := by omega
  have k1 := scaled_channel_le (min 255 s.b) clr.b _ (by omega) hsa
  have k2 := scaled_channel_le (min 255 s.g) clr.g _ (by omega) hsa
  have k3 := scaled_channel_le (min 255 s.r) clr.r _ (by omega) hsa
  refine ⟨?_, ?_, ?_⟩
  · exact le_trans (Nat.mod_le _ _) (le_trans k1 (min_le_right _ _))
  · exact le_trans (Nat.mod_le _ _) (le_trans k2 (min_le_right _ _))
  · exact le_trans (Nat.mod_le _ _) (le_trans k3 (min_le_right _ _))

theorem clip_contains_in_surface (e : Engine) (hc : e.clip_ok) (px py : Int)
    (h : e.clip.contains px py) :
    0 ≤ px ∧ px < e.screen.w ∧ 0 ≤ py ∧ py < e.screen.h := by
  unfold Engine.clip_ok at hc
  unfold Rect.contains at h
  omega

/-- With equal source and destination extents the step is 1024 and the sampled
coordinate is the source origin plus the offset in the destination. -/
theorem src_index_same_size (X Y sx sy w h px py : Int) (hw : 0 < w) (hh : 0 < h) :
    image3_src_col (engine_rect X Y w h) (engine_rect sx sy w h) px = sx + (px - X) ∧
    image3_src_row (engine_rect X Y w h) (engine_rect sx sy w h) py = sy + (py - Y) := by
  unfold image3_src_col image3_src_row engine_rect
  simp only
  rw [Int.mul_tdiv_cancel_left _ (by omega : w ≠ 0), Int.mul_tdiv_cancel_left _ (by omega : h ≠ 0),
    Int.shiftRight_eq_div_pow, Int.shiftRight_eq_div_pow]
  constructor <;> norm_num <;> omega

/-- Scaling by two: the step is 512 and destination offset `x` samples source `x / 2`. -/
theorem src_index_double (X Y W H x y : Int) (hW : 0 < W) (hH : 0 < H) :
    image3_src_col (engine_rect X Y (2 * W) (2 * H)) (engine_rect 0 0 W H) (X + x) = x / 2 ∧
    image3_src_row (engine_rect X Y (2 * W) (2 * H)) (engine_rect 0 0 W H) (Y + y) = y / 2 := by
  unfold image3_src_col image3_src_row engine_rect
  simp only
  have h1 : Int.tdiv (W * 1024) (2 * W) = 512 := by
    rw [Int.tdiv_eq_ediv (by omega) (by omega)]
    have : W * 1024 = 2 * W * 512 := by ring
    rw [this, Int.mul_ediv_cancel_left _ (by omega : 2 * W ≠ 0)]
  have h2 : Int.tdiv (H * 1024) (2 * H) = 512 := by
    rw [Int.tdiv_eq_ediv (by omega) (by omega)]
    have : H * 1024 = 2 * H * 512 := by ring
    rw [this, Int.mul_ediv_cancel_left _ (by omega : 2 * H ≠ 0)]
  rw [h1, h2, Int.shiftRight_eq_div_pow, Int.shiftRight_eq_div_pow]
  constructor <;> norm_num <;> omega

/-! ## The fuel of the unbounded loops is never used up -/

/-- The loop of `engine_draw_line` leaves through its `break` within `a + b + 1`
iterations, where `a` and `b` are the numbers of steps still to go along x and y: with
that much fuel, more fuel changes nothing.  `A = dx` and `B = -dy` are the total step
counts and `err = A - B + a * B - b * A` is the invariant of the error term. -/
theorem draw_line_loop_fuel (x2 y2 A B sx sy : Int) (c : Color) (fuel : Nat) :
    ∀ (k : Nat) (e : Engine) (x1 y1 err a b : Int),
      0 ≤ a → 0 ≤ b → a ≤ A → b ≤ B → x2 - x1 = sx * a → y2 - y1 = sy * b →
      err = A - B + a * B - b * A → a + b + 1 ≤ fuel →
      draw_line_loop x2 y2 A sx (-B) sy c (fuel + k) e x1 y1 err =
        draw_line_loop x2 y2 A sx (-B) sy c fuel e x1 y1 err := by
  induction fuel with
  | zero => intro k e x1 y1 err a b ha hb _ _ _ _ _ hf; omega
  | succ n ih =>
    intro k e x1 y1 err a b ha hb haA hbB hx hy herr hf
    have hk : n + 1 + k = (n + k) + 1 := by omega
    rw [hk]
    simp only [draw_line_loop]
    by_cases hend : x1 = x2 ∧ y1 = y2
    · rw [if_pos hend, if_pos hend]
    · rw [if_neg hend, if_neg hend]
      have hab : 0 < a ∨ 0 < b := by
        by_contra hcon
        have ha0 : a = 0 := by omega
        have hb0 : b = 0 := by omega
        rw [ha0] at hx
        rw [hb0] at hy
        apply hend
        constructor <;> omega
      have hp : 0 ≤ a * B := mul_nonneg ha (by omega)
      have hq : 0 ≤ b * A := mul_nonneg hb (by omega)
      have hp1 : 0 < a → B ≤ a * B := by
        intro h
        have := mul_le_mul_of_nonneg_right (by omega : 1 ≤ a) (by omega : 0 ≤ B)
        omega
      have hq1 : 0 < b → A ≤ b * A := by
        intro h
        have := mul_le_mul_of_nonneg_right (by omega : 1 ≤ b) (by omega : 0 ≤ A)
        omega
      have hp0 : a = 0 → a * B = 0 := by intro h; rw [h]; ring
      have hq0 : b = 0 → b * A = 0 := by intro h; rw [h]; ring
      have hpm : (a - 1) * B = a * B - B := by ring
      have hqm : (b - 1) * A = b * A - A := by ring
      by_cases hstepx : err * 2 ≥ -B <;> by_cases hstepy : err * 2 ≤ A
      · simp only [if_pos hstepx, if_pos hstepy]
        have ha1 : 0 < a := by
          by_contra h
          have := hp0 (by omega)
          have := hq1 (by omega)
          omega
        have hb1 : 0 < b := by
          by_contra h
          have := hq0 (by omega)
          have := hp1 (by omega)
          omega
        exact ih k _ _ _ _ (a - 1) (b - 1) (by omega) (by omega) (by omega) (by omega)
          (by rw [mul_sub, mul_one]; omega) (by rw [mul_sub, mul_one]; omega)
          (by rw [hpm, hqm]; omega) (by omega)
      · simp only [if_pos hstepx, if_neg hstepy]
        have ha1 : 0 < a := by
          by_contra h
          have := hp0 (by omega)
          have := hq1 (by omega)
          omega
        exact ih k _ _ _ _ (a - 1) b (by omega) hb (by omega) hbB
          (by rw [mul_sub, mul_one]; omega) hy (by rw [hpm]; omega) (by omega)
      · simp only [if_neg hstepx, if_pos hstepy]
        have hb1 : 0 < b := by
          by_contra h
          have := hq0 (by omega)
          have := hp1 (by omega)
          omega
        exact ih k _ _ _ _ a (b - 1) ha (by omega) haA (by omega) hx
          (by rw [mul_sub, mul_one]; omega) (by rw [hqm]; omega) (by omega)
      · exfalso; omega

/-- The fuel that `engine_draw_line` gives its loop is enough: with any extra fuel `k`
the loop returns the same engine. -/
theorem draw_line_fuel_enough (e : Engine) (x1 y1 x2 y2 : Int) (c : Color) (k : Nat) :
    draw_line_loop x2 y2 (x2 - x1).natAbs (if x1 < x2 then 1 else -1)
        (-((y2 - y1).natAbs : Int)) (if y1 < y2 then 1 else -1) c
        ((x2 - x1).natAbs + (y2 - y1).natAbs + 1 + k) e x1 y1
        (((x2 - x1).natAbs : Int) + -((y2 - y1).natAbs : Int)) =
      engine_draw_line e x1 y1 x2 y2 c := by
  unfold engine_draw_line
  simp only
  apply draw_line_loop_fuel x2 y2 _ _ _ _ c _ k e x1 y1
    _ (x2 - x1).natAbs (y2 - y1).natAbs (by omega) (by omega) (le_refl _) (le_refl _)
  · split <;> omega
  · split <;> omega
  · ring
  · push_cast; omega

/-- The loop of `engine_draw_circle` stops by its condition within `y - 1 - x` iterations. -/
theorem draw_circle_loop_fuel (x0 y0 : Int) (c : Color) (fuel : Nat) :
    ∀ (k : Nat) (e : Engine) (E dx dy x y : Int), y - 1 - x ≤ fuel →
      draw_circle_loop x0 y0 c (fuel + k) e E dx dy x y =
        draw_circle_loop x0 y0 c fuel e E dx dy x y := by
  induction fuel with
  | zero =>
    intro k e E dx dy x y h
    cases k with
    | zero => rfl
    | succ k =>
      simp only [Nat.zero_add, draw_circle_loop]
      rw [if_neg (by omega)]
  | succ n ih =>
    intro k e E dx dy x y h
    have hk : n + 1 + k = (n + k) + 1 := by omega
    rw [hk]
    simp only [draw_circle_loop]
    split
    · apply ih
      split <;> omega
    · rfl

/-- The loop of `engine_draw_circle_fill` stops by its condition within `y - 1 - x`
iterations. -/
theorem draw_circle_fill_loop_fuel (x0 y0 : Int) (c : Color) (fuel : Nat) :
    ∀ (k : Nat) (e : Engine) (E dx dy x y : Int), y - 1 - x ≤ fuel →
      draw_circle_fill_loop x0 y0 c (fuel + k) e E dx dy x y =
        draw_circle_fill_loop x0 y0 c fuel e E dx dy x y := by
  induction fuel with
  | zero =>
    intro k e E dx dy x y h
    cases k with
    | zero => rfl
    | succ k =>
      simp only [Nat.zero_add, draw_circle_fill_loop]
      rw [if_neg (by omega)]
  | succ n ih =>
    intro k e E dx dy x y h
    have hk : n + 1 + k = (n + k) + 1 := by omega
    rw [hk]
    simp only [draw_circle_fill_loop]
    split
    · apply ih
      split <;> omega
    · rfl


/-- The fuel `radius` that `engine_draw_circle` and `engine_draw_circle_fill` give their
loops (started at `x = 0`, `y = radius`) is enough. -/
theorem draw_circle_fuel_enough (x0 y0 radius : Int) (c : Color) (k : Nat) (e : Engine)
    (E dx dy : Int) :
    draw_circle_loop x0 y0 c (radius.toNat + k) e E dx dy 0 radius =
      draw_circle_loop x0 y0 c radius.toNat e E dx dy 0 radius ∧
    draw_circle_fill_loop x0 y0 c (radius.toNat + k) e E dx dy 0 radius =
      draw_circle_fill_loop x0 y0 c radius.toNat e E dx dy 0 radius :=
  ⟨draw_circle_loop_fuel x0 y0 c _ k e E dx dy 0 radius (by omega),
    draw_circle_fill_loop_fuel x0 y0 c _ k e E dx dy 0 radius (by omega)⟩

/-! ## The points of a line -/

theorem draw_line_loop_eq_points (x2 y2 dx sx dy sy : Int) (c : Color) (fuel : Nat) :
    ∀ (e : Engine) (x1 y1 err : Int),
      draw_line_loop x2 y2 dx sx dy sy c fuel e x1 y1 err =
        draw_points c e (draw_line_points_loop x2 y2 dx sx dy sy fuel x1 y1 err) := by
  induction fuel with
  | zero => intro e x1 y1 err; rfl
  | succ n ih =>
    intro e x1 y1 err
    simp only [draw_line_loop, draw_line_points_loop, draw_points, List.foldl_cons]
    split
    · rfl
    · exact ih _ _ _ _

/-- `engine_draw_line` draws exactly the points of `engine_draw_line_points`, in order. -/
theorem draw_line_eq_points (e : Engine) (x1 y1 x2 y2 : Int) (c : Color) :
    engine_draw_line e x1 y1 x2 y2 c = draw_points c e (engine_draw_line_points x1 y1 x2 y2) := by
  unfold engine_draw_line engine_draw_line_points
  exact draw_line_loop_eq_points _ _ _ _ _ _ _ _ _ _ _ _

/-- One iteration of the line loop away from the end point, with `a` and `b` steps to go
along x and y (`A`, `B` in total) and `err = A - B + a * B - b * A`: x moves only if
`a > 0`, y only if `b > 0`, one of them moves, and the new error term has the same form. -/
theorem line_step_inv (A B err a b : Int) (ha : 0 ≤ a) (hb : 0 ≤ b) (haA : a ≤ A)
    (hbB : b ≤ B) (herr : err = A - B + a * B - b * A) (hab : 0 < a ∨ 0 < b) :
    (err * 2 ≥ -B → 0 < a) ∧ (err * 2 ≤ A → 0 < b) ∧ (err * 2 ≥ -B ∨ err * 2 ≤ A) ∧
    ((if err * 2 ≤ A then (if err * 2 ≥ -B then err + -B else err) + A
        else (if err * 2 ≥ -B then err + -B else err)) =
      A - B + (if err * 2 ≥ -B then a - 1 else a) * B -
        (if err * 2 ≤ A then b - 1 else b) * A) := by
  have hp : 0 ≤ a * B := mul_nonneg ha (by omega)
  have hq : 0 ≤ b * A := mul_nonneg hb (by omega)
  have hp1 : 0 < a → B ≤ a * B := by
    intro h
    have := mul_le_mul_of_nonneg_right (by omega : 1 ≤ a) (by omega : 0 ≤ B)
    omega
  have hq1 : 0 < b → A ≤ b * A := by
    intro h
    have := mul_le_mul_of_nonneg_right (by omega : 1 ≤ b) (by omega : 0 ≤ A)
    omega
  have hp0 : a = 0 → a * B = 0 := by intro h; rw [h]; ring
  have hq0 : b = 0 → b * A = 0 := by intro h; rw [h]; ring
  have hpm : (a - 1) * B = a * B - B := by ring
  have hqm : (b - 1) * A = b * A - A := by ring
  have h1 : err * 2 ≥ -B → 0 < a := by
    intro hs
    by_contra h
    have := hp0 (by omega)
    have := hq1 (by omega)
    omega
  have h2 : err * 2 ≤ A → 0 < b := by
    intro hs
    by_contra h
    have := hq0 (by omega)
    have := hp1 (by omega)
    omega
  refine ⟨h1, h2, by omega, ?_⟩
  by_cases hsx : err * 2 ≥ -B <;> by_cases hsy : err * 2 ≤ A
  · rw [if_pos hsy, if_pos hsx, if_pos hsx, if_pos hsy, hpm, hqm]; omega
  · rw [if_neg hsy, if_pos hsx, if_pos hsx, if_neg hsy, hpm]; omega
  · rw [if_pos hsy, if_neg hsx, if_neg hsx, if_pos hsy, hqm]; omega
  · omega

/-- The invariant is kept by one iteration away from the end point, and the number of
steps to go falls. -/
theorem line_inv_step (x2 y2 A B sx sy x1 y1 err a b : Int)
    (h : line_inv x2 y2 A B sx sy x1 y1 err a b) (hend : ¬ (x1 = x2 ∧ y1 = y2)) :
    line_inv x2 y2 A B sx sy (if err * 2 ≥ -B then x1 + sx else x1)
      (if err * 2 ≤ A then y1 + sy else y1)
      (if err * 2 ≤ A then (if err * 2 ≥ -B then err + -B else err) + A
        else (if err * 2 ≥ -B then err + -B else err))
      (if err * 2 ≥ -B then a - 1 else a) (if err * 2 ≤ A then b - 1 else b) ∧
    (if err * 2 ≥ -B then a - 1 else a) + (if err * 2 ≤ A then b - 1 else b) < a + b ∧
    (err * 2 ≥ -B → 0 < a) ∧ (err * 2 ≤ A → 0 < b) := by
  obtain ⟨ha, hb, haA, hbB, hx, hy, herr⟩ := h
  have hab : 0 < a ∨ 0 < b := by
    by_contra hcon
    have ha0 : a = 0 := by omega
    have hb0 : b = 0 := by omega
    rw [ha0] at hx
    rw [hb0] at hy
    apply hend
    constructor <;> omega
  obtain ⟨h1, h2, h3, h4⟩ := line_step_inv A B err a b ha hb haA hbB herr hab
  refine ⟨⟨?_, ?_, ?_, ?_, ?_, ?_, h4⟩, ?_, h1, h2⟩
  · split <;> [exact (by have := h1 ‹_›; omega); exact ha]
  · split <;> [exact (by have := h2 ‹_›; omega); exact hb]
  · split <;> omega
  · split <;> omega
  · split
    · rw [mul_sub, mul_one]; omega
    · exact hx
  · split
    · rw [mul_sub, mul_one]; omega
    · exact hy
  · by_cases hsx : err * 2 ≥ -B <;> by_cases hsy : err * 2 ≤ A
    · rw [if_pos hsx, if_pos hsy]; omega
    · rw [if_pos hsx, if_neg hsy]; omega
    · rw [if_neg hsx, if_pos hsy]; omega
    · omega

/-- The invariant holds when `engine_draw_line` enters its loop. -/
theorem line_inv_init (x1 y1 x2 y2 : Int) :
    line_inv x2 y2 (x2 - x1).natAbs (y2 - y1).natAbs (if x1 < x2 then 1 else -1)
      (if y1 < y2 then 1 else -1) x1 y1
      (((x2 - x1).natAbs : Int) + -((y2 - y1).natAbs : Int))
      (x2 - x1).natAbs (y2 - y1).natAbs := by
  refine ⟨by omega, by omega, le_refl _, le_refl _, ?_, ?_, by ring⟩
  · split <;> omega
  · split <;> omega

theorem draw_line_points_loop_fuel (x2 y2 A B sx sy : Int) (fuel : Nat) :
    ∀ (k : Nat) (x1 y1 err a b : Int), line_inv x2 y2 A B sx sy x1 y1 err a b →
      a + b + 1 ≤ fuel →
      draw_line_points_loop x2 y2 A sx (-B) sy (fuel + k) x1 y1 err =
        draw_line_points_loop x2 y2 A sx (-B) sy fuel x1 y1 err := by
  induction fuel with
  | zero => intro k x1 y1 err a b h hf; have := h.1; have := h.2.1; omega
  | succ n ih =>
    intro k x1 y1 err a b h hf
    have hk : n + 1 + k = (n + k) + 1 := by omega
    rw [hk]
    simp only [draw_line_points_loop]
    by_cases hend : x1 = x2 ∧ y1 = y2
    · rw [if_pos hend, if_pos hend]
    · rw [if_neg hend, if_neg hend]
      obtain ⟨hinv, hlt, _, _⟩ := line_inv_step _ _ _ _ _ _ _ _ _ _ _ h hend
      rw [ih k _ _ _ _ _ hinv (by omega)]

/-- With enough fuel the last point of the loop is the end point `(x2, y2)`. -/
theorem draw_line_points_loop_last (x2 y2 A B sx sy : Int) (fuel : Nat) :
    ∀ (x1 y1 err a b : Int), line_inv x2 y2 A B sx sy x1 y1 err a b →
      a + b + 1 ≤ fuel →
      (draw_line_points_loop x2 y2 A sx (-B) sy fuel x1 y1 err).getLast? = some (x2, y2) := by
  induction fuel with
  | zero => intro x1 y1 err a b h hf; have := h.1; have := h.2.1; omega
  | succ n ih =>
    intro x1 y1 err a b h hf
    simp only [draw_line_points_loop]
    by_cases hend : x1 = x2 ∧ y1 = y2
    · rw [if_pos hend, hend.1, hend.2]
      rfl
    · rw [if_neg hend]
      obtain ⟨hinv, hlt, _, _⟩ := line_inv_step _ _ _ _ _ _ _ _ _ _ _ h hend
      rw [List.getLast?_cons, ih _ _ _ _ _ hinv (by omega)]
      rfl

/-- Reversing a line: started from the mirrored state with mirrored steps, the loop
yields the mirrored points `(cx - x, cy - y)`. -/
theorem draw_line_points_loop_mirror (x2 y2 A B sx sy sx1 sy1 cx cy : Int)
    (hsx : sx1 = -sx ∨ A = 0) (hsy : sy1 = -sy ∨ B = 0) (fuel : Nat) :
    ∀ (x1 y1 err a b : Int), line_inv x2 y2 A B sx sy x1 y1 err a b →
      draw_line_points_loop (cx - x2) (cy - y2) A sx1 (-B) sy1 fuel (cx - x1) (cy - y1) err =
        (draw_line_points_loop x2 y2 A sx (-B) sy fuel x1 y1 err).map
          (fun p => (cx - p.1, cy - p.2)) := by
  induction fuel with
  | zero => intro x1 y1 err a b h; rfl
  | succ n ih =>
    intro x1 y1 err a b h
    simp only [draw_line_points_loop, List.map_cons]
    by_cases hend : x1 = x2 ∧ y1 = y2
    · have hend1 : cx - x1 = cx - x2 ∧ cy - y1 = cy - y2 := by omega
      rw [if_pos hend, if_pos hend1]
      rfl
    · have hend1 : ¬ (cx - x1 = cx - x2 ∧ cy - y1 = cy - y2) := by omega
      rw [if_neg hend, if_neg hend1]
      obtain ⟨hinv, _, h1, h2⟩ := line_inv_step _ _ _ _ _ _ _ _ _ _ _ h hend
      have hx : (if err * 2 ≥ -B then cx - x1 + sx1 else cx - x1) =
          cx - (if err * 2 ≥ -B then x1 + sx else x1) := by
        split
        · have := h1 ‹_›
          have := h.2.2.1
          omega
        · rfl
      have hy : (if err * 2 ≤ A then cy - y1 + sy1 else cy - y1) =
          cy - (if err * 2 ≤ A then y1 + sy else y1) := by
        split
        · have := h2 ‹_›
          have := h.2.2.2.1
          omega
        · rfl
      rw [hx, hy, ih _ _ _ _ _ hinv]

/-! ## The alpha channel of the surface -/

theorem Image.same_alpha_refl (a : Image) : a.same_alpha a := ⟨rfl, rfl, rfl, fun _ => rfl⟩

theorem Image.same_alpha_trans (a b c : Image) (hab : a.same_alpha b) (hbc : b.same_alpha c) :
    a.same_alpha c := by
  obtain ⟨a1, a2, a3, a4⟩ := hab
  obtain ⟨b1, b2, b3, b4⟩ := hbc
  exact ⟨by rw [b1, a1], by rw [b2, a2], by rw [b3, a3], fun j => by rw [b4, a4]⟩

/-- Storing a colour with the alpha of the pixel it replaces keeps every alpha. -/
theorem Image.store_same_alpha (img : Image) (i : Int) (c : Color)
    (h : c.a = (img.load i).a) : img.same_alpha (img.store i c) := by
  refine ⟨Image.store_w _ _ _, Image.store_h _ _ _, Image.store_length _ _ _, ?_⟩
  intro j
  by_cases hj : 0 ≤ j ∧ j < img.pixels.length
  · rw [Image.load_store _ _ _ _ hj.1 hj.2]
    split
    · rename_i hij
      rw [← hij, h]
    · rfl
  · have hout : ∀ im : Image, im.pixels.length = img.pixels.length → im.load j = default := by
      intro im hl
      unfold Image.load
      split
      · rw [List.getD_eq_getElem?_getD, List.getElem?_eq_none (by omega)]
        rfl
      · rfl
    rw [hout _ (Image.store_length _ _ _), hout _ rfl]

theorem engine_same_alpha_refl (e : Engine) : e.same_alpha e :=
  ⟨rfl, Image.same_alpha_refl _⟩

theorem engine_same_alpha_trans (e1 e2 e3 : Engine) (h12 : e1.same_alpha e2)
    (h23 : e2.same_alpha e3) : e1.same_alpha e3 :=
  ⟨by rw [h23.1, h12.1], Image.same_alpha_trans _ _ _ h12.2 h23.2⟩

theorem image3_blend_alpha (fn : Nat) (d s mul add : Color) :
    (image3_blend fn d s mul add).a = d.a := image3_blend_a fn d s mul add

theorem rect_fill_row_same_alpha (color : Color) (n : Nat) :
    ∀ (img : Image) (d : Int), img.same_alpha (rect_fill_row color n img d).1 := by
  induction n with
  | zero => intro img d; exact Image.same_alpha_refl img
  | succ n ih =>
    intro img d
    simp only [rect_fill_row]
    exact Image.same_alpha_trans _ _ _
      (Image.store_same_alpha img d (engine_blend_pixel (img.load d) color) rfl) (ih _ _)

theorem rect_fill_rows_same_alpha (color : Color) (w : Nat) (dr : Int) (n : Nat) :
    ∀ (img : Image) (d : Int), img.same_alpha (rect_fill_rows color w dr n img d) := by
  induction n with
  | zero => intro img d; exact Image.same_alpha_refl img
  | succ n ih =>
    intro img d
    simp only [rect_fill_rows]
    exact Image.same_alpha_trans _ _ _ (rect_fill_row_same_alpha color w img d) (ih _ _)

theorem image3_cols_same_alpha (img : Image) (srow drow stepx : Int) (fn : Nat)
    (mul add : Color) (n : Nat) :
    ∀ (scr : Image) (dx sx : Int),
      scr.same_alpha (image3_cols img srow drow stepx fn mul add n scr dx sx) := by
  induction n with
  | zero => intro scr dx sx; exact Image.same_alpha_refl scr
  | succ n ih =>
    intro scr dx sx
    simp only [image3_cols]
    exact Image.same_alpha_trans _ _ _
      (Image.store_same_alpha scr _ _ (image3_blend_a _ _ _ _ _)) (ih _ _ _)

theorem image3_row_same_alpha (img : Image) (dst src : Rect) (cx1 cy1 cx2 cy2 stepx : Int)
    (fn : Nat) (mul add : Color) (scr : Image) (dy sy : Int) :
    scr.same_alpha (image3_row img dst src cx1 cy1 cx2 cy2 stepx fn mul add scr dy sy) := by
  unfold image3_row
  split
  · exact image3_cols_same_alpha _ _ _ _ _ _ _ _ _ _ _
  · exact Image.same_alpha_refl scr

theorem image3_rows_same_alpha (img : Image) (dst src : Rect)
    (cx1 cy1 cx2 cy2 stepx stepy : Int) (fn : Nat) (mul add : Color) (n : Nat) :
    ∀ (scr : Image) (dy sy : Int),
      scr.same_alpha
        (image3_rows img dst src cx1 cy1 cx2 cy2 stepx stepy fn mul add n scr dy sy) := by
  induction n with
  | zero => intro scr dy sy; exact Image.same_alpha_refl scr
  | succ n ih =>
    intro scr dy sy
    simp only [image3_rows]
    exact Image.same_alpha_trans _ _ _ (image3_row_same_alpha _ _ _ _ _ _ _ _ _ _ _ _ _ _)
      (ih _ _ _)

theorem draw_point_same_alpha (e : Engine) (x y : Int) (c : Color) :
    e.same_alpha (engine_draw_point e x y c) := by
  unfold engine_draw_point
  split
  · exact engine_same_alpha_refl e
  · simp only
    split
    · exact engine_same_alpha_refl e
    · exact ⟨rfl, Image.store_same_alpha _ _ _ rfl⟩

theorem draw_rect_fill_same_alpha (e : Engine) (rect : Rect) (c : Color) :
    e.same_alpha (engine_draw_rect_fill e rect c) := by
  unfold engine_draw_rect_fill
  split
  · exact engine_same_alpha_refl e
  · exact ⟨rfl, rect_fill_rows_same_alpha _ _ _ _ _ _⟩

theorem draw_image3_same_alpha (e : Engine) (img : Image) (dst src : Rect)
    (mul add : Color) : e.same_alpha (engine_draw_image3 e img dst src mul add) := by
  unfold engine_draw_image3
  split
  · exact engine_same_alpha_refl e
  · exact ⟨rfl, image3_rows_same_alpha _ _ _ _ _ _ _ _ _ _ _ _ _ _ _ _⟩

theorem alpha_point (e0 e : Engine) (x y : Int) (c : Color) (h : e0.same_alpha e) :
    e0.same_alpha (engine_draw_point e x y c) :=
  engine_same_alpha_trans _ _ _ h (draw_point_same_alpha e x y c)

theorem draw_line_loop_same_alpha (x2 y2 dx sx dy sy : Int) (c : Color) (fuel : Nat) :
    ∀ (e : Engine) (x1 y1 err : Int),
      e.same_alpha (draw_line_loop x2 y2 dx sx dy sy c fuel e x1 y1 err) := by
  induction fuel with
  | zero => intro e _ _ _; exact engine_same_alpha_refl e
  | succ n ih =>
    intro e x1 y1 err
    simp only [draw_line_loop]
    split
    · exact draw_point_same_alpha e x1 y1 c
    · exact engine_same_alpha_trans _ _ _ (draw_point_same_alpha e x1 y1 c) (ih _ _ _ _)

theorem draw_line_same_alpha (e : Engine) (x1 y1 x2 y2 : Int) (c : Color) :
    e.same_alpha (engine_draw_line e x1 y1 x2 y2 c) := by
  unfold engine_draw_line
  exact draw_line_loop_same_alpha _ _ _ _ _ _ _ _ _ _ _ _

theorem alpha_line (e0 e : Engine) (x1 y1 x2 y2 : Int) (c : Color) (h : e0.same_alpha e) :
    e0.same_alpha (engine_draw_line e x1 y1 x2 y2 c) :=
  engine_same_alpha_trans _ _ _ h (draw_line_same_alpha e x1 y1 x2 y2 c)

theorem draw_rect_same_alpha (e : Engine) (rect : Rect) (c : Color) :
    e.same_alpha (engine_draw_rect e rect c) := by
  unfold engine_draw_rect
  split
  · exact engine_same_alpha_refl e
  split
  · exact engine_same_alpha_refl e
  split
  · exact draw_line_same_alpha _ _ _ _ _ _
  split
  · exact draw_line_same_alpha _ _ _ _ _ _
  · exact alpha_line _ _ _ _ _ _ _ (alpha_line _ _ _ _ _ _ _ (alpha_line _ _ _ _ _ _ _
      (draw_line_same_alpha _ _ _ _ _ _)))

theorem draw_circle_loop_same_alpha (x0 y0 : Int) (c : Color) (e0 : Engine) (fuel : Nat) :
    ∀ (e : Engine) (E dx dy x y : Int), e0.same_alpha e →
      e0.same_alpha (draw_circle_loop x0 y0 c fuel e E dx dy x y) := by
  induction fuel with
  | zero => intro e _ _ _ _ _ h; exact h
  | succ n ih =>
    intro e E dx dy x y h
    simp only [draw_circle_loop]
    split
    · apply ih
      generalize (if E ≥ 0 then y - 1 else y) = y1
      split
      · exact alpha_point _ _ _ _ _ (alpha_point _ _ _ _ _ (alpha_point _ _ _ _ _
          (alpha_point _ _ _ _ _ (alpha_point _ _ _ _ _ (alpha_point _ _ _ _ _
          (alpha_point _ _ _ _ _ (alpha_point _ _ _ _ _ h)))))))
      · exact alpha_point _ _ _ _ _ (alpha_point _ _ _ _ _ (alpha_point _ _ _ _ _
          (alpha_point _ _ _ _ _ h)))
    · exact h

theorem draw_circle_same_alpha (e : Engine) (x0 y0 radius : Int) (c : Color) :
    e.same_alpha (engine_draw_circle e x0 y0 radius c) := by
  unfold engine_draw_circle
  split
  · exact engine_same_alpha_refl e
  · apply draw_circle_loop_same_alpha
    exact alpha_point _ _ _ _ _ (alpha_point _ _ _ _ _ (alpha_point _ _ _ _ _
      (alpha_point _ _ _ _ _ (engine_same_alpha_refl e))))

theorem draw_circle_fill_loop_same_alpha (x0 y0 : Int) (c : Color) (e0 : Engine)
    (fuel : Nat) :
    ∀ (e : Engine) (E dx dy x y : Int), e0.same_alpha e →
      e0.same_alpha (draw_circle_fill_loop x0 y0 c fuel e E dx dy x y) := by
  induction fuel with
  | zero => intro e _ _ _ _ _ h; exact h
  | succ n ih =>
    intro e E dx dy x y h
    simp only [draw_circle_fill_loop]
    split
    · apply ih
      generalize (if E ≥ 0 then y - 1 else y) = y1
      have h1 : e0.same_alpha
          (if E ≥ 0 then
            engine_draw_line
              (engine_draw_line e (x0 - (x + 1) + 1) (y0 + y1) (x0 + (x + 1)) (y0 + y1) c)
              (x0 - (x + 1) + 1) (y0 - y1) (x0 + (x + 1)) (y0 - y1) c
          else e) := by
        split
        · exact alpha_line _ _ _ _ _ _ _ (alpha_line _ _ _ _ _ _ _ h)
        · exact h
      split
      · exact alpha_line _ _ _ _ _ _ _ (alpha_line _ _ _ _ _ _ _ h1)
      · exact h1
    · exact h

theorem draw_circle_fill_same_alpha (e : Engine) (x0 y0 radius : Int) (c : Color) :
    e.same_alpha (engine_draw_circle_fill e x0 y0 radius c) := by
  unfold engine_draw_circle_fill
  split
  · exact engine_same_alpha_refl e
  split
  · exact engine_same_alpha_refl e
  · apply draw_circle_fill_loop_same_alpha
    exact alpha_line _ _ _ _ _ _ _ (engine_same_alpha_refl e)

theorem draw_image2_same_alpha (e : Engine) (img : Image) (x y : Int) (src : Rect)
    (c : Color) : e.same_alpha (engine_draw_image2 e img x y src c) := by
  unfold engine_draw_image2
  exact draw_image3_same_alpha _ _ _ _ _ _

theorem draw_image_same_alpha (e : Engine) (img : Image) (x y : Int) :
    e.same_alpha (engine_draw_image e img x y) := by
  unfold engine_draw_image
  exact draw_image3_same_alpha _ _ _ _ _ _

theorem draw_text2_same_alpha (font : Font) (y : Int) (c : Color) (text : List Nat) :
    ∀ (e : Engine) (x : Int), e.same_alpha (engine_draw_text2 font y c text e x).1 := by
  induction text with
  | nil => intro e _; exact engine_same_alpha_refl e
  | cons p ps ih =>
    intro e x
    simp only [engine_draw_text2]
    split
    · exact engine_same_alpha_refl e
    · exact engine_same_alpha_trans _ _ _ (draw_image2_same_alpha _ _ _ _ _ _) (ih _ _)

theorem clear_same_alpha (e : Engine) (c : Color) : e.same_alpha (engine_clear e c) :=
  draw_rect_fill_same_alpha e _ c

/-! ## Font atlas -/

/-- A column whose `n` pixels from row `y` on all have alpha 0 is reported empty. -/
theorem check_column_loop_transparent (img : Image) (x : Int) (n : Nat) :
    ∀ y : Int, (∀ k : Nat, k < n → (img.load (x + (y + k) * img.w)).a = 0) →
      check_column_loop img x n y = false := by
  induction n with
  | zero => intro y _; rfl
  | succ n ih =>
    intro y h
    simp only [check_column_loop]
    have h0 := h 0 (by omega)
    simp only [Nat.cast_zero, add_zero] at h0
    rw [if_neg (by rw [h0]; simp)]
    apply ih
    intro k hk
    have := h (k + 1) (by omega)
    have e : y + 1 + (k : Int) = y + ((k + 1 : Nat) : Int) := by push_cast; ring
    rw [e]
    exact this

/-- The first trimming loop over `n` empty columns takes `n` off the width. -/
theorem font_trim_right_transparent (img : Image) (ry rh : Int) (n : Nat) :
    ∀ x rw : Int, (∀ j : Nat, j < n → engine_check_column img (x - j) ry rh = false) →
      font_trim_right img ry rh n x rw = rw - n := by
  induction n with
  | zero => intro x rw _; simp [font_trim_right]
  | succ n ih =>
    intro x rw h
    simp only [font_trim_right]
    have h0 := h 0 (by omega)
    simp only [Nat.cast_zero, sub_zero] at h0
    rw [h0]
    simp only [Bool.false_eq_true, if_false]
    rw [ih (x - 1) (rw - 1)]
    · push_cast; ring
    · intro j hj
      have := h (j + 1) (by omega)
      have e : x - 1 - (j : Int) = x - ((j + 1 : Nat) : Int) := by push_cast; ring
      rw [e]
      exact this

/-- The second trimming loop leaves by its condition or its `break` within
`r.x + r.w - x` iterations: with that much fuel, more fuel changes nothing. -/
theorem font_trim_left_fuel (img : Image) (ry rh : Int) (fuel : Nat) :
    ∀ (k : Nat) (x rx rw : Int), rx + rw - x ≤ fuel →
      font_trim_left img ry rh (fuel + k) x rx rw = font_trim_left img ry rh fuel x rx rw := by
  induction fuel with
  | zero =>
    intro k x rx rw h
    cases k with
    | zero => rfl
    | succ k =>
      simp only [Nat.zero_add, font_trim_left]
      rw [if_neg (by omega)]
  | succ n ih =>
    intro k x rx rw h
    have hk : n + 1 + k = (n + k) + 1 := by omega
    rw [hk]
    simp only [font_trim_left]
    split
    · split
      · rfl
      · exact ih k _ _ _ (by omega)
    · rfl

/-- The glyph table entry of the loaded font, away from the space. -/
theorem font_glyph_at (img : Image) (i : Nat) (hi : i < 256) (hi32 : i ≠ 32) :
    (font_from_image img).glyphs.getD i default = font_glyph img i := by
  have h32 : ¬ (32 = i) := fun h => hi32 h.symm
  simp [font_from_image, List.getD_eq_getElem?_getD, List.getElem?_set, h32,
    List.getElem?_range hi]

theorem font_glyphs_length (img : Image) : (font_from_image img).glyphs.length = 256 := by
  simp [font_from_image]

/-- The glyph table entry of the space. -/
theorem font_glyph_space (img : Image) :
    (font_from_image img).glyphs.getD 32 default =
      ⟨⟨0, 0, 0, 0⟩, (font_glyph img 97).xadv⟩ := by
  simp [font_from_image, List.getD_eq_getElem?_getD, List.getElem?_set]

/-! ## Horizontal and vertical lines -/

/-- Once no step along y is left, the loop emits the horizontal run from `x1` to `x2`. -/
theorem draw_line_points_loop_horizontal (x2 y2 A B sx sy : Int) (hsx : sx = 1 ∨ sx = -1)
    (p : Int × Int) (fuel : Nat) :
    ∀ (x1 y1 err a : Int), line_inv x2 y2 A B sx sy x1 y1 err a 0 → a + 1 ≤ fuel →
      (p ∈ draw_line_points_loop x2 y2 A sx (-B) sy fuel x1 y1 err ↔
        p.2 = y1 ∧ ∃ j : Int, 0 ≤ j ∧ j ≤ a ∧ p.1 = x1 + sx * j) := by
  induction fuel with
  | zero => intro x1 y1 err a h hf; have := h.1; omega
  | succ n ih =>
    intro x1 y1 err a h hf
    simp only [draw_line_points_loop, List.mem_cons]
    have hy : y1 = y2 := by have := h.2.2.2.2.2.1; omega
    by_cases hend : x1 = x2 ∧ y1 = y2
    · rw [if_pos hend]
      have ha0 : a = 0 := by
        have := h.2.2.2.2.1
        rw [hend.1] at this
        rcases hsx with hs | hs <;> rw [hs] at this <;> omega
      constructor
      · rintro (hp | hp)
        · rw [hp]
          exact ⟨rfl, 0, le_refl _, by omega, by simp⟩
        · simp at hp
      · rintro ⟨h2, j, hj0, hja, hj⟩
        left
        have hj00 : j = 0 := by omega
        rw [hj00] at hj
        simp only [mul_zero, add_zero] at hj
        exact Prod.ext hj h2
    · rw [if_neg hend]
      obtain ⟨hinv, _, h1, h2⟩ := line_inv_step _ _ _ _ _ _ _ _ _ _ _ h hend
      have hnoy : ¬ (err * 2 ≤ A) := fun hc => by have := h2 hc; omega
      have hstepx : err * 2 ≥ -B := by
        obtain ⟨ha, hb, haA, hbB, _, _, herr⟩ := h
        have hab : 0 < a ∨ 0 < (0 : Int) := by
          left
          by_contra hcon
          have ha0 : a = 0 := by omega
          apply hend
          have := ‹x2 - x1 = sx * a›
          rw [ha0] at this
          constructor <;> omega
        have := (line_step_inv A B err a 0 ha hb haA hbB herr hab).2.2.1
        omega
      simp only [if_neg hnoy, if_pos hstepx] at hinv ⊢
      rw [ih _ _ _ _ hinv (by omega)]
      constructor
      · rintro (hp | ⟨h2, j, hj0, hja, hj⟩)
        · rw [hp]
          exact ⟨rfl, 0, le_refl _, h.1, by simp⟩
        · exact ⟨h2, j + 1, by omega, by omega, by rw [hj]; ring⟩
      · rintro ⟨h2, j, hj0, hja, hj⟩
        by_cases hj00 : j = 0
        · left
          rw [hj00] at hj
          simp only [mul_zero, add_zero] at hj
          exact Prod.ext hj h2
        · right
          exact ⟨h2, j - 1, by omega, by omega, by rw [hj]; ring⟩

/-- Once no step along x is left, the loop emits the vertical run from `y1` to `y2`. -/
theorem draw_line_points_loop_vertical (x2 y2 A B sx sy : Int) (hsy : sy = 1 ∨ sy = -1)
    (p : Int × Int) (fuel : Nat) :
    ∀ (x1 y1 err b : Int), line_inv x2 y2 A B sx sy x1 y1 err 0 b → b + 1 ≤ fuel →
      (p ∈ draw_line_points_loop x2 y2 A sx (-B) sy fuel x1 y1 err ↔
        p.1 = x1 ∧ ∃ j : Int, 0 ≤ j ∧ j ≤ b ∧ p.2 = y1 + sy * j) := by
  induction fuel with
  | zero => intro x1 y1 err b h hf; have := h.2.1; omega
  | succ n ih =>
    intro x1 y1 err b h hf
    simp only [draw_line_points_loop, List.mem_cons]
    have hx : x1 = x2 := by have := h.2.2.2.2.1; omega
    by_cases hend : x1 = x2 ∧ y1 = y2
    · rw [if_pos hend]
      have hb0 : b = 0 := by
        have := h.2.2.2.2.2.1
        rw [hend.2] at this
        rcases hsy with hs | hs <;> rw [hs] at this <;> omega
      constructor
      · rintro (hp | hp)
        · rw [hp]
          exact ⟨rfl, 0, le_refl _, by omega, by simp⟩
        · simp at hp
      · rintro ⟨h2, j, hj0, hja, hj⟩
        left
        have hj00 : j = 0 := by omega
        rw [hj00] at hj
        simp only [mul_zero, add_zero] at hj
        exact Prod.ext h2 hj
    · rw [if_neg hend]
      obtain ⟨hinv, _, h1, h2⟩ := line_inv_step _ _ _ _ _ _ _ _ _ _ _ h hend
      have hnox : ¬ (err * 2 ≥ -B) := fun hc => by have := h1 hc; omega
      have hstepy : err * 2 ≤ A := by
        obtain ⟨ha, hb, haA, hbB, _, _, herr⟩ := h
        have hab : 0 < (0 : Int) ∨ 0 < b := by
          right
          by_contra hcon
          have hb0 : b = 0 := by omega
          apply hend
          have := ‹y2 - y1 = sy * b›
          rw [hb0] at this
          constructor <;> omega
        have := (line_step_inv A B err 0 b ha hb haA hbB herr hab).2.2.1
        omega
      simp only [if_neg hnox, if_pos hstepy] at hinv ⊢
      rw [ih _ _ _ _ hinv (by omega)]
      constructor
      · rintro (hp | ⟨h2, j, hj0, hja, hj⟩)
        · rw [hp]
          exact ⟨rfl, 0, le_refl _, h.2.1, by simp⟩
        · exact ⟨h2, j + 1, by omega, by omega, by rw [hj]; ring⟩
      · rintro ⟨h2, j, hj0, hja, hj⟩
        by_cases hj00 : j = 0
        · left
          rw [hj00] at hj
          simp only [mul_zero, add_zero] at hj
          exact Prod.ext h2 hj
        · right
          exact ⟨h2, j - 1, by omega, by omega, by rw [hj]; ring⟩

/-- The points of a horizontal line are the pixels of row `y` between the end columns. -/
theorem horizontal_line_points (xa xb y : Int) (p : Int × Int) :
    p ∈ engine_draw_line_points xa y xb y ↔ p.2 = y ∧ min xa xb ≤ p.1 ∧ p.1 ≤ max xa xb := by
  have hinv := line_inv_init xa y xb y
  have e0 : (y - y).natAbs = 0 := by simp
  unfold engine_draw_line_points
  simp only
  rw [e0] at hinv ⊢
  rw [draw_line_points_loop_horizontal xb y _ _ _ _ (by split <;> simp) p _ _ _ _ _ hinv
    (by push_cast; omega)]
  constructor
  · rintro ⟨h2, j, hj0, hja, hj⟩
    refine ⟨h2, ?_⟩
    split at hj <;> omega
  · rintro ⟨h2, h3, h4⟩
    refine ⟨h2, ?_⟩
    by_cases hlt : xa < xb
    · rw [if_pos hlt]
      exact ⟨p.1 - xa, by omega, by omega, by ring⟩
    · rw [if_neg hlt]
      exact ⟨xa - p.1, by omega, by omega, by ring⟩

/-- The points of a vertical line are the pixels of column `x` between the end rows. -/
theorem vertical_line_points (x ya yb : Int) (p : Int × Int) :
    p ∈ engine_draw_line_points x ya x yb ↔ p.1 = x ∧ min ya yb ≤ p.2 ∧ p.2 ≤ max ya yb := by
  have hinv := line_inv_init x ya x yb
  have e0 : (x - x).natAbs = 0 := by simp
  unfold engine_draw_line_points
  simp only
  rw [e0] at hinv ⊢
  rw [draw_line_points_loop_vertical x yb _ _ _ _ (by split <;> simp) p _ _ _ _ _ hinv
    (by push_cast; omega)]
  constructor
  · rintro ⟨h2, j, hj0, hja, hj⟩
    refine ⟨h2, ?_⟩
    split at hj <;> omega
  · rintro ⟨h2, h3, h4⟩
    refine ⟨h2, ?_⟩
    by_cases hlt : ya < yb
    · rw [if_pos hlt]
      exact ⟨p.2 - ya, by omega, by omega, by ring⟩
    · rw [if_neg hlt]
      exact ⟨ya - p.2, by omega, by omega, by ring⟩

/-! ## The points of a rectangle outline -/

theorem draw_points_append (c : Color) (e : Engine) (l1 l2 : List (Int × Int)) :
    draw_points c e (l1 ++ l2) = draw_points c (draw_points c e l1) l2 := by
  unfold draw_points
  exact List.foldl_append _ _ _ _

/-- `engine_draw_rect` draws exactly the points of `engine_draw_rect_points`, in order. -/
theorem draw_rect_eq_points (e : Engine) (rect : Rect) (c : Color) (ha : c.a ≠ 0) :
    engine_draw_rect e rect c = draw_points c e (engine_draw_rect_points rect) := by
  unfold engine_draw_rect engine_draw_rect_points
  rw [if_neg ha]
  split
  · rfl
  split
  · exact draw_line_eq_points _ _ _ _ _ _
  split
  · exact draw_line_eq_points _ _ _ _ _ _
  · simp only [draw_points_append, draw_line_eq_points]

/-- The points `engine_draw_rect` emits for a rectangle with `w ≥ 2` and `h ≥ 2` are the
border pixels of the rectangle. -/
theorem draw_rect_points_border (rect : Rect) (hw : 2 ≤ rect.w) (hh : 2 ≤ rect.h)
    (p : Int × Int) :
    p ∈ engine_draw_rect_points rect ↔
      rect.contains p.1 p.2 ∧
        (p.1 = rect.x ∨ p.1 = rect.x + rect.w - 1 ∨ p.2 = rect.y ∨
          p.2 = rect.y + rect.h - 1) := by
  unfold engine_draw_rect_points Rect.contains
  rw [if_neg (by omega), if_neg (by omega), if_neg (by omega)]
  simp only [List.mem_append, horizontal_line_points, vertical_line_points]
  omega

/-- The points `engine_draw_rect` emits for a rectangle with `w = 1` are the `h + 1` pixels
of column `rect.x` from row `rect.y` to row `rect.y + rect.h`, the last one below the
rectangle. -/
theorem draw_rect_points_column (rect : Rect) (hw : rect.w = 1) (hh : 1 ≤ rect.h)
    (p : Int × Int) :
    (p ∈ engine_draw_rect_points rect ↔
      p.1 = rect.x ∧ rect.y ≤ p.2 ∧ p.2 ≤ rect.y + rect.h) ∧
    (rect.x, rect.y + rect.h) ∈ engine_draw_rect_points rect ∧
    ¬ rect.contains rect.x (rect.y + rect.h) := by
  have hm : ∀ q : Int × Int, q ∈ engine_draw_rect_points rect ↔
      q.1 = rect.x ∧ rect.y ≤ q.2 ∧ q.2 ≤ rect.y + rect.h := by
    intro q
    unfold engine_draw_rect_points
    rw [if_neg (by omega), if_pos hw, vertical_line_points]
    omega
  refine ⟨hm p, (hm _).2 ⟨rfl, by simp only; omega, by simp⟩, ?_⟩
  unfold Rect.contains
  omega

/-- The points `engine_draw_rect` emits for a rectangle with `h = 1` and `w ≥ 2` are the
`w + 1` pixels of row `rect.y` from column `rect.x` to column `rect.x + rect.w`, the last
one right of the rectangle. -/
theorem draw_rect_points_row (rect : Rect) (hw : 2 ≤ rect.w) (hh : rect.h = 1)
    (p : Int × Int) :
    (p ∈ engine_draw_rect_points rect ↔
      p.2 = rect.y ∧ rect.x ≤ p.1 ∧ p.1 ≤ rect.x + rect.w) ∧
    (rect.x + rect.w, rect.y) ∈ engine_draw_rect_points rect ∧
    ¬ rect.contains (rect.x + rect.w) rect.y := by
  have hm : ∀ q : Int × Int, q ∈ engine_draw_rect_points rect ↔
      q.2 = rect.y ∧ rect.x ≤ q.1 ∧ q.1 ≤ rect.x + rect.w := by
    intro q
    unfold engine_draw_rect_points
    rw [if_neg (by omega), if_neg (by omega), if_pos hh, horizontal_line_points]
    omega
  refine ⟨hm p, (hm _).2 ⟨rfl, by simp only; omega, by simp⟩, ?_⟩
  unfold Rect.contains
  omega

/-! ## Text layout -/

theorem text_width_loop_acc (font : Font) (text : List Nat) (x : Int) :
    text_width_loop font text x = x + text_width_loop font text 0 := by
  induction text generalizing x with
  | nil => simp [text_width_loop]
  | cons p ps ih =>
    unfold text_width_loop
    by_cases hp : p = 0
    · simp [hp]
    · rw [if_neg hp, if_neg hp, ih (x + _), ih (0 + _)]
      omega

theorem text_width_cons (font : Font) (p : Nat) (ps : List Nat) (hp : p ≠ 0) :
    engine_text_width font (p :: ps) =
      (font.glyphs.getD p default).xadv + engine_text_width font ps := by
  unfold engine_text_width
  rw [text_width_loop, if_neg hp, text_width_loop_acc]
  omega

theorem text_width_zero (font : Font) (ps : List Nat) :
    engine_text_width font (0 :: ps) = 0 := by
  simp [engine_text_width, text_width_loop]

theorem text_width_eq_sum (font : Font) (text : List Nat) :
    engine_text_width font text =
      ((text_bytes text).map (fun b => (font.glyphs.getD b default).xadv)).sum := by
  induction text with
  | nil => simp [engine_text_width, text_width_loop, text_bytes]
  | cons p ps ih =>
    by_cases hp : p = 0
    · subst hp
      simp [text_width_zero, text_bytes]
    · rw [text_width_cons font p ps hp, ih]
      simp [text_bytes, List.takeWhile_cons, hp]

theorem draw_text2_x (font : Font) (y : Int) (color : Color) (text : List Nat) (e : Engine)
    (x : Int) :
    (engine_draw_text2 font y color text e x).2 = x + engine_text_width font text := by
  induction text generalizing e x with
  | nil => simp [engine_draw_text2, engine_text_width, text_width_loop]
  | cons p ps ih =>
    by_cases hp : p = 0
    · subst hp
      simp [engine_draw_text2, text_width_zero]
    · rw [text_width_cons font p ps hp]
      unfold engine_draw_text2
      rw [if_neg hp]
      simp only []
      rw [ih]
      omega

theorem draw_text2_glyphs (font : Font) (y : Int) (color : Color) (text : List Nat)
    (e : Engine) (x : Int) :
    (engine_draw_text2 font y color text e x).1 =
      (List.range (text_bytes text).length).foldl
        (fun e1 i => engine_draw_image2 e1 font.image
          (x + (((text_bytes text).take i).map
            (fun b => (font.glyphs.getD b default).xadv)).sum) y
          (font.glyphs.getD ((text_bytes text).getD i 0) default).rect color) e := by
  induction text generalizing e x with
  | nil => simp [engine_draw_text2, text_bytes]
  | cons p ps ih =>
    by_cases hp : p = 0
    · subst hp
      simp [engine_draw_text2, text_bytes]
    · unfold engine_draw_text2
      rw [if_neg hp]
      simp only []
      rw [ih]
      have hb : text_bytes (p :: ps) = p :: text_bytes ps := by
        simp [text_bytes, List.takeWhile_cons, hp]
      rw [hb, List.length_cons, List.range_succ_eq_map, List.foldl_cons, List.foldl_map]
      simp only [List.take_zero, List.map_nil, List.sum_nil, add_zero, List.getD_cons_zero,
        List.take_succ_cons, List.map_cons, List.sum_cons, List.getD_cons_succ, add_assoc]

/-! ## Input state -/

theorem getD_set_eq {α : Type} (t : List α) (i j : Nat) (v d : α) :
    (t.set i v).getD j d = if i = j ∧ i < t.length then v else t.getD j d := by
  rw [List.getD_eq_getElem?_getD, List.getD_eq_getElem?_getD, List.getElem?_set]
  by_cases hij : i = j
  · subst hij
    by_cases hl : i < t.length
    · simp [hl]
    · simp [hl, List.getElem?_eq_none (Nat.le_of_not_lt hl)]
  · simp [hij]

theorem byte_and_not_zero (m : Nat) : byte_and_not 0 m = 0 := by
  simp [byte_and_not]

theorem clear_edges_loop_getD (n i : Nat) (t : List Nat) (j : Nat) :
    (clear_edges_loop n i t).getD j 0 =
      if i ≤ j ∧ j < i + n then
        byte_and_not (t.getD j 0) (ENGINE_INPUT_PRESSED ||| ENGINE_INPUT_RELEASED)
      else t.getD j 0 := by
  induction n generalizing i t with
  | zero =>
    have : ¬ (i ≤ j ∧ j < i + 0) := by omega
    rw [if_neg this]
    rfl
  | succ n ih =>
    unfold clear_edges_loop
    rw [ih, getD_set_eq]
    by_cases h1 : i + 1 ≤ j ∧ j < i + 1 + n
    · have h2 : i ≤ j ∧ j < i + (n + 1) := by omega
      have h3 : ¬ (i = j ∧ i < t.length) := by omega
      rw [if_pos h1, if_pos h2, if_neg h3]
    · rw [if_neg h1]
      by_cases h4 : i = j
      · subst h4
        have h2 : i ≤ i ∧ i < i + (n + 1) := by omega
        rw [if_pos h2]
        by_cases hl : i < t.length
        · rw [if_pos ⟨rfl, hl⟩]
        · have h3 : ¬ (i = i ∧ i < t.length) := by omega
          rw [if_neg h3]
          have : t.getD i 0 = 0 := by
            rw [List.getD_eq_getElem?_getD, List.getElem?_eq_none (by omega)]
            rfl
          rw [this, byte_and_not_zero]
      · have h2 : ¬ (i ≤ j ∧ j < i + (n + 1)) := by omega
        have h3 : ¬ (i = j ∧ i < t.length) := by omega
        rw [if_neg h2, if_neg h3]

theorem clear_edges_loop_length (n i : Nat) (t : List Nat) :
    (clear_edges_loop n i t).length = t.length := by
  induction n generalizing i t with
  | zero => rfl
  | succ n ih =>
    unfold clear_edges_loop
    rw [ih, List.length_set]

theorem byte_and_not_edges (v : Nat) :
    byte_and_not v (ENGINE_INPUT_PRESSED ||| ENGINE_INPUT_RELEASED) &&& ENGINE_INPUT_PRESSED = 0 ∧
    byte_and_not v (ENGINE_INPUT_PRESSED ||| ENGINE_INPUT_RELEASED) &&& ENGINE_INPUT_RELEASED = 0 ∧
    byte_and_not v (ENGINE_INPUT_PRESSED ||| ENGINE_INPUT_RELEASED) &&& ENGINE_INPUT_DOWN =
      v &&& ENGINE_INPUT_DOWN := by
  unfold byte_and_not
  refine ⟨?_, ?_, ?_⟩
  · rw [Nat.and_assoc]
    have : (0xff ^^^ (ENGINE_INPUT_PRESSED ||| ENGINE_INPUT_RELEASED)) &&& ENGINE_INPUT_PRESSED = 0 := by
      decide
    rw [this, Nat.and_zero]
  · rw [Nat.and_assoc]
    have : (0xff ^^^ (ENGINE_INPUT_PRESSED ||| ENGINE_INPUT_RELEASED)) &&& ENGINE_INPUT_RELEASED = 0 := by
      decide
    rw [this, Nat.and_zero]
  · rw [Nat.and_assoc]
    have : (0xff ^^^ (ENGINE_INPUT_PRESSED ||| ENGINE_INPUT_RELEASED)) &&& ENGINE_INPUT_DOWN =
        ENGINE_INPUT_DOWN := by
      decide
    rw [this]

theorem update_clear_key (s : InputState) (i : Nat) (hi : i < 256) :
    (engine_update_clear s).key_state.getD i 0 =
      byte_and_not (s.key_state.getD i 0) (ENGINE_INPUT_PRESSED ||| ENGINE_INPUT_RELEASED) := by
  simp only [engine_update_clear]
  rw [clear_edges_loop_getD, if_pos (by omega)]

theorem update_clear_mouse (s : InputState) (i : Nat) (hi : i < 16) :
    (engine_update_clear s).mouse_state.getD i 0 =
      byte_and_not (s.mouse_state.getD i 0) (ENGINE_INPUT_PRESSED ||| ENGINE_INPUT_RELEASED) := by
  simp only [engine_update_clear]
  rw [clear_edges_loop_getD, if_pos (by omega)]

theorem frame_boundaries_down (n : Nat) (s : InputState) :
    (∀ i, i < 256 →
      (frame_boundaries n s).key_state.getD i 0 &&& ENGINE_INPUT_DOWN =
        s.key_state.getD i 0 &&& ENGINE_INPUT_DOWN) ∧
    (∀ i, i < 16 →
      (frame_boundaries n s).mouse_state.getD i 0 &&& ENGINE_INPUT_DOWN =
        s.mouse_state.getD i 0 &&& ENGINE_INPUT_DOWN) := by
  induction n generalizing s with
  | zero => exact ⟨fun _ _ => rfl, fun _ _ => rfl⟩
  | succ n ih =>
    unfold frame_boundaries
    refine ⟨fun i hi => ?_, fun i hi => ?_⟩
    · rw [(ih (engine_update_clear s)).1 i hi, update_clear_key s i hi]
      exact (byte_and_not_edges _).2.2
    · rw [(ih (engine_update_clear s)).2 i hi, update_clear_mouse s i hi]
      exact (byte_and_not_edges _).2.2

/-! ## The typed-character buffer -/

theorem char_store_loop_full (c : Int) (n i : Nat) (buf : List Int)
    (h : ∀ j, i ≤ j → j < i + n → buf.getD j 0 ≠ 0) : char_store_loop c n i buf = buf := by
  induction n generalizing i with
  | zero => rfl
  | succ n ih =>
    unfold char_store_loop
    rw [if_pos (h i (le_refl i) (by omega))]
    exact ih (i + 1) (fun j h1 h2 => h j (by omega) (by omega))

theorem char_store_loop_first (c : Int) (n i m : Nat) (buf : List Int) (h1 : i ≤ m)
    (h2 : m < i + n) (hm : buf.getD m 0 = 0) (h : ∀ j, i ≤ j → j < m → buf.getD j 0 ≠ 0) :
    char_store_loop c n i buf = buf.set m c := by
  induction n generalizing i with
  | zero => omega
  | succ n ih =>
    unfold char_store_loop
    by_cases him : i = m
    · subst him
      rw [if_neg (fun h3 => h3 hm)]
    · rw [if_pos (h i (le_refl i) (by omega))]
      exact ih (i + 1) (by omega) (by omega) (fun j h3 h4 => h j (by omega) h4)

theorem get_char_loop_empty (n i : Nat) (buf : List Int)
    (h : ∀ j, i ≤ j → j < i + n → buf.getD j 0 = 0) : get_char_loop n i buf = (0, buf) := by
  induction n generalizing i with
  | zero => rfl
  | succ n ih =>
    unfold get_char_loop
    rw [if_pos (fun h3 => h3 (h i (le_refl i) (by omega)))]
    exact ih (i + 1) (fun j h1 h2 => h j (by omega) (by omega))

theorem get_char_loop_first (n i m : Nat) (buf : List Int) (h1 : i ≤ m) (h2 : m < i + n)
    (hm : buf.getD m 0 ≠ 0) (h : ∀ j, i ≤ j → j < m → buf.getD j 0 = 0) :
    get_char_loop n i buf = (buf.getD m 0, buf.set m 0) := by
  induction n generalizing i with
  | zero => omega
  | succ n ih =>
    unfold get_char_loop
    by_cases him : i = m
    · subst him
      rw [if_neg (fun h3 => h3 hm)]
    · rw [if_pos (fun h3 => h3 (h i (le_refl i) (by omega)))]
      exact ih (i + 1) (by omega) (by omega) (fun j h3 h4 => h j (by omega) h4)

theorem to_int32_small (c : Nat) (hc : c < 2 ^ 31) : to_int32 c = Int.ofNat c := by
  unfold to_int32
  have : c % 2 ^ 32 = c := Nat.mod_eq_of_lt (by omega)
  rw [this, if_pos hc]
  rfl

theorem getD_append_replicate (l : List Int) (k j : Nat) :
    (l ++ List.replicate k 0).getD j 0 = l.getD j 0 := by
  rw [List.getD_eq_getElem?_getD, List.getD_eq_getElem?_getD]
  by_cases hj : j < l.length
  · rw [List.getElem?_append_left hj]
  · rw [List.getElem?_append_right (by omega), List.getElem?_eq_none (l := l) (by omega)]
    by_cases hk : j - l.length < k
    · simp [List.getElem?_replicate, hk]
    · simp [List.getElem?_replicate, hk]

theorem getD_replicate_append (k : Nat) (l : List Int) (j : Nat) (hj : j < k) :
    (List.replicate k 0 ++ l).getD j 0 = 0 := by
  rw [List.getD_eq_getElem?_getD, List.getElem?_append_left (by simpa using hj)]
  simp [List.getElem?_replicate, hj]

theorem wndproc_char_buf (s : InputState) (c : Nat) :
    (wndproc_char s c).char_buf =
      if c < 32 then s.char_buf else char_store_loop (to_int32 c) 32 0 s.char_buf := by
  unfold wndproc_char
  by_cases h : c < 32
  · rw [if_pos h, if_pos h]
  · rw [if_neg h, if_neg h]

/-- Typing `cs` into an empty buffer fills the first slots in order. -/
theorem type_chars_buf (cs : List Nat) (s : InputState)
    (hempty : s.char_buf = List.replicate 32 0) (hlen : cs.length ≤ 32)
    (hcs : ∀ c, c ∈ cs → 32 ≤ c ∧ c < 2 ^ 31) :
    (type_chars cs s).char_buf =
      cs.map Int.ofNat ++ List.replicate (32 - cs.length) 0 := by
  induction cs using List.reverseRecOn with
  | nil => simpa [type_chars] using hempty
  | append_singleton cs c ih =>
    have hl : cs.length < 32 := by
      simp only [List.length_append, List.length_singleton] at hlen
      omega
    have ih1 := ih (by omega) (fun c1 h1 => hcs c1 (by simp [h1]))
    have hc := hcs c (by simp)
    unfold type_chars at ih1 ⊢
    rw [List.foldl_append, List.foldl_cons, List.foldl_nil, wndproc_char_buf,
      if_neg (by omega), ih1, to_int32_small c hc.2]
    have h0 : (cs.map Int.ofNat).length = cs.length := List.length_map _ _
    rw [char_store_loop_first (Int.ofNat c) 32 0 cs.length _ (by omega) (by omega)]
    · have : 32 - cs.length = (32 - (cs ++ [c]).length) + 1 := by
        simp only [List.length_append, List.length_singleton]
        omega
      rw [this, List.replicate_succ, List.set_append_right _ _ (by omega), h0,
        Nat.sub_self, List.set_cons_zero, List.map_append, List.map_singleton,
        List.append_assoc, List.singleton_append]
    · rw [getD_append_replicate, List.getD_eq_getElem?_getD,
        List.getElem?_eq_none (by omega)]
      rfl
    · intro j _ hj
      rw [getD_append_replicate, List.getD_eq_getElem?_getD,
        List.getElem?_map, List.getElem?_eq_getElem hj]
      simp only [Option.map_some', Option.getD_some]
      have := (hcs cs[j] (by simp [List.getElem_mem])).1
      intro h3
      have h4 : (cs[j] : Int) = 0 := h3
      omega

theorem engine_get_char_first (s : InputState) (k : Nat) (c : Int) (rest : List Int)
    (hbuf : s.char_buf = List.replicate k 0 ++ c :: rest) (hk : k < 32) (hc : c ≠ 0) :
    (engine_get_char s).1 = c ∧
      (engine_get_char s).2.char_buf = List.replicate (k + 1) 0 ++ rest := by
  have hkk : (List.replicate k (0 : Int) ++ c :: rest).getD k 0 = c := by
    rw [List.getD_eq_getElem?_getD, List.getElem?_append_right (by simp)]
    simp
  have h := get_char_loop_first 32 0 k s.char_buf (by omega) (by omega)
    (by rw [hbuf, hkk]; exact hc)
    (fun j _ hj => by rw [hbuf]; exact getD_replicate_append k _ j hj)
  unfold engine_get_char
  simp only [h]
  rw [hbuf, hkk]
  refine ⟨rfl, ?_⟩
  rw [List.set_append_right _ _ (by simp), List.length_replicate, Nat.sub_self,
    List.set_cons_zero, List.replicate_succ', List.append_assoc, List.singleton_append]

theorem get_chars_buf (cs : List Int) (s : InputState) (k r : Nat)
    (hbuf : s.char_buf = List.replicate k 0 ++ cs ++ List.replicate r 0)
    (hk : k + cs.length ≤ 32) (hcs : ∀ c, c ∈ cs → c ≠ 0) :
    (get_chars cs.length s).1 = cs ∧
      (get_chars cs.length s).2.char_buf = List.replicate (k + cs.length + r) 0 := by
  induction cs generalizing s k with
  | nil =>
    simp only [get_chars, List.length_nil, add_zero, true_and]
    rw [hbuf, List.append_nil, ← List.replicate_add]
  | cons c cs ih =>
    have hg := engine_get_char_first s k c (cs ++ List.replicate r 0)
      (by rw [hbuf, List.append_assoc, List.cons_append])
      (by simp only [List.length_cons] at hk; omega)
      (hcs c (by simp))
    have ih1 := ih (engine_get_char s).2 (k + 1) (by rw [hg.2, List.append_assoc])
      (by simp only [List.length_cons] at hk; omega) (fun c1 h1 => hcs c1 (by simp [h1]))
    simp only [List.length_cons, get_chars]
    rw [hg.1, ih1.1, ih1.2]
    refine ⟨rfl, ?_⟩
    congr 1
    omega

/-! ## The blend functions channel by channel -/

/-- The interpolated channel lies between the two channel values. -/
theorem lerp_channel_between (d s a : Nat) (ha : a < 256) :
    (min d s : Int) ≤ lerp_channel d s a ∧ lerp_channel d s a ≤ (max d s : Int) := by
  unfold lerp_channel
  by_cases hsd : d ≤ s
  · have h0 : (0 : Int) ≤ ((s : Int) - (d : Int)) * (a : Int) :=
      mul_nonneg (by omega) (by omega)
    have h1 : ((s : Int) - (d : Int)) * (a : Int) ≤ ((s : Int) - (d : Int)) * 255 :=
      mul_le_mul_of_nonneg_left (by omega) (by omega)
    omega
  · have h0 : ((s : Int) - (d : Int)) * (a : Int) ≤ 0 :=
      mul_nonpos_of_nonpos_of_nonneg (by omega) (by omega)
    have h1 : ((s : Int) - (d : Int)) * 255 ≤ ((s : Int) - (d : Int)) * (a : Int) :=
      mul_le_mul_of_nonpos_left (by omega) (by omega)
    omega

/-- Each of the b, g and r channels of `engine_blend_pixel` is the interpolation
`d + floor((s - d) * src.a / 256)` of its own two channel values. -/
theorem blend_pixel_channels (dst src : Color) (hd : dst.wf) (hs : src.wf) :
    ((engine_blend_pixel dst src).b : Int) = lerp_channel dst.b src.b src.a ∧
    ((engine_blend_pixel dst src).g : Int) = lerp_channel dst.g src.g src.a ∧
    ((engine_blend_pixel dst src).r : Int) = lerp_channel dst.r src.r src.a := by
  obtain ⟨hdb, hdg, hdr, _⟩ := hd
  obtain ⟨hsb, hsg, hsr, hsa⟩ := hs
  obtain ⟨db, dg, dr, da⟩ := dst
  obtain ⟨sb, sg, sr, sa⟩ := src
  simp only at hdb hdg hdr hsb hsg hsr hsa
  have hbb := lerp_channel_between db sb sa hsa
  have hbg := lerp_channel_between dg sg sa hsa
  have hbr := lerp_channel_between dr sr sa hsa
  unfold engine_blend_pixel
  rw [mask_rb ⟨db, dg, dr, da⟩ hdb hdg hdr, mask_rb ⟨sb, sg, sr, sa⟩ hsb hsg hsr]
  simp only [Color.ofWord, Int.shiftRight_eq_div_pow, Nat.shiftRight_eq_div_pow]
  unfold lerp_channel at hbb hbg hbr ⊢
  generalize hpb : ((sb : Int) - (db : Int)) * (sa : Int) = pb at hbb ⊢
  generalize hpg : ((sg : Int) - (dg : Int)) * (sa : Int) = pg at hbg ⊢
  generalize hpr : ((sr : Int) - (dr : Int)) * (sa : Int) = pr at hbr ⊢
  generalize hP : (sb + sr * 65536 + 2 ^ 32 - (db + dr * 65536)) % 2 ^ 32 * sa = P
  have hPint : (P : Int) = pb + 65536 * pr ∨ (P : Int) = pb + 65536 * pr + 4294967296 * sa := by
    by_cases hlt : sb + sr * 65536 < db + dr * 65536
    · right
      have e : (sb + sr * 65536 + 2 ^ 32 - (db + dr * 65536)) % 2 ^ 32 =
          sb + sr * 65536 + 2 ^ 32 - (db + dr * 65536) := by omega
      rw [← hP, e, ← hpb, ← hpr]
      have e2 : ((sb + sr * 65536 + 2 ^ 32 - (db + dr * 65536) : Nat) : Int) =
          (sb : Int) - db + 65536 * ((sr : Int) - dr) + 4294967296 := by omega
      rw [Nat.cast_mul, e2]
      ring
    · left
      have e : (sb + sr * 65536 + 2 ^ 32 - (db + dr * 65536)) % 2 ^ 32 =
          sb + sr * 65536 - (db + dr * 65536) := by omega
      rw [← hP, e, ← hpb, ← hpr]
      have e2 : ((sb + sr * 65536 - (db + dr * 65536) : Nat) : Int) =
          (sb : Int) - db + 65536 * ((sr : Int) - dr) := by omega
      rw [Nat.cast_mul, e2]
      ring
  have hb0 : 0 ≤ (db : Int) + pb / 256 ∧ (db : Int) + pb / 256 ≤ 255 := by
    simp only [min_def, max_def] at hbb
    split_ifs at hbb <;> omega
  have hg0 : 0 ≤ (dg : Int) + pg / 256 ∧ (dg : Int) + pg / 256 ≤ 255 := by
    simp only [min_def, max_def] at hbg
    split_ifs at hbg <;> omega
  have hr0 : 0 ≤ (dr : Int) + pr / 256 ∧ (dr : Int) + pr / 256 ≤ 255 := by
    simp only [min_def, max_def] at hbr
    split_ifs at hbr <;> omega
  clear hP hpb hpg hpr hbb hbg hbr
  norm_num
  refine ⟨?_, ?_, ?_⟩
  · omega
  · omega
  · omega

/-- The premultiplied alpha of `engine_blend_pixel2` is a byte, below 255. -/
theorem blend2_alpha_le (sa ca : Nat) (hs : sa < 256) (hc : ca < 256) :
    (sa * ca) >>> 8 ≤ 254 := by
  rw [Nat.shiftRight_eq_div_pow]
  have h : sa * ca ≤ 255 * 255 := Nat.mul_le_mul (by omega) (by omega)
  omega

/-- The channel sum of `engine_blend_pixel2` fits a byte. -/
theorem blend2_sum_le (s t d a1 : Nat) (hs : s < 256) (ht : t < 256) (hd : d < 256)
    (ha : a1 ≤ 254) : ((s * t * a1) >>> 16) + ((d * (0xff - a1)) >>> 8) ≤ 255 := by
  rw [Nat.shiftRight_eq_div_pow, Nat.shiftRight_eq_div_pow]
  have h1 : s * t * a1 ≤ 255 * 255 * a1 :=
    Nat.mul_le_mul_right a1 (Nat.mul_le_mul (by omega) (by omega))
  have h2 : d * (0xff - a1) ≤ 255 * (0xff - a1) := Nat.mul_le_mul_right _ (by omega)
  generalize s * t * a1 = p at h1 ⊢
  generalize d * (0xff - a1) = q at h2 ⊢
  omega

/-- The channels that `engine_blend_pixel2` stores, for colours of bytes: no truncation
takes place. -/
theorem blend_pixel2_channels (dst src clr : Color) (hd : dst.wf) (hs : src.wf)
    (hc : clr.wf) :
    (engine_blend_pixel2 dst src clr).b =
      ((src.b * clr.b * ((src.a * clr.a) >>> 8)) >>> 16) +
        ((dst.b * (0xff - (src.a * clr.a) >>> 8)) >>> 8) ∧
    (engine_blend_pixel2 dst src clr).g =
      ((src.g * clr.g * ((src.a * clr.a) >>> 8)) >>> 16) +
        ((dst.g * (0xff - (src.a * clr.a) >>> 8)) >>> 8) ∧
    (engine_blend_pixel2 dst src clr).r =
      ((src.r * clr.r * ((src.a * clr.a) >>> 8)) >>> 16) +
        ((dst.r * (0xff - (src.a * clr.a) >>> 8)) >>> 8) := by
  obtain ⟨hdb, hdg, hdr, _⟩ := hd
  obtain ⟨hsb, hsg, hsr, hsa⟩ := hs
  obtain ⟨hcb, hcg, hcr, hca⟩ := hc
  have ha := blend2_alpha_le src.a clr.a hsa hca
  have hmod : ((src.a * clr.a) >>> 8) % 256 = (src.a * clr.a) >>> 8 :=
    Nat.mod_eq_of_lt (by omega)
  unfold engine_blend_pixel2
  simp only [hmod]
  refine ⟨Nat.mod_eq_of_lt ?_, Nat.mod_eq_of_lt ?_, Nat.mod_eq_of_lt ?_⟩
  · have := blend2_sum_le src.b clr.b dst.b _ hsb hcb hdb ha
    omega
  · have := blend2_sum_le src.g clr.g dst.g _ hsg hcg hdg ha
    omega
  · have := blend2_sum_le src.r clr.r dst.r _ hsr hcr hdr ha
    omega

/-! ## Glyph trimming -/

/-- The column loop reports a column exactly when one of its `n` pixels from row `y` on
has a non-zero alpha. -/
theorem check_column_loop_true (img : Image) (x : Int) (n : Nat) :
    ∀ y : Int, check_column_loop img x n y = true ↔
      ∃ k : Nat, k < n ∧ (img.load (x + (y + k) * img.w)).a ≠ 0 := by
  induction n with
  | zero =>
    intro y
    simp [check_column_loop]
  | succ n ih =>
    intro y
    simp only [check_column_loop]
    by_cases h0 : (img.load (x + y * img.w)).a ≠ 0
    · rw [if_pos h0]
      simp only [true_iff]
      exact ⟨0, by omega, by simpa using h0⟩
    · rw [if_neg h0, ih (y + 1)]
      constructor
      · rintro ⟨k, hk, ha⟩
        refine ⟨k + 1, by omega, ?_⟩
        have e : y + ((k + 1 : Nat) : Int) = y + 1 + (k : Int) := by push_cast; ring
        rw [e]
        exact ha
      · rintro ⟨k, hk, ha⟩
        cases k with
        | zero =>
          exfalso
          apply h0
          simpa using ha
        | succ k =>
          refine ⟨k, by omega, ?_⟩
          have e : y + ((k + 1 : Nat) : Int) = y + 1 + (k : Int) := by push_cast; ring
          rw [e] at ha
          exact ha

/-- `engine_check_column` reports a column exactly when one of the rows `y ≤ row < y + h`
has a pixel of non-zero alpha in it. -/
theorem check_column_true (img : Image) (x y h : Int) :
    engine_check_column img x y h = true ↔
      ∃ row : Int, y ≤ row ∧ row < y + h ∧ (img.pixel x row).a ≠ 0 := by
  unfold engine_check_column Image.pixel
  rw [check_column_loop_true]
  constructor
  · rintro ⟨k, hk, ha⟩
    exact ⟨y + k, by omega, by omega, ha⟩
  · rintro ⟨row, h1, h2, ha⟩
    refine ⟨(row - y).toNat, by omega, ?_⟩
    have e : y + (((row - y).toNat : Nat) : Int) = row := by omega
    rw [e]
    exact ha

/-- A column that `engine_check_column` does not report has alpha 0 in every row. -/
theorem check_column_false (img : Image) (x y h : Int)
    (hc : engine_check_column img x y h = false) (row : Int) (h1 : y ≤ row)
    (h2 : row < y + h) : (img.pixel x row).a = 0 := by
  by_contra hne
  have := (check_column_true img x y h).2 ⟨row, h1, h2, hne⟩
  rw [hc] at this
  exact Bool.false_ne_true this

/-- The first trimming loop takes `j` columns off the right: they are empty, and unless
all `n` columns went, the next column is not. -/
theorem font_trim_right_spec (img : Image) (ry rh : Int) (n : Nat) :
    ∀ x rw : Int, ∃ j : Nat, j ≤ n ∧ font_trim_right img ry rh n x rw = rw - j ∧
      (∀ i : Nat, i < j → engine_check_column img (x - i) ry rh = false) ∧
      (j < n → engine_check_column img (x - j) ry rh = true) := by
  induction n with
  | zero =>
    intro x rw
    exact ⟨0, le_refl 0, by simp [font_trim_right], fun i hi => by omega, fun h => by omega⟩
  | succ n ih =>
    intro x rw
    simp only [font_trim_right]
    by_cases hc : engine_check_column img x ry rh = true
    · rw [if_pos hc]
      exact ⟨0, by omega, by simp, fun i hi => by omega, fun _ => by simpa using hc⟩
    · rw [if_neg hc]
      obtain ⟨j, hj, hres, hempty, hnext⟩ := ih (x - 1) (rw - 1)
      refine ⟨j + 1, by omega, by rw [hres]; push_cast; ring, ?_, ?_⟩
      · intro i hi
        cases i with
        | zero => simpa using hc
        | succ i =>
          have := hempty i (by omega)
          have e : x - ((i + 1 : Nat) : Int) = x - 1 - (i : Int) := by push_cast; ring
          rw [e]
          exact this
      · intro hlt
        have := hnext (by omega)
        have e : x - ((j + 1 : Nat) : Int) = x - 1 - (j : Int) := by push_cast; ring
        rw [e]
        exact this

/-- The second trimming loop, started at `x = r.x` with enough fuel, takes `j` columns
off the left: they are empty, `j` is at most the width, and unless the width is used up
the next column is not empty. -/
theorem font_trim_left_spec (img : Image) (ry rh : Int) (fuel : Nat) :
    ∀ rx rw : Int, rw ≤ fuel → ∃ j : Nat, ((j : Int) ≤ rw ∨ j = 0) ∧
      font_trim_left img ry rh fuel rx rx rw = (rx + j, rw - j) ∧
      (∀ i : Nat, i < j → engine_check_column img (rx + i) ry rh = false) ∧
      (0 < rw - j → engine_check_column img (rx + j) ry rh = true) := by
  induction fuel with
  | zero =>
    intro rx rw h
    exact ⟨0, Or.inr rfl, by simp [font_trim_left], fun i hi => by omega,
      fun h1 => by simp at h h1; omega⟩
  | succ n ih =>
    intro rx rw h
    simp only [font_trim_left]
    by_cases hlt : rx < rx + rw
    · rw [if_pos hlt]
      by_cases hc : engine_check_column img rx ry rh = true
      · rw [if_pos hc]
        exact ⟨0, Or.inr rfl, by simp, fun i hi => by omega, fun _ => by simpa using hc⟩
      · rw [if_neg hc]
        obtain ⟨j, hj, hres, hempty, hnext⟩ := ih (rx + 1) (rw - 1) (by push_cast at h; omega)
        refine ⟨j + 1, Or.inl (by push_cast; omega), ?_, ?_, ?_⟩
        · rw [hres]
          push_cast
          refine Prod.ext ?_ ?_ <;> simp only <;> ring
        · intro i hi
          cases i with
          | zero => simpa using hc
          | succ i =>
            have := hempty i (by omega)
            have e : rx + ((i + 1 : Nat) : Int) = rx + 1 + (i : Int) := by push_cast; ring
            rw [e]
            exact this
        · intro hpos
          have := hnext (by push_cast at hpos; omega)
          have e : rx + ((j + 1 : Nat) : Int) = rx + 1 + (j : Int) := by push_cast; ring
          rw [e]
          exact this
    · rw [if_neg hlt]
      exact ⟨0, Or.inr rfl, by simp, fun i hi => by omega, fun h1 => by simp at h1; omega⟩

/-- The trimmed rectangle of a glyph cell of non-negative width: it stays within the
cell, the cell columns outside it are empty, and if it is not empty its first and its
last column are not. -/
theorem font_glyph_tight (img : Image) (i : Nat) (hw : 0 ≤ img.w) :
    (font_glyph img i).rect.y = (font_cell img i).y ∧
    (font_glyph img i).rect.h = (font_cell img i).h ∧
    (font_cell img i).x ≤ (font_glyph img i).rect.x ∧
    0 ≤ (font_glyph img i).rect.w ∧
    (font_glyph img i).rect.x + (font_glyph img i).rect.w ≤
      (font_cell img i).x + (font_cell img i).w ∧
    (∀ c : Int, (font_cell img i).x ≤ c → c < (font_cell img i).x + (font_cell img i).w →
      (c < (font_glyph img i).rect.x ∨
        (font_glyph img i).rect.x + (font_glyph img i).rect.w ≤ c) →
      engine_check_column img c (font_cell img i).y (font_cell img i).h = false) ∧
    (0 < (font_glyph img i).rect.w →
      engine_check_column img (font_glyph img i).rect.x
        (font_cell img i).y (font_cell img i).h = true ∧
      engine_check_column img ((font_glyph img i).rect.x + (font_glyph img i).rect.w - 1)
        (font_cell img i).y (font_cell img i).h = true) := by
  have hcw : 0 ≤ (font_cell img i).w := by
    unfold font_cell
    exact Int.tdiv_nonneg hw (by omega)
  generalize hr : font_cell img i = r at hcw
  obtain ⟨j1, hj1, hres1, hempty1, hnext1⟩ :=
    font_trim_right_spec img r.y r.h r.w.toNat (r.x + r.w - 1) r.w
  obtain ⟨j2, hj2, hres2, hempty2, hnext2⟩ :=
    font_trim_left_spec img r.y r.h (r.w - j1).toNat r.x (r.w - j1) (by omega)
  have hg : font_glyph img i = ⟨⟨r.x + j2, r.y, r.w - j1 - j2, r.h⟩, r.w - j1 - j2 + 1⟩ := by
    unfold font_glyph
    simp only [hr, hres1, hres2]
  rw [hg]
  simp only
  have hj2le : (j2 : Int) ≤ r.w - j1 := by
    rcases hj2 with h | h
    · exact h
    · rw [h]
      push_cast
      omega
  refine ⟨trivial, trivial, by omega, by omega, by omega, ?_, ?_⟩
  · intro c hc0 hc1 hout
    rcases hout with hl | hr1
    · have := hempty2 (c - r.x).toNat (by omega)
      have e : r.x + (((c - r.x).toNat : Nat) : Int) = c := by omega
      rw [e] at this
      exact this
    · have := hempty1 (r.x + r.w - 1 - c).toNat (by omega)
      have e : r.x + r.w - 1 - (((r.x + r.w - 1 - c).toNat : Nat) : Int) = c := by omega
      rw [e] at this
      exact this
  · intro hpos
    refine ⟨hnext2 (by omega), ?_⟩
    have := hnext1 (by omega)
    have e : r.x + (j2 : Int) + (r.w - j1 - j2) - 1 = r.x + r.w - 1 - j1 := by ring
    rw [e]
    exact this

/-! ## The source pixels a blit reads -/

/-- The accesses keep the width of the surface. -/
theorem image3_access_foldl_w (img : Image) (fn : Nat) (mul add : Color)
    (l : List (Int × Int × Int × Int)) :
    ∀ scr : Image, (l.foldl (image3_access img fn mul add) scr).w = scr.w := by
  induction l with
  | nil => intro scr; rfl
  | cons t l ih =>
    intro scr
    rw [List.foldl_cons, ih]
    simp only [image3_access, Image.store_w]

/-- A chain in which a key grows by the same non-zero step from each element to the
next has no element twice. -/
theorem chain_step_nodup {α : Type} (key : α → Int) (s : Int) (hs : s = 1 ∨ s = -1) :
    ∀ (l : List α) (a : α), List.Chain (fun p q => key q = key p + s) a l →
      (∀ q, q ∈ l → ∃ k : Nat, 0 < k ∧ key q = key a + k * s) ∧ (a :: l).Nodup := by
  intro l
  induction l with
  | nil =>
    intro a _
    exact ⟨fun q hq => by simp at hq, List.nodup_singleton a⟩
  | cons b l ih =>
    intro a h
    rw [List.chain_cons] at h
    obtain ⟨hab, hl⟩ := h
    obtain ⟨hk, hn⟩ := ih b hl
    have hmem : ∀ q, q ∈ b :: l → ∃ k : Nat, 0 < k ∧ key q = key a + k * s := by
      intro q hq
      rw [List.mem_cons] at hq
      rcases hq with hq | hq
      · exact ⟨1, by omega, by rw [hq, hab]; simp⟩
      · obtain ⟨k, hk0, hkq⟩ := hk q hq
        exact ⟨k + 1, by omega, by rw [hkq, hab]; push_cast; ring⟩
    refine ⟨hmem, List.nodup_cons.2 ⟨?_, hn⟩⟩
    intro ha
    obtain ⟨k, hk0, hka⟩ := hmem a ha
    rcases hs with hs | hs
    · rw [hs] at hka; omega
    · rw [hs] at hka; omega

/-- A line whose x extent is the larger one: every iteration steps along x, so from a
state with `a` steps to go the loop emits `a + 1` points, each one step along x from the
one before and at most one step along y. -/
theorem draw_line_points_x_major (x2 y2 A B sx sy : Int) (hAB : B ≤ A)
    (hsx : sx = 1 ∨ sx = -1) (fuel : Nat) :
    ∀ (x1 y1 err a b : Int), line_inv x2 y2 A B sx sy x1 y1 err a b → err * 2 ≥ -B →
      a + 1 ≤ fuel →
      ∃ tail : List (Int × Int),
        draw_line_points_loop x2 y2 A sx (-B) sy fuel x1 y1 err = (x1, y1) :: tail ∧
        (tail.length : Int) = a ∧
        List.Chain (fun p q => q.1 = p.1 + sx ∧ (q.2 = p.2 ∨ q.2 = p.2 + sy)) (x1, y1) tail := by
  induction fuel with
  | zero => intro x1 y1 err a b h _ hf; have := h.1; omega
  | succ n ih =>
    intro x1 y1 err a b h herr hf
    simp only [draw_line_points_loop]
    by_cases hend : x1 = x2 ∧ y1 = y2
    · rw [if_pos hend]
      refine ⟨[], rfl, ?_, List.Chain.nil⟩
      obtain ⟨ha, _, _, _, hx, _, _⟩ := h
      rw [hend.1] at hx
      simp only [List.length_nil, Nat.cast_zero]
      rcases hsx with hs | hs <;> rw [hs] at hx <;> omega
    · rw [if_neg hend]
      obtain ⟨hinv, _, h1, _⟩ := line_inv_step _ _ _ _ _ _ _ _ _ _ _ h hend
      have ha := h1 herr
      rw [if_pos herr, if_pos herr] at hinv
      have hA : 0 ≤ A := by have := h.1; have := h.2.2.1; omega
      have herr2 : (if err * 2 ≤ A then (if err * 2 ≥ -B then err + -B else err) + A
          else (if err * 2 ≥ -B then err + -B else err)) * 2 ≥ -B := by
        rw [if_pos herr]
        split <;> omega
      rw [if_pos herr] at herr2
      obtain ⟨tail, ht, hlen, hch⟩ := ih _ _ _ _ _ hinv herr2 (by omega)
      rw [if_pos herr, if_pos herr, ht]
      refine ⟨_, rfl, ?_, List.Chain.cons ⟨rfl, ?_⟩ hch⟩
      · simp only [List.length_cons]
        push_cast
        omega
      · simp only
        split
        · exact Or.inr rfl
        · exact Or.inl rfl

/-- A line whose y extent is the larger one: every iteration steps along y. -/
theorem draw_line_points_y_major (x2 y2 A B sx sy : Int) (hAB : A ≤ B)
    (hsy : sy = 1 ∨ sy = -1) (fuel : Nat) :
    ∀ (x1 y1 err a b : Int), line_inv x2 y2 A B sx sy x1 y1 err a b → err * 2 ≤ A →
      b + 1 ≤ fuel →
      ∃ tail : List (Int × Int),
        draw_line_points_loop x2 y2 A sx (-B) sy fuel x1 y1 err = (x1, y1) :: tail ∧
        (tail.length : Int) = b ∧
        List.Chain (fun p q => q.2 = p.2 + sy ∧ (q.1 = p.1 ∨ q.1 = p.1 + sx)) (x1, y1) tail := by
  induction fuel with
  | zero => intro x1 y1 err a b h _ hf; have := h.2.1; omega
  | succ n ih =>
    intro x1 y1 err a b h herr hf
    simp only [draw_line_points_loop]
    by_cases hend : x1 = x2 ∧ y1 = y2
    · rw [if_pos hend]
      refine ⟨[], rfl, ?_, List.Chain.nil⟩
      obtain ⟨_, hb, _, _, _, hy, _⟩ := h
      rw [hend.2] at hy
      simp only [List.length_nil, Nat.cast_zero]
      rcases hsy with hs | hs <;> rw [hs] at hy <;> omega
    · rw [if_neg hend]
      obtain ⟨hinv, _, _, h2⟩ := line_inv_step _ _ _ _ _ _ _ _ _ _ _ h hend
      have hb := h2 herr
      rw [if_pos herr, if_pos herr, if_pos herr] at hinv
      have hB : 0 ≤ B := by have := h.2.1; have := h.2.2.2.1; omega
      have herr2 : ((if err * 2 ≥ -B then err + -B else err) + A) * 2 ≤ A := by
        split <;> omega
      obtain ⟨tail, ht, hlen, hch⟩ := ih _ _ _ _ _ hinv herr2 (by omega)
      rw [if_pos herr, if_pos herr, ht]
      refine ⟨_, rfl, ?_, List.Chain.cons ⟨rfl, ?_⟩ hch⟩
      · simp only [List.length_cons]
        push_cast
        omega
      · simp only
        split
        · exact Or.inr rfl
        · exact Or.inl rfl

theorem chain_and {α : Type} (R S : α → α → Prop) :
    ∀ (l : List α) (a : α), List.Chain R a l → List.Chain S a l →
      List.Chain (fun p q => R p q ∧ S p q) a l := by
  intro l
  induction l with
  | nil => intro a _ _; exact List.Chain.nil
  | cons b l ih =>
    intro a hR hS
    rw [List.chain_cons] at hR hS
    exact List.Chain.cons ⟨hR.1, hS.1⟩ (ih b hR.2 hS.2)

/-! ## The points of a circle outline -/

theorem draw_circle_loop_eq_points (x0 y0 : Int) (c : Color) (fuel : Nat) :
    ∀ (e : Engine) (E dx dy x y : Int),
      draw_circle_loop x0 y0 c fuel e E dx dy x y =
        draw_points c e (draw_circle_points_loop x0 y0 fuel E dx dy x y) := by
  induction fuel with
  | zero => intro e E dx dy x y; rfl
  | succ n ih =>
    intro e E dx dy x y
    simp only [draw_circle_loop, draw_circle_points_loop]
    by_cases hc : x < y - 1
    · rw [if_pos hc, if_pos hc]
      generalize (if E ≥ 0 then y - 1 else y) = y1
      generalize (if E ≥ 0 then dy + 2 else dy) = dy1
      generalize (if E ≥ 0 then E + dy1 else E) = E1
      rw [ih, draw_points_append, draw_points_append]
      by_cases hxy : x + 1 ≠ y1
      · rw [if_pos hxy, if_pos hxy]
        rfl
      · rw [if_neg hxy, if_neg hxy]
        rfl
    · rw [if_neg hc, if_neg hc]
      rfl

/-- `engine_draw_circle` with a colour of non-zero alpha draws exactly the points of
`engine_draw_circle_points`, in order. -/
theorem draw_circle_eq_points (e : Engine) (x0 y0 radius : Int) (c : Color) (hc : c.a ≠ 0) :
    engine_draw_circle e x0 y0 radius c =
      draw_points c e (engine_draw_circle_points x0 y0 radius) := by
  unfold engine_draw_circle engine_draw_circle_points
  rw [if_neg hc]
  simp only
  rw [draw_circle_loop_eq_points, draw_points_append]
  rfl

/-- One more iteration keeps the invariant: the new point `(x + 1, y1)` is again in the
second octant, left of the old `y`, and within `y1` of the true circle. -/
theorem circle_inv_step (r E dx dy x y : Int) (h : circle_inv r E dx dy x y)
    (hc : x < y - 1) :
    circle_inv r ((if E ≥ 0 then E + (if E ≥ 0 then dy + 2 else dy) else E) + (dx + 2 + 1))
      (dx + 2) (if E ≥ 0 then dy + 2 else dy) (x + 1) (if E ≥ 0 then y - 1 else y) ∧
    x + 1 < r := by
  obtain ⟨h0, h1, h2, h3, h4, h5, h6, h7⟩ := h
  have e1 : (x + 1) * (x + 1) = x * x + 2 * x + 1 := by ring
  have e2 : (x + 1 + 1) * (x + 1 + 1) = x * x + 4 * x + 4 := by ring
  have e3 : (y - 1) * (y - 1) = y * y - 2 * y + 1 := by ring
  unfold circle_inv
  by_cases hE : E ≥ 0
  · simp only [if_pos hE]
    refine ⟨⟨?_, ?_, ?_, ?_, ?_, ?_, ?_, ?_⟩, ?_⟩ <;> omega
  · simp only [if_neg hE]
    refine ⟨⟨?_, ?_, ?_, ?_, ?_, ?_, ?_, ?_⟩, ?_⟩ <;> omega

/-- The invariant holds when `engine_draw_circle` enters its loop with a radius of at
least 1. -/
theorem circle_inv_init (r : Int) (hr : 1 ≤ r) : circle_inv r (1 - r) 0 (-2 * r) 0 r := by
  unfold circle_inv
  have e : (0 : Int) * 0 + r * r - r * r = 0 := by ring
  refine ⟨by omega, by omega, by omega, by ring, by ring, by ring, ?_, ?_⟩
  · rw [e]; omega
  · rw [e]; omega

/-- Every point of the loop is a reflection of an offset `(a, b)` of a later iteration:
`x < a ≤ b ≤ r`, `a < r`, and `a^2 + b^2` is away from `r^2` by less than `b`. -/
theorem draw_circle_points_loop_mem (x0 y0 r : Int) (fuel : Nat) :
    ∀ (E dx dy x y : Int), circle_inv r E dx dy x y →
      ∀ p, p ∈ draw_circle_points_loop x0 y0 fuel E dx dy x y →
        ∃ a b : Int, x < a ∧ a ≤ b ∧ b ≤ r ∧ a < r ∧ -b ≤ a * a + b * b - r * r ∧
          a * a + b * b - r * r ≤ b - 1 ∧ on_octants x0 y0 a b p := by
  induction fuel with
  | zero => intro E dx dy x y _ p hp; simp [draw_circle_points_loop] at hp
  | succ n ih =>
    intro E dx dy x y h p hp
    simp only [draw_circle_points_loop] at hp
    by_cases hc : x < y - 1
    · rw [if_pos hc] at hp
      obtain ⟨hinv, hxr⟩ := circle_inv_step r E dx dy x y h hc
      generalize (if E ≥ 0 then y - 1 else y) = y1 at hp hinv
      have hinv1 := hinv
      obtain ⟨i0, i1, i2, _, _, _, i6, i7⟩ := hinv1
      rw [List.mem_append, List.mem_append] at hp
      rcases hp with hp | hp | hp
      · refine ⟨x + 1, y1, by omega, i1, i2, hxr, i6, i7, ?_⟩
        simp only [List.mem_cons, List.mem_singleton, List.not_mem_nil, or_false] at hp
        unfold on_octants
        tauto
      · refine ⟨x + 1, y1, by omega, i1, i2, hxr, i6, i7, ?_⟩
        by_cases hne : x + 1 ≠ y1
        · rw [if_pos hne] at hp
          simp only [List.mem_cons, List.mem_singleton, List.not_mem_nil, or_false] at hp
          unfold on_octants
          tauto
        · rw [if_neg hne] at hp
          exact absurd hp (List.not_mem_nil _)
      · obtain ⟨a, b, ha, hab, hb, har, hd1, hd2, ho⟩ := ih _ _ _ _ _ hinv p hp
        exact ⟨a, b, by omega, hab, hb, har, hd1, hd2, ho⟩
    · rw [if_neg hc] at hp
      exact absurd hp (List.not_mem_nil _)

/-- A reflection of `(a, b)` with `x < a ≤ b` is more than `x` away from the centre along
both axes. -/
theorem on_octants_far (x0 y0 a b x : Int) (p : Int × Int) (h : on_octants x0 y0 a b p)
    (ha : x < a) (hab : a ≤ b) :
    (x < p.1 - x0 ∨ x < x0 - p.1) ∧ (x < p.2 - y0 ∨ x < y0 - p.2) := by
  unfold on_octants at h
  rcases h with h | h | h | h | h | h | h | h <;> rw [h] <;> simp only <;> omega

/-- A reflection of `(a, b)` has the squared distance `a^2 + b^2` from the centre. -/
theorem on_octants_dist (x0 y0 a b u v : Int) (h : on_octants x0 y0 a b (x0 + u, y0 + v)) :
    u * u + v * v = a * a + b * b := by
  unfold on_octants at h
  simp only [Prod.mk.injEq] at h
  rcases h with h | h | h | h | h | h | h | h
  · have hu : u = a := by omega
    have hv : v = b := by omega
    rw [hu, hv]
  · have hu : u = -a := by omega
    have hv : v = b := by omega
    rw [hu, hv]; ring
  · have hu : u = a := by omega
    have hv : v = -b := by omega
    rw [hu, hv]; ring
  · have hu : u = -a := by omega
    have hv : v = -b := by omega
    rw [hu, hv]; ring
  · have hu : u = b := by omega
    have hv : v = a := by omega
    rw [hu, hv]; ring
  · have hu : u = -b := by omega
    have hv : v = a := by omega
    rw [hu, hv]; ring
  · have hu : u = b := by omega
    have hv : v = -a := by omega
    rw [hu, hv]; ring
  · have hu : u = -b := by omega
    have hv : v = -a := by omega
    rw [hu, hv]; ring

/-- The loop emits no point twice. -/
theorem draw_circle_points_loop_nodup (x0 y0 r : Int) (fuel : Nat) :
    ∀ (E dx dy x y : Int), circle_inv r E dx dy x y →
      (draw_circle_points_loop x0 y0 fuel E dx dy x y).Nodup := by
  induction fuel with
  | zero => intro E dx dy x y _; exact List.nodup_nil
  | succ n ih =>
    intro E dx dy x y h
    simp only [draw_circle_points_loop]
    by_cases hc : x < y - 1
    · rw [if_pos hc]
      obtain ⟨hinv, hxr⟩ := circle_inv_step r E dx dy x y h hc
      have hrest := ih _ _ _ _ _ hinv
      have hmem := draw_circle_points_loop_mem x0 y0 r n _ _ _ _ _ hinv
      have hx0 := h.1
      have hxy := hinv.2.1
      generalize (if E ≥ 0 then y - 1 else y) = y1 at hrest hmem hxy ⊢
      generalize draw_circle_points_loop x0 y0 n _ _ _ _ _ = rest at hrest hmem ⊢
      have hfar : ∀ p, p ∈ rest →
          (x + 1 < p.1 - x0 ∨ x + 1 < x0 - p.1) ∧ (x + 1 < p.2 - y0 ∨ x + 1 < y0 - p.2) := by
        intro p hp
        obtain ⟨a, b, ha, hab, _, _, _, _, ho⟩ := hmem p hp
        exact on_octants_far x0 y0 a b (x + 1) p ho ha hab
      rw [List.nodup_append]
      refine ⟨?_, ?_, ?_⟩
      · simp only [List.nodup_cons, List.mem_cons, List.mem_singleton, Prod.mk.injEq,
          List.not_mem_nil, not_false_eq_true, List.nodup_nil, and_true, not_or]
        omega
      · rw [List.nodup_append]
        refine ⟨?_, hrest, ?_⟩
        · by_cases hne : x + 1 ≠ y1
          · rw [if_pos hne]
            simp only [List.nodup_cons, List.mem_cons, List.mem_singleton, Prod.mk.injEq,
              List.not_mem_nil, not_false_eq_true, List.nodup_nil, and_true, not_or]
            omega
          · rw [if_neg hne]
            exact List.nodup_nil
        · intro p hp1 hp2
          have hf := hfar p hp2
          by_cases hne : x + 1 ≠ y1
          · rw [if_pos hne] at hp1
            simp only [List.mem_cons, List.mem_singleton, List.not_mem_nil, or_false] at hp1
            rcases hp1 with hp | hp | hp | hp <;> rw [hp] at hf <;> simp only at hf <;> omega
          · rw [if_neg hne] at hp1
            exact absurd hp1 (List.not_mem_nil _)
      · intro p hp1 hp2
        simp only [List.mem_cons, List.mem_singleton, List.not_mem_nil, or_false] at hp1
        rw [List.mem_append] at hp2
        rcases hp2 with hp2 | hp2
        · by_cases hne : x + 1 ≠ y1
          · rw [if_pos hne] at hp2
            simp only [List.mem_cons, List.mem_singleton, List.not_mem_nil, or_false] at hp2
            rcases hp1 with hp | hp | hp | hp <;> rw [hp] at hp2 <;>
              simp only [Prod.mk.injEq] at hp2 <;> omega
          · rw [if_neg hne] at hp2
            exact absurd hp2 (List.not_mem_nil _)
        · have hf := hfar p hp2
          rcases hp1 with hp | hp | hp | hp <;> rw [hp] at hf <;> simp only at hf <;> omega
    · rw [if_neg hc]
      exact List.nodup_nil

/-! ## Input queries -/

theorem to_uint32_of_nonneg (n : Int) (h0 : 0 ≤ n) (h1 : n < 2 ^ 32) : to_uint32 n = n.toNat := by
  unfold to_uint32
  rw [Int.emod_eq_of_lt h0 h1]

/-- An index above `cap` is answered `false` without a read. -/
theorem check_input_flag_above (t : List Nat) (idx cap flag : Nat) (h : cap < idx) :
    engine_check_input_flag t idx cap flag = some false := by
  unfold engine_check_input_flag
  rw [if_pos h]

/-- The index `cap` itself passes the guard, and the table of `cap` cells is read one
past its end. -/
theorem check_input_flag_at_cap (t : List Nat) (flag : Nat) :
    engine_check_input_flag t t.length t.length flag = none := by
  unfold engine_check_input_flag
  rw [if_neg (lt_irrefl _), List.getElem?_eq_none (le_refl _)]

/-- An index inside the table is answered from its cell. -/
theorem check_input_flag_inside (t : List Nat) (idx cap flag : Nat) (h : idx < t.length)
    (hc : idx ≤ cap) :
    engine_check_input_flag t idx cap flag = some (decide (t.getD idx 0 &&& flag ≠ 0)) := by
  unfold engine_check_input_flag
  rw [if_neg (by omega), List.getD_eq_getElem?_getD, List.getElem?_eq_getElem h]
  rfl

/-! ## Reachable input states -/

theorem flags_ok_cases (v : Nat) (h : flags_ok v) :
    flags_ok (ENGINE_INPUT_DOWN ||| ENGINE_INPUT_PRESSED) ∧
    flags_ok (byte_and_not v (ENGINE_INPUT_PRESSED ||| ENGINE_INPUT_RELEASED)) ∧
    flags_ok (byte_or (byte_and_not v ENGINE_INPUT_DOWN) ENGINE_INPUT_RELEASED) := by
  obtain ⟨h8, _⟩ := h
  interval_cases v <;> decide

theorem flags_ok_zero : flags_ok 0 := by decide

/-- A fresh down stamp keeps the cells in order. -/
theorem flags_ok_press (t : List Nat) (k : Nat) (h : ∀ i, flags_ok (t.getD i 0)) (i : Nat) :
    flags_ok ((t.set k (ENGINE_INPUT_DOWN ||| ENGINE_INPUT_PRESSED)).getD i 0) := by
  rw [getD_set_eq]
  split
  · exact (flags_ok_cases 0 flags_ok_zero).1
  · exact h i

/-- The two stores of a release keep the cells in order. -/
theorem flags_ok_release (t : List Nat) (k : Nat) (h : ∀ i, flags_ok (t.getD i 0)) (i : Nat) :
    flags_ok (((t.set k (byte_and_not (t.getD k 0) ENGINE_INPUT_DOWN)).set k
      (byte_or ((t.set k (byte_and_not (t.getD k 0) ENGINE_INPUT_DOWN)).getD k 0)
        ENGINE_INPUT_RELEASED)).getD i 0) := by
  rw [getD_set_eq, List.length_set]
  by_cases hk : k = i ∧ k < t.length
  · rw [if_pos hk, getD_set_eq, if_pos ⟨rfl, hk.2⟩]
    exact (flags_ok_cases _ (h k)).2.2
  · rw [if_neg hk, getD_set_eq, if_neg hk]
    exact h i

/-- The clearing loop keeps the cells in order. -/
theorem flags_ok_clear (n : Nat) (t : List Nat) (h : ∀ i, flags_ok (t.getD i 0)) (i : Nat) :
    flags_ok ((clear_edges_loop n 0 t).getD i 0) := by
  rw [clear_edges_loop_getD]
  split
  · exact (flags_ok_cases _ (h i)).2.1
  · exact h i

/-- In every reachable input state every key cell and every mouse-button cell is in
order. -/
theorem reachable_flags_ok (s : InputState) (hr : s.Reachable) :
    (∀ i, flags_ok (s.key_state.getD i 0)) ∧ (∀ i, flags_ok (s.mouse_state.getD i 0)) := by
  induction hr with
  | zero =>
    have h0 : ∀ (n i : Nat), (List.replicate n (0 : Nat)).getD i 0 = 0 := by
      intro n i
      rw [List.getD_eq_getElem?_getD, List.getElem?_replicate]
      split <;> rfl
    constructor
    · intro i
      show flags_ok ((List.replicate 256 0).getD i 0)
      rw [h0]
      exact flags_ok_zero
    · intro i
      show flags_ok ((List.replicate 16 0).getD i 0)
      rw [h0]
      exact flags_ok_zero
  | step ev s _ ih =>
    obtain ⟨hk, hm⟩ := ih
    cases ev with
    | keydown wparam lparam =>
      simp only [InputEvent.run, wndproc_keydown]
      split
      · exact ⟨hk, hm⟩
      · exact ⟨flags_ok_press _ _ hk, hm⟩
    | keyup wparam =>
      simp only [InputEvent.run, wndproc_keyup]
      exact ⟨flags_ok_release _ _ hk, hm⟩
    | char wparam =>
      simp only [InputEvent.run, wndproc_char]
      split
      · exact ⟨hk, hm⟩
      · exact ⟨hk, hm⟩
    | buttondown button nx ny =>
      simp only [InputEvent.run, wndproc_buttondown, wndproc_mousemove]
      exact ⟨hk, flags_ok_press _ _ hm⟩
    | buttonup button nx ny =>
      simp only [InputEvent.run, wndproc_buttonup, wndproc_mousemove]
      exact ⟨hk, flags_ok_release _ _ hm⟩
    | mousemove nx ny => exact ⟨hk, hm⟩
    | mousewheel wheel_delta => exact ⟨hk, hm⟩
    | frame =>
      simp only [InputEvent.run, engine_update_clear]
      exact ⟨flags_ok_clear 256 _ hk, flags_ok_clear 16 _ hm⟩

/-! # Claims -/

/-- C1: after `engine_set_clip(R)`, `engine_draw_rect_fill(rect, c)` with `c.a > 0` sets
each surface pixel lying in `rect ∩ R` to `engine_blend_pixel(old pixel, c)` and leaves
every other surface pixel unchanged; the clip and the surface shape are kept, and when no
surface pixel lies in `rect ∩ R` the surface is unchanged. -/
theorem draw_rect_fill_clipped (e : Engine) (R rect : Rect) (c : Color)
    (hv : e.screen.valid) (ha : 0 < c.a) :
    (engine_draw_rect_fill (engine_set_clip e R) rect c).clip = (engine_set_clip e R).clip ∧
    (engine_draw_rect_fill (engine_set_clip e R) rect c).screen.w = e.screen.w ∧
    (engine_draw_rect_fill (engine_set_clip e R) rect c).screen.h = e.screen.h ∧
    (∀ px py : Int, 0 ≤ px → px < e.screen.w → 0 ≤ py → py < e.screen.h →
      (engine_draw_rect_fill (engine_set_clip e R) rect c).screen.pixel px py =
        if rect.contains px py ∧ R.contains px py then
          engine_blend_pixel (e.screen.pixel px py) c
        else e.screen.pixel px py) ∧
    ((∀ px py : Int, 0 ≤ px → px < e.screen.w → 0 ≤ py → py < e.screen.h →
        ¬ (rect.contains px py ∧ R.contains px py)) →
      (engine_draw_rect_fill (engine_set_clip e R) rect c).screen = e.screen) := by
  obtain ⟨hw, hh, hl, _⟩ := hv
  obtain ⟨p1, p2, p3, p4, p5⟩ := draw_rect_fill_pixel (engine_set_clip e R) rect c
    (set_clip_clip_ok e R) hl (by omega)
  have hs : (engine_set_clip e R).screen = e.screen := rfl
  rw [hs] at p2 p3 p4 p5
  have hpix : ∀ px py : Int, 0 ≤ px → px < e.screen.w → 0 ≤ py → py < e.screen.h →
      (engine_draw_rect_fill (engine_set_clip e R) rect c).screen.pixel px py =
        if rect.contains px py ∧ R.contains px py then
          engine_blend_pixel (e.screen.pixel px py) c
        else e.screen.pixel px py := by
    intro px py hx0 hx1 hy0 hy1
    rw [p5 px py hx0 hx1 hy0 hy1]
    have hiff : (rect.contains px py ∧ (engine_set_clip e R).clip.contains px py) ↔
        (rect.contains px py ∧ R.contains px py) := by
      rw [set_clip_contains]
      constructor
      · rintro ⟨a, b, _⟩; exact ⟨a, b⟩
      · rintro ⟨a, b⟩; exact ⟨a, b, hx0, hx1, hy0, hy1⟩
    by_cases hin : rect.contains px py ∧ R.contains px py
    · rw [if_pos hin, if_pos (hiff.2 hin)]
    · rw [if_neg hin, if_neg (fun h => hin (hiff.1 h))]
  refine ⟨p1, p2, p3, hpix, ?_⟩
  intro hempty
  apply Image.ext_pixel _ _ p2 p3 p4 (by rw [p4, p2, p3]; exact hl) (by rw [p2]; exact hw)
  intro px py hx0 hx1 hy0 hy1
  rw [p2] at hx1
  rw [p3] at hy1
  rw [hpix px py hx0 hx1 hy0 hy1, if_neg (hempty px py hx0 hx1 hy0 hy1)]

/-- Witness of C1: a 4×4 transparent surface, clip request `(1,1,2,2)`, rectangle
`(0,0,3,3)`, opaque red. -/
theorem draw_rect_fill_clipped_witness :
    (Image.mk (List.replicate 16 ⟨0, 0, 0, 0⟩) 4 4).valid ∧ 0 < (engine_rgb 255 0 0).a ∧
    ((engine_draw_rect_fill (engine_set_clip ⟨⟨0, 0, 4, 4⟩, ⟨List.replicate 16 ⟨0, 0, 0, 0⟩, 4, 4⟩⟩
        ⟨1, 1, 2, 2⟩) ⟨0, 0, 3, 3⟩ (engine_rgb 255 0 0)).clip =
      (engine_set_clip ⟨⟨0, 0, 4, 4⟩, ⟨List.replicate 16 ⟨0, 0, 0, 0⟩, 4, 4⟩⟩ ⟨1, 1, 2, 2⟩).clip ∧
    (engine_draw_rect_fill (engine_set_clip ⟨⟨0, 0, 4, 4⟩, ⟨List.replicate 16 ⟨0, 0, 0, 0⟩, 4, 4⟩⟩
        ⟨1, 1, 2, 2⟩) ⟨0, 0, 3, 3⟩ (engine_rgb 255 0 0)).screen.w = 4 ∧
    (engine_draw_rect_fill (engine_set_clip ⟨⟨0, 0, 4, 4⟩, ⟨List.replicate 16 ⟨0, 0, 0, 0⟩, 4, 4⟩⟩
        ⟨1, 1, 2, 2⟩) ⟨0, 0, 3, 3⟩ (engine_rgb 255 0 0)).screen.h = 4 ∧
    (∀ px py : Int, 0 ≤ px → px < 4 → 0 ≤ py → py < 4 →
      (engine_draw_rect_fill (engine_set_clip
          ⟨⟨0, 0, 4, 4⟩, ⟨List.replicate 16 ⟨0, 0, 0, 0⟩, 4, 4⟩⟩ ⟨1, 1, 2, 2⟩) ⟨0, 0, 3, 3⟩
          (engine_rgb 255 0 0)).screen.pixel px py =
        if Rect.contains ⟨0, 0, 3, 3⟩ px py ∧ Rect.contains ⟨1, 1, 2, 2⟩ px py then
          engine_blend_pixel
            ((Image.mk (List.replicate 16 ⟨0, 0, 0, 0⟩) 4 4).pixel px py) (engine_rgb 255 0 0)
        else (Image.mk (List.replicate 16 ⟨0, 0, 0, 0⟩) 4 4).pixel px py) ∧
    ((∀ px py : Int, 0 ≤ px → px < 4 → 0 ≤ py → py < 4 →
        ¬ (Rect.contains ⟨0, 0, 3, 3⟩ px py ∧ Rect.contains ⟨1, 1, 2, 2⟩ px py)) →
      (engine_draw_rect_fill (engine_set_clip
          ⟨⟨0, 0, 4, 4⟩, ⟨List.replicate 16 ⟨0, 0, 0, 0⟩, 4, 4⟩⟩ ⟨1, 1, 2, 2⟩) ⟨0, 0, 3, 3⟩
          (engine_rgb 255 0 0)).screen = Image.mk (List.replicate 16 ⟨0, 0, 0, 0⟩) 4 4)) :=
  ⟨by decide, by decide,
    draw_rect_fill_clipped ⟨⟨0, 0, 4, 4⟩, ⟨List.replicate 16 ⟨0, 0, 0, 0⟩, 4, 4⟩⟩ ⟨1, 1, 2, 2⟩
      ⟨0, 0, 3, 3⟩ (engine_rgb 255 0 0) (by decide) (by decide)⟩


/-- C2: for a surface as `engine_create_image` makes it and a clip established by
`engine_create` or `engine_set_clip`, none of `engine_draw_point`, `engine_draw_line`,
`engine_draw_rect`, `engine_draw_rect_fill`, `engine_draw_circle`,
`engine_draw_circle_fill`, `engine_draw_image3`, `engine_draw_text2` and `engine_clear`
changes a surface pixel outside the clip rectangle (nor the clip or the surface shape),
whatever the arguments. -/
theorem nothing_drawn_outside_clip (e : Engine) (hv : e.screen.valid)
    (hclip : e.clip_established) :
    (∀ (x y : Int) (c : Color), e.same_outside_clip (engine_draw_point e x y c)) ∧
    (∀ (x1 y1 x2 y2 : Int) (c : Color),
      e.same_outside_clip (engine_draw_line e x1 y1 x2 y2 c)) ∧
    (∀ (rect : Rect) (c : Color), e.same_outside_clip (engine_draw_rect e rect c)) ∧
    (∀ (rect : Rect) (c : Color), e.same_outside_clip (engine_draw_rect_fill e rect c)) ∧
    (∀ (x0 y0 radius : Int) (c : Color),
      e.same_outside_clip (engine_draw_circle e x0 y0 radius c)) ∧
    (∀ (x0 y0 radius : Int) (c : Color),
      e.same_outside_clip (engine_draw_circle_fill e x0 y0 radius c)) ∧
    (∀ (img : Image) (dst src : Rect) (mul_color add_color : Color),
      e.same_outside_clip (engine_draw_image3 e img dst src mul_color add_color)) ∧
    (∀ (font : Font) (text : List Nat) (x y : Int) (c : Color),
      e.same_outside_clip (engine_draw_text2 font y c text e x).1) ∧
    (∀ c : Color, e.same_outside_clip (engine_clear e c)) := by
  have hok : e.ok := ⟨established_clip_ok e hclip, hv.2.2.1⟩
  exact ⟨fun x y c => draw_point_frame e x y c hok,
    fun x1 y1 x2 y2 c => draw_line_frame e x1 y1 x2 y2 c hok,
    fun rect c => draw_rect_frame e rect c hok,
    fun rect c => draw_rect_fill_frame e rect c hok,
    fun x0 y0 radius c => draw_circle_frame e x0 y0 radius c hok,
    fun x0 y0 radius c => draw_circle_fill_frame e x0 y0 radius c hok,
    fun img dst src mul add => draw_image3_frame e img dst src mul add hok,
    fun font text x y c => draw_text2_frame font y c text e x hok,
    fun c => draw_rect_fill_frame e _ c hok⟩

/-- Witness of C2: a 4×4 transparent surface with the clip set by
`engine_set_clip((1,1,2,2))`. -/
theorem nothing_drawn_outside_clip_witness :
    (engine_set_clip ⟨⟨0, 0, 4, 4⟩, ⟨List.replicate 16 ⟨0, 0, 0, 0⟩, 4, 4⟩⟩
      ⟨1, 1, 2, 2⟩).screen.valid ∧
    (engine_set_clip ⟨⟨0, 0, 4, 4⟩, ⟨List.replicate 16 ⟨0, 0, 0, 0⟩, 4, 4⟩⟩
      ⟨1, 1, 2, 2⟩).clip_established ∧
    (engine_set_clip ⟨⟨0, 0, 4, 4⟩, ⟨List.replicate 16 ⟨0, 0, 0, 0⟩, 4, 4⟩⟩
      ⟨1, 1, 2, 2⟩).same_outside_clip
      (engine_clear (engine_set_clip ⟨⟨0, 0, 4, 4⟩, ⟨List.replicate 16 ⟨0, 0, 0, 0⟩, 4, 4⟩⟩
        ⟨1, 1, 2, 2⟩) ENGINE_WHITE) :=
  ⟨by decide, set_clip_established _ _,
    (nothing_drawn_outside_clip
      (engine_set_clip ⟨⟨0, 0, 4, 4⟩, ⟨List.replicate 16 ⟨0, 0, 0, 0⟩, 4, 4⟩⟩ ⟨1, 1, 2, 2⟩)
      (by decide) (set_clip_established _ _)).2.2.2.2.2.2.2.2 ENGINE_WHITE⟩

/-- Counterexample to C3: in the 4×4 scenario pixel (2,2) does not end as opaque blue and
pixel (0,0) does not end as opaque red. -/
theorem opaque_scenario_not_exact :
    engine_create 4 4 = some ⟨⟨0, 0, 4, 4⟩, ⟨List.replicate 16 ⟨0, 0, 0, 0⟩, 4, 4⟩⟩ ∧
    (engine_draw_point
      (engine_draw_rect_fill ⟨⟨0, 0, 4, 4⟩, ⟨List.replicate 16 ⟨0, 0, 0, 0⟩, 4, 4⟩⟩
        (engine_rect 0 0 4 4) (engine_rgb 255 0 0))
      2 2 (engine_rgb 0 0 255)).screen.pixel 2 2 ≠ engine_rgba 0 0 255 255 ∧
    (engine_draw_point
      (engine_draw_rect_fill ⟨⟨0, 0, 4, 4⟩, ⟨List.replicate 16 ⟨0, 0, 0, 0⟩, 4, 4⟩⟩
        (engine_rect 0 0 4 4) (engine_rgb 255 0 0))
      2 2 (engine_rgb 0 0 255)).screen.pixel 0 0 ≠ engine_rgba 255 0 0 255 := by
  decide

/-- C3 (amended): on the 4×4 surface of `engine_create(4, 4)` (all bytes zero, full-surface
clip), `engine_draw_rect_fill({0,0,4,4}, opaque red)` followed by
`engine_draw_point(2, 2, opaque blue)` leaves pixel (2,2) equal to
`(r=0, g=0, b=254, a=0)` and every other pixel equal to `(r=254, g=0, b=0, a=0)`: each
covered pixel is blended by `engine_blend_pixel`, which keeps the destination alpha and
takes a channel from 0 to 254 at source alpha 255. -/
theorem opaque_scenario_blended :
    engine_create 4 4 = some ⟨⟨0, 0, 4, 4⟩, ⟨List.replicate 16 ⟨0, 0, 0, 0⟩, 4, 4⟩⟩ ∧
    ∀ px py : Fin 4,
      (engine_draw_point
        (engine_draw_rect_fill ⟨⟨0, 0, 4, 4⟩, ⟨List.replicate 16 ⟨0, 0, 0, 0⟩, 4, 4⟩⟩
          (engine_rect 0 0 4 4) (engine_rgb 255 0 0))
        2 2 (engine_rgb 0 0 255)).screen.pixel (px.val : Int) (py.val : Int) =
        (if px.val = 2 ∧ py.val = 2 then { r := 0, g := 0, b := 254, a := 0 }
          else { r := 254, g := 0, b := 0, a := 0 }) ∧
      (engine_draw_point
        (engine_draw_rect_fill ⟨⟨0, 0, 4, 4⟩, ⟨List.replicate 16 ⟨0, 0, 0, 0⟩, 4, 4⟩⟩
          (engine_rect 0 0 4 4) (engine_rgb 255 0 0))
        2 2 (engine_rgb 0 0 255)).screen.pixel (px.val : Int) (py.val : Int) =
        (if px.val = 2 ∧ py.val = 2 then
          engine_blend_pixel (engine_blend_pixel ⟨0, 0, 0, 0⟩ (engine_rgb 255 0 0))
            (engine_rgb 0 0 255)
          else engine_blend_pixel ⟨0, 0, 0, 0⟩ (engine_rgb 255 0 0)) := by
  decide

/-- C4: for a colour with `a == 0`, each of `engine_draw_point`, `engine_draw_line`,
`engine_draw_rect`, `engine_draw_rect_fill`, `engine_draw_circle`,
`engine_draw_circle_fill` and `engine_clear` returns the engine it was given: every
surface pixel (and the clip) is unchanged, for all other arguments and any clip. -/
theorem alpha_zero_draws_nothing (e : Engine) (c : Color) (ha : c.a = 0) :
    (∀ x y : Int, engine_draw_point e x y c = e) ∧
    (∀ x1 y1 x2 y2 : Int, engine_draw_line e x1 y1 x2 y2 c = e) ∧
    (∀ rect : Rect, engine_draw_rect e rect c = e) ∧
    (∀ rect : Rect, engine_draw_rect_fill e rect c = e) ∧
    (∀ x0 y0 radius : Int, engine_draw_circle e x0 y0 radius c = e) ∧
    (∀ x0 y0 radius : Int, engine_draw_circle_fill e x0 y0 radius c = e) ∧
    engine_clear e c = e := by
  refine ⟨fun x y => draw_point_alpha0 e x y c ha,
    fun x1 y1 x2 y2 => draw_line_alpha0 e x1 y1 x2 y2 c ha, ?_, ?_, ?_, ?_, ?_⟩
  · intro rect; unfold engine_draw_rect; rw [if_pos ha]
  · intro rect; unfold engine_draw_rect_fill; rw [if_pos ha]
  · intro x0 y0 radius; unfold engine_draw_circle; rw [if_pos ha]
  · intro x0 y0 radius; unfold engine_draw_circle_fill; rw [if_pos ha]
  · unfold engine_clear engine_draw_rect_fill; rw [if_pos ha]

/-- Witness of C4: transparent red on a 2×2 surface with two non-zero pixels. -/
theorem alpha_zero_draws_nothing_witness :
    (engine_rgba 255 0 0 0).a = 0 ∧
    engine_draw_line ⟨⟨0, 0, 2, 2⟩, ⟨[⟨1, 2, 3, 4⟩, ⟨0, 0, 0, 0⟩, ⟨5, 6, 7, 8⟩, ⟨0, 0, 0, 0⟩], 2, 2⟩⟩
      0 0 1 1 (engine_rgba 255 0 0 0) =
      ⟨⟨0, 0, 2, 2⟩, ⟨[⟨1, 2, 3, 4⟩, ⟨0, 0, 0, 0⟩, ⟨5, 6, 7, 8⟩, ⟨0, 0, 0, 0⟩], 2, 2⟩⟩ :=
  ⟨by decide,
    (alpha_zero_draws_nothing
      ⟨⟨0, 0, 2, 2⟩, ⟨[⟨1, 2, 3, 4⟩, ⟨0, 0, 0, 0⟩, ⟨5, 6, 7, 8⟩, ⟨0, 0, 0, 0⟩], 2, 2⟩⟩
      (engine_rgba 255 0 0 0) (by decide)).2.1 0 0 1 1⟩


/-- Counterexample to C5: with the tint and additive colour that `engine_draw_image`
passes, blitting a 1×1 image whose only pixel has alpha 0 changes the destination pixel
`(r=30, g=20, b=10, a=0)` to `(r=29, g=19, b=9, a=0)`. -/
theorem blit_transparent_source_changes_pixel :
    ((Image.mk [⟨0, 0, 0, 0⟩] 1 1).load
      (image3_src_row ⟨0, 0, 1, 1⟩ ⟨0, 0, 1, 1⟩ 0 * 1 +
        image3_src_col ⟨0, 0, 1, 1⟩ ⟨0, 0, 1, 1⟩ 0)).a = 0 ∧
    (engine_draw_image3 ⟨⟨0, 0, 1, 1⟩, ⟨[⟨10, 20, 30, 0⟩], 1, 1⟩⟩ ⟨[⟨0, 0, 0, 0⟩], 1, 1⟩
      ⟨0, 0, 1, 1⟩ ⟨0, 0, 1, 1⟩ ENGINE_WHITE ENGINE_BLACK).screen.pixel 0 0 = ⟨9, 19, 29, 0⟩ ∧
    (engine_draw_image3 ⟨⟨0, 0, 1, 1⟩, ⟨[⟨10, 20, 30, 0⟩], 1, 1⟩⟩ ⟨[⟨0, 0, 0, 0⟩], 1, 1⟩
      ⟨0, 0, 1, 1⟩ ⟨0, 0, 1, 1⟩ ENGINE_WHITE ENGINE_BLACK).screen.pixel 0 0 ≠
      (Image.mk [⟨10, 20, 30, 0⟩] 1 1).pixel 0 0 := by
  decide

/-- C5 (amended): in a blit through `engine_draw_image3`, a surface pixel whose sampled
source pixel has alpha 0 keeps its alpha; it is left byte-for-byte unchanged when the blit
blends with function 1 (`engine_blend_pixel`) or does not cover the pixel; when the blit
blends with `engine_blend_pixel2` or `engine_blend_pixel3` and covers the pixel, each
colour channel `d` of the pixel becomes `(d * 255) >> 8` (that is `d - 1` for `d ≥ 1`). -/
theorem blit_transparent_source (e : Engine) (img : Image) (dst src : Rect)
    (mul_color add_color : Color) (px py : Int) (hv : e.screen.valid)
    (hclip : e.clip_established) (hx0 : 0 ≤ px) (hx1 : px < e.screen.w) (hy0 : 0 ≤ py)
    (hy1 : py < e.screen.h)
    (hs : (img.load (image3_src_row dst src py * img.w + image3_src_col dst src px)).a = 0) :
    ((engine_draw_image3 e img dst src mul_color add_color).screen.pixel px py).a =
      (e.screen.pixel px py).a ∧
    (image3_blend_fn mul_color add_color = 1 →
      (engine_draw_image3 e img dst src mul_color add_color).screen.pixel px py =
        e.screen.pixel px py) ∧
    (¬ ((src.w ≠ 0 ∧ dst.w ≠ 0 ∧ dst.h ≠ 0) ∧ dst.contains px py ∧ e.clip.contains px py) →
      (engine_draw_image3 e img dst src mul_color add_color).screen.pixel px py =
        e.screen.pixel px py) ∧
    (image3_blend_fn mul_color add_color ≠ 1 →
      (src.w ≠ 0 ∧ dst.w ≠ 0 ∧ dst.h ≠ 0) ∧ dst.contains px py ∧ e.clip.contains px py →
      (engine_draw_image3 e img dst src mul_color add_color).screen.pixel px py =
        ⟨((e.screen.pixel px py).b * 255) >>> 8, ((e.screen.pixel px py).g * 255) >>> 8,
          ((e.screen.pixel px py).r * 255) >>> 8, (e.screen.pixel px py).a⟩) := by
  have hwf := valid_pixel_wf e.screen hv px py hx0 hx1 hy0 hy1
  obtain ⟨_, _, _, _, p5⟩ := draw_image3_pixel e img dst src mul_color add_color
    (established_clip_ok e hclip) hv.2.2.1
  have hp := p5 px py hx0 hx1 hy0 hy1
  refine ⟨?_, ?_, ?_, ?_⟩
  · rw [hp]
    split
    · exact image3_blend_a _ _ _ _ _
    · rfl
  · intro hfn
    rw [hp, hfn]
    split
    · exact blend_pixel_alpha0 _ _ hwf hs
    · rfl
  · intro hnc
    rw [hp, if_neg hnc]
  · intro hfn hcov
    rw [hp, if_pos hcov]
    rcases blend_fn_cases mul_color add_color with h | h | h
    · exact absurd h hfn
    · rw [h]; exact blend_pixel2_alpha0 _ _ _ hwf hs
    · rw [h]; exact blend_pixel3_alpha0 _ _ _ _ hwf hs

/-- Witness of C5: the 1×1 blit of the counterexample, at pixel (0,0). -/
theorem blit_transparent_source_witness :
    (Image.mk [⟨10, 20, 30, 0⟩] 1 1).valid ∧
    (engine_set_clip ⟨⟨0, 0, 0, 0⟩, ⟨[⟨10, 20, 30, 0⟩], 1, 1⟩⟩ ⟨0, 0, 1, 1⟩).clip_established ∧
    ((Image.mk [⟨0, 0, 0, 0⟩] 1 1).load
      (image3_src_row ⟨0, 0, 1, 1⟩ ⟨0, 0, 1, 1⟩ 0 * 1 +
        image3_src_col ⟨0, 0, 1, 1⟩ ⟨0, 0, 1, 1⟩ 0)).a = 0 ∧
    ((engine_draw_image3
        (engine_set_clip ⟨⟨0, 0, 0, 0⟩, ⟨[⟨10, 20, 30, 0⟩], 1, 1⟩⟩ ⟨0, 0, 1, 1⟩)
        ⟨[⟨0, 0, 0, 0⟩], 1, 1⟩ ⟨0, 0, 1, 1⟩ ⟨0, 0, 1, 1⟩ ENGINE_WHITE
        ENGINE_BLACK).screen.pixel 0 0).a =
      ((Image.mk [⟨10, 20, 30, 0⟩] 1 1).pixel 0 0).a :=
  ⟨by decide, set_clip_established _ _, by decide,
    (blit_transparent_source
      (engine_set_clip ⟨⟨0, 0, 0, 0⟩, ⟨[⟨10, 20, 30, 0⟩], 1, 1⟩⟩ ⟨0, 0, 1, 1⟩)
      ⟨[⟨0, 0, 0, 0⟩], 1, 1⟩ ⟨0, 0, 1, 1⟩ ⟨0, 0, 1, 1⟩ ENGINE_WHITE ENGINE_BLACK 0 0
      (by decide) (set_clip_established _ _) (by decide) (by decide) (by decide) (by decide)
      (by decide)).1⟩

/-- Counterexample to C6: it is false that function 1 is selected exactly when the tint is
opaque white.  With the tint `ENGINE_WHITE` (the word `0xffffffff`) and the additive colour
`(r=10, g=10, b=10, a=255)` function 3 is selected; so it is with the additive colour
`ENGINE_BLACK` that `engine_draw_image` passes. -/
theorem blend_fn_not_by_tint_alone :
    ¬ (∀ mul_color add_color : Color,
        image3_blend_fn mul_color add_color = 1 ↔ mul_color.w = 0xffffffff) ∧
    ENGINE_WHITE.w = 0xffffffff ∧ image3_blend_fn ENGINE_WHITE (engine_rgb 10 10 10) = 3 ∧
    image3_blend_fn ENGINE_WHITE ENGINE_BLACK = 3 := by
  refine ⟨?_, by decide, by decide, by decide⟩
  intro h
  have h1 := (h ENGINE_WHITE (engine_rgb 10 10 10)).2 (by decide)
  revert h1
  decide

/-- C6 (amended): `engine_draw_image3` chooses its blend function from the two colours
alone (so once per call), by two tests applied in order: `engine_blend_pixel3` iff the
additive colour is non-default by the test of the code on `add_color`, whatever the tint;
otherwise `engine_blend_pixel2` iff the tint is not the word `0xffffffff` (opaque white),
else `engine_blend_pixel` (function 1).  So function 1 is used iff the tint is opaque
white and the additive colour is default. -/
theorem blend_fn_selection (mul_color add_color : Color) :
    (image3_blend_fn mul_color add_color = 3 ↔ image3_add_nondefault add_color) ∧
    (image3_blend_fn mul_color add_color = 2 ↔
      (¬ image3_add_nondefault add_color ∧ mul_color.w ≠ 0xffffffff)) ∧
    (image3_blend_fn mul_color add_color = 1 ↔
      (¬ image3_add_nondefault add_color ∧ mul_color.w = 0xffffffff)) ∧
    (∀ d s : Color,
      image3_blend (image3_blend_fn mul_color add_color) d s mul_color add_color =
        if image3_add_nondefault add_color then
          engine_blend_pixel3 d s mul_color add_color
        else if mul_color.w ≠ 0xffffffff then engine_blend_pixel2 d s mul_color
        else engine_blend_pixel d s) := by
  unfold image3_blend_fn
  by_cases h1 : image3_add_nondefault add_color <;>
    by_cases h2 : mul_color.w = 0xffffffff <;> simp [h1, h2, image3_blend]

/-- Counterexample to C7: blitting a 1×1 opaque white image with opaque white tint and a
zero additive colour onto a transparent 1×1 surface leaves `(r=252, g=252, b=252, a=0)`,
not the source pixel. -/
theorem plain_blit_not_identity :
    (engine_draw_image3 ⟨⟨0, 0, 1, 1⟩, ⟨[⟨0, 0, 0, 0⟩], 1, 1⟩⟩ ⟨[⟨255, 255, 255, 255⟩], 1, 1⟩
      ⟨0, 0, 1, 1⟩ ⟨0, 0, 1, 1⟩ ENGINE_WHITE ⟨0, 0, 0, 0⟩).screen.pixel 0 0 =
      ⟨252, 252, 252, 0⟩ ∧
    (engine_draw_image3 ⟨⟨0, 0, 1, 1⟩, ⟨[⟨0, 0, 0, 0⟩], 1, 1⟩⟩ ⟨[⟨255, 255, 255, 255⟩], 1, 1⟩
      ⟨0, 0, 1, 1⟩ ⟨0, 0, 1, 1⟩ ENGINE_WHITE ⟨0, 0, 0, 0⟩).screen.pixel 0 0 ≠
      (Image.mk [⟨255, 255, 255, 255⟩] 1 1).pixel 0 0 := by
  decide

/-- C7 (amended): blitting an image with tint opaque white, a zero additive colour
(r = g = b = 0) and source and destination rectangles of equal positive size makes every
covered destination pixel that is transparent (all bytes zero) and inside the clip equal
to the blend function selected by the call applied to the transparent pixel and the
corresponding source pixel: its alpha stays 0 and each of its b, g, r channels is at most
the source pixel's channel. -/
theorem plain_blit_on_transparent (e : Engine) (img : Image) (X Y sx sy w h : Int)
    (add_color : Color) (px py : Int) (hv : e.screen.valid) (hclip : e.clip_established)
    (hw : 0 < w) (hh : 0 < h)
    (hadd : add_color.b = 0 ∧ add_color.g = 0 ∧ add_color.r = 0)
    (hcov : (engine_rect X Y w h).contains px py) (hin : e.clip.contains px py)
    (hzero : e.screen.pixel px py = ⟨0, 0, 0, 0⟩) :
    (engine_draw_image3 e img (engine_rect X Y w h) (engine_rect sx sy w h) ENGINE_WHITE
        add_color).screen.pixel px py =
      image3_blend (image3_blend_fn ENGINE_WHITE add_color) ⟨0, 0, 0, 0⟩
        (img.pixel (sx + (px - X)) (sy + (py - Y))) ENGINE_WHITE add_color ∧
    ((engine_draw_image3 e img (engine_rect X Y w h) (engine_rect sx sy w h) ENGINE_WHITE
        add_color).screen.pixel px py).a = 0 ∧
    ((engine_draw_image3 e img (engine_rect X Y w h) (engine_rect sx sy w h) ENGINE_WHITE
        add_color).screen.pixel px py).b ≤ (img.pixel (sx + (px - X)) (sy + (py - Y))).b ∧
    ((engine_draw_image3 e img (engine_rect X Y w h) (engine_rect sx sy w h) ENGINE_WHITE
        add_color).screen.pixel px py).g ≤ (img.pixel (sx + (px - X)) (sy + (py - Y))).g ∧
    ((engine_draw_image3 e img (engine_rect X Y w h) (engine_rect sx sy w h) ENGINE_WHITE
        add_color).screen.pixel px py).r ≤ (img.pixel (sx + (px - X)) (sy + (py - Y))).r := by
  have hok := established_clip_ok e hclip
  obtain ⟨hx0, hx1, hy0, hy1⟩ := clip_contains_in_surface e hok px py hin
  obtain ⟨_, _, _, _, p5⟩ := draw_image3_pixel e img (engine_rect X Y w h)
    (engine_rect sx sy w h) ENGINE_WHITE add_color hok hv.2.2.1
  obtain ⟨hcol, hrow⟩ := src_index_same_size X Y sx sy w h px py hw hh
  have hguard : ((engine_rect sx sy w h).w ≠ 0 ∧ (engine_rect X Y w h).w ≠ 0 ∧
      (engine_rect X Y w h).h ≠ 0) ∧ (engine_rect X Y w h).contains px py ∧
      e.clip.contains px py := by
    refine ⟨⟨?_, ?_, ?_⟩, hcov, hin⟩ <;> simp only [engine_rect] <;> omega
  have hidx : (sy + (py - Y)) * img.w + (sx + (px - X)) =
      sx + (px - X) + (sy + (py - Y)) * img.w := by ring
  have hp := p5 px py hx0 hx1 hy0 hy1
  rw [if_pos hguard, hcol, hrow, hzero, hidx] at hp
  have hfn := blend_fn_zero_add ENGINE_WHITE add_color (by omega) hadd.2.1 hadd.2.2
  have hle := blend_pixel3_on_zero (img.pixel (sx + (px - X)) (sy + (py - Y))) ENGINE_WHITE
    add_color (by decide) hadd.1 hadd.2.1 hadd.2.2
  have hpix : img.load (sx + (px - X) + (sy + (py - Y)) * img.w) =
      img.pixel (sx + (px - X)) (sy + (py - Y)) := rfl
  rw [hpix] at hp
  rw [hp]
  refine ⟨rfl, image3_blend_a _ _ _ _ _, ?_⟩
  rw [hfn]
  exact hle

/-- Witness of C7: the 1×1 blit of the counterexample. -/
theorem plain_blit_on_transparent_witness :
    (Image.mk [⟨0, 0, 0, 0⟩] 1 1).valid ∧
    (engine_set_clip ⟨⟨0, 0, 0, 0⟩, ⟨[⟨0, 0, 0, 0⟩], 1, 1⟩⟩ ⟨0, 0, 1, 1⟩).clip_established ∧
    (engine_rect 0 0 1 1).contains 0 0 ∧
    ((engine_draw_image3 (engine_set_clip ⟨⟨0, 0, 0, 0⟩, ⟨[⟨0, 0, 0, 0⟩], 1, 1⟩⟩ ⟨0, 0, 1, 1⟩)
        ⟨[⟨255, 255, 255, 255⟩], 1, 1⟩ (engine_rect 0 0 1 1) (engine_rect 0 0 1 1) ENGINE_WHITE
        ⟨0, 0, 0, 0⟩).screen.pixel 0 0).a = 0 :=
  ⟨by decide, set_clip_established _ _, by decide,
    (plain_blit_on_transparent
      (engine_set_clip ⟨⟨0, 0, 0, 0⟩, ⟨[⟨0, 0, 0, 0⟩], 1, 1⟩⟩ ⟨0, 0, 1, 1⟩)
      ⟨[⟨255, 255, 255, 255⟩], 1, 1⟩ 0 0 0 0 1 1 ⟨0, 0, 0, 0⟩ 0 0 (by decide)
      (set_clip_established _ _) (by decide) (by decide) (by decide) (by decide) (by decide)
      (by decide)).2.1⟩

/-- C8: nearest-neighbour 2× scaling.  For a `W×H` image (`W, H > 0`) blitted with source
rectangle `(0, 0, W, H)` and destination rectangle `(X, Y, 2W, 2H)` lying inside the clip,
the value written at destination pixel `(X + x, Y + y)`, `0 ≤ x < 2W`, `0 ≤ y < 2H`, is the
selected blend function applied to the old destination pixel and the source pixel at
`(x / 2, y / 2)`. -/
theorem blit_scale_2x (e : Engine) (img : Image) (X Y : Int) (mul_color add_color : Color)
    (x y : Int) (hv : e.screen.valid) (hclip : e.clip_established)
    (hW : 0 < img.w) (hH : 0 < img.h)
    (hin : e.clip.x ≤ X ∧ e.clip.y ≤ Y ∧ X + 2 * img.w ≤ e.clip.x + e.clip.w ∧
      Y + 2 * img.h ≤ e.clip.y + e.clip.h)
    (hx0 : 0 ≤ x) (hx1 : x < 2 * img.w) (hy0 : 0 ≤ y) (hy1 : y < 2 * img.h) :
    (engine_draw_image3 e img (engine_rect X Y (2 * img.w) (2 * img.h))
        (engine_rect 0 0 img.w img.h) mul_color add_color).screen.pixel (X + x) (Y + y) =
      image3_blend (image3_blend_fn mul_color add_color) (e.screen.pixel (X + x) (Y + y))
        (img.pixel (x / 2) (y / 2)) mul_color add_color := by
  have hok := established_clip_ok e hclip
  have hc : e.clip.contains (X + x) (Y + y) := by unfold Rect.contains; omega
  obtain ⟨hpx0, hpx1, hpy0, hpy1⟩ := clip_contains_in_surface e hok _ _ hc
  obtain ⟨_, _, _, _, p5⟩ := draw_image3_pixel e img (engine_rect X Y (2 * img.w) (2 * img.h))
    (engine_rect 0 0 img.w img.h) mul_color add_color hok hv.2.2.1
  obtain ⟨hcol, hrow⟩ := src_index_double X Y img.w img.h x y hW hH
  have hguard : ((engine_rect 0 0 img.w img.h).w ≠ 0 ∧
      (engine_rect X Y (2 * img.w) (2 * img.h)).w ≠ 0 ∧
      (engine_rect X Y (2 * img.w) (2 * img.h)).h ≠ 0) ∧
      (engine_rect X Y (2 * img.w) (2 * img.h)).contains (X + x) (Y + y) ∧
      e.clip.contains (X + x) (Y + y) := by
    refine ⟨⟨?_, ?_, ?_⟩, ?_, hc⟩
    · simp only [engine_rect]; omega
    · simp only [engine_rect]; omega
    · simp only [engine_rect]; omega
    · unfold Rect.contains engine_rect; simp only; omega
  have hidx : y / 2 * img.w + x / 2 = x / 2 + y / 2 * img.w := by ring
  rw [p5 _ _ hpx0 hpx1 hpy0 hpy1, if_pos hguard, hcol, hrow, hidx]
  rfl

/-- Witness of C8: a 1×1 image scaled to 2×2 on a 2×2 surface, read at pixel (1,1). -/
theorem blit_scale_2x_witness :
    (Image.mk (List.replicate 4 ⟨0, 0, 0, 0⟩) 2 2).valid ∧
    (engine_set_clip ⟨⟨0, 0, 0, 0⟩, ⟨List.replicate 4 ⟨0, 0, 0, 0⟩, 2, 2⟩⟩
      ⟨0, 0, 2, 2⟩).clip_established ∧
    (engine_draw_image3
        (engine_set_clip ⟨⟨0, 0, 0, 0⟩, ⟨List.replicate 4 ⟨0, 0, 0, 0⟩, 2, 2⟩⟩ ⟨0, 0, 2, 2⟩)
        ⟨[⟨255, 255, 255, 255⟩], 1, 1⟩ (engine_rect 0 0 (2 * 1) (2 * 1)) (engine_rect 0 0 1 1)
        ENGINE_WHITE ENGINE_BLACK).screen.pixel (0 + 1) (0 + 1) =
      image3_blend (image3_blend_fn ENGINE_WHITE ENGINE_BLACK)
        ((engine_set_clip ⟨⟨0, 0, 0, 0⟩, ⟨List.replicate 4 ⟨0, 0, 0, 0⟩, 2, 2⟩⟩
          ⟨0, 0, 2, 2⟩).screen.pixel (0 + 1) (0 + 1))
        ((Image.mk [⟨255, 255, 255, 255⟩] 1 1).pixel (1 / 2) (1 / 2)) ENGINE_WHITE
        ENGINE_BLACK :=
  ⟨by decide, set_clip_established _ _,
    blit_scale_2x
      (engine_set_clip ⟨⟨0, 0, 0, 0⟩, ⟨List.replicate 4 ⟨0, 0, 0, 0⟩, 2, 2⟩⟩ ⟨0, 0, 2, 2⟩)
      ⟨[⟨255, 255, 255, 255⟩], 1, 1⟩ 0 0 ENGINE_WHITE ENGINE_BLACK 1 1 (by decide)
      (set_clip_established _ _) (by decide) (by decide) (by decide) (by decide) (by decide)
      (by decide) (by decide)⟩

/-- C9: clipping never shifts the sampled source position.  For every blit and every clip
request `C`, a pixel inside the clip that `engine_set_clip(C)` establishes receives from
`engine_draw_image3` the value it receives with the clip set to the whole surface: if the
blit is not skipped and the pixel is in the destination rectangle, the selected blend
function applied to the old pixel and the source pixel at row `image3_src_row` and column
`image3_src_col` (which do not mention the clip), otherwise the old pixel. -/
theorem blit_clip_independent (e : Engine) (img : Image) (dst src : Rect)
    (mul_color add_color : Color) (C : Rect) (px py : Int) (hv : e.screen.valid)
    (hin : (engine_set_clip e C).clip.contains px py) :
    (engine_draw_image3 (engine_set_clip e C) img dst src mul_color
        add_color).screen.pixel px py =
      (engine_draw_image3 (engine_set_clip e (engine_rect 0 0 e.screen.w e.screen.h)) img dst
        src mul_color add_color).screen.pixel px py ∧
    (engine_draw_image3 (engine_set_clip e C) img dst src mul_color
        add_color).screen.pixel px py =
      if (src.w ≠ 0 ∧ dst.w ≠ 0 ∧ dst.h ≠ 0) ∧ dst.contains px py then
        image3_blend (image3_blend_fn mul_color add_color) (e.screen.pixel px py)
          (img.load (image3_src_row dst src py * img.w + image3_src_col dst src px))
          mul_color add_color
      else e.screen.pixel px py := by
  obtain ⟨hR, hx0, hx1, hy0, hy1⟩ := (set_clip_contains e C px py).1 hin
  have hfull : (engine_set_clip e (engine_rect 0 0 e.screen.w e.screen.h)).clip.contains
      px py := by
    rw [set_clip_contains]
    refine ⟨?_, hx0, hx1, hy0, hy1⟩
    unfold Rect.contains engine_rect
    simp only
    omega
  obtain ⟨_, _, _, _, p5⟩ := draw_image3_pixel (engine_set_clip e C) img dst src mul_color
    add_color (set_clip_clip_ok e C) hv.2.2.1
  obtain ⟨_, _, _, _, q5⟩ := draw_image3_pixel
    (engine_set_clip e (engine_rect 0 0 e.screen.w e.screen.h)) img dst src mul_color
    add_color (set_clip_clip_ok e _) hv.2.2.1
  have hp := p5 px py hx0 hx1 hy0 hy1
  have hq := q5 px py hx0 hx1 hy0 hy1
  have hs1 : (engine_set_clip e C).screen = e.screen := rfl
  have hs2 : (engine_set_clip e (engine_rect 0 0 e.screen.w e.screen.h)).screen = e.screen :=
    rfl
  rw [hs1] at hp
  rw [hs2] at hq
  by_cases hcov : (src.w ≠ 0 ∧ dst.w ≠ 0 ∧ dst.h ≠ 0) ∧ dst.contains px py
  · rw [if_pos ⟨hcov.1, hcov.2, hin⟩] at hp
    rw [if_pos ⟨hcov.1, hcov.2, hfull⟩] at hq
    rw [hp, hq, if_pos hcov]
    exact ⟨rfl, rfl⟩
  · rw [if_neg (fun h => hcov ⟨h.1, h.2.1⟩)] at hp
    rw [if_neg (fun h => hcov ⟨h.1, h.2.1⟩)] at hq
    rw [hp, hq, if_neg hcov]
    exact ⟨rfl, rfl⟩

/-- Witness of C9: a 2×2 image blitted at (0,0) onto a 2×2 surface with clip request
`(1,1,1,1)`, read at pixel (1,1). -/
theorem blit_clip_independent_witness :
    (Image.mk (List.replicate 4 ⟨0, 0, 0, 0⟩) 2 2).valid ∧
    (engine_set_clip ⟨⟨0, 0, 0, 0⟩, ⟨List.replicate 4 ⟨0, 0, 0, 0⟩, 2, 2⟩⟩
      ⟨1, 1, 1, 1⟩).clip.contains 1 1 ∧
    (engine_draw_image3
        (engine_set_clip ⟨⟨0, 0, 0, 0⟩, ⟨List.replicate 4 ⟨0, 0, 0, 0⟩, 2, 2⟩⟩ ⟨1, 1, 1, 1⟩)
        ⟨[⟨1, 1, 1, 255⟩, ⟨2, 2, 2, 255⟩, ⟨3, 3, 3, 255⟩, ⟨4, 4, 4, 255⟩], 2, 2⟩ ⟨0, 0, 2, 2⟩
        ⟨0, 0, 2, 2⟩ ENGINE_WHITE ENGINE_BLACK).screen.pixel 1 1 =
      (engine_draw_image3
        (engine_set_clip ⟨⟨0, 0, 0, 0⟩, ⟨List.replicate 4 ⟨0, 0, 0, 0⟩, 2, 2⟩⟩
          (engine_rect 0 0 2 2))
        ⟨[⟨1, 1, 1, 255⟩, ⟨2, 2, 2, 255⟩, ⟨3, 3, 3, 255⟩, ⟨4, 4, 4, 255⟩], 2, 2⟩ ⟨0, 0, 2, 2⟩
        ⟨0, 0, 2, 2⟩ ENGINE_WHITE ENGINE_BLACK).screen.pixel 1 1 :=
  ⟨by decide, by decide,
    (blit_clip_independent ⟨⟨0, 0, 0, 0⟩, ⟨List.replicate 4 ⟨0, 0, 0, 0⟩, 2, 2⟩⟩
      ⟨[⟨1, 1, 1, 255⟩, ⟨2, 2, 2, 255⟩, ⟨3, 3, 3, 255⟩, ⟨4, 4, 4, 255⟩], 2, 2⟩ ⟨0, 0, 2, 2⟩
      ⟨0, 0, 2, 2⟩ ENGINE_WHITE ENGINE_BLACK ⟨1, 1, 1, 1⟩ 1 1 (by decide) (by decide)).1⟩

/-- C10, the code at the failing input: with `src.h == 0` (and `src.w`, `dst.w`, `dst.h`
non-zero) `engine_draw_image3` does not return early; the 1×1 transparent surface is
changed to `(r=252, g=252, b=252, a=0)` by the opaque white source pixel. -/
theorem blit_zero_src_height_draws :
    (engine_rect 0 0 1 0).h = 0 ∧
    (engine_draw_image3 ⟨⟨0, 0, 1, 1⟩, ⟨[⟨0, 0, 0, 0⟩], 1, 1⟩⟩ ⟨[⟨255, 255, 255, 255⟩], 1, 1⟩
      (engine_rect 0 0 1 1) (engine_rect 0 0 1 0) ENGINE_WHITE ENGINE_BLACK).screen.pixels =
      [⟨252, 252, 252, 0⟩] ∧
    (engine_draw_image3 ⟨⟨0, 0, 1, 1⟩, ⟨[⟨0, 0, 0, 0⟩], 1, 1⟩⟩ ⟨[⟨255, 255, 255, 255⟩], 1, 1⟩
      (engine_rect 0 0 1 1) (engine_rect 0 0 1 0) ENGINE_WHITE ENGINE_BLACK).screen ≠
      ⟨[⟨0, 0, 0, 0⟩], 1, 1⟩ := by
  decide


/-- Counterexample to C11: the line from (0,0) to (2,1) passes through (1,1), the line
from (2,1) to (0,0) does not (it passes through (1,0)); drawn in opaque white on a
transparent 3×2 surface the two leave different surfaces. -/
theorem draw_line_not_symmetric :
    (1, 1) ∈ engine_draw_line_points 0 0 2 1 ∧ (1, 1) ∉ engine_draw_line_points 2 1 0 0 ∧
    engine_draw_line ⟨⟨0, 0, 3, 2⟩, ⟨List.replicate 6 ⟨0, 0, 0, 0⟩, 3, 2⟩⟩ 0 0 2 1 ENGINE_WHITE ≠
      engine_draw_line ⟨⟨0, 0, 3, 2⟩, ⟨List.replicate 6 ⟨0, 0, 0, 0⟩, 3, 2⟩⟩ 2 1 0 0
        ENGINE_WHITE := by
  decide

/-- C11 (amended): for all endpoints `a = (x1, y1)` and `b = (x2, y2)`, the points that
`engine_draw_line` emits from `b` to `a` are the points it emits from `a` to `b` mirrored
through the midpoint, `p ↦ a + b - p`, in the same order (so both lines have the same
number of points); `engine_draw_line` from `b` to `a` draws exactly these points. -/
theorem draw_line_reversed_is_mirror (x1 y1 x2 y2 : Int) :
    engine_draw_line_points x2 y2 x1 y1 =
      (engine_draw_line_points x1 y1 x2 y2).map (fun p => (x1 + x2 - p.1, y1 + y2 - p.2)) ∧
    (engine_draw_line_points x2 y2 x1 y1).length =
      (engine_draw_line_points x1 y1 x2 y2).length ∧
    ∀ (e : Engine) (c : Color),
      engine_draw_line e x2 y2 x1 y1 c =
        draw_points c e ((engine_draw_line_points x1 y1 x2 y2).map
          (fun p => (x1 + x2 - p.1, y1 + y2 - p.2))) := by
  have hmain : engine_draw_line_points x2 y2 x1 y1 =
      (engine_draw_line_points x1 y1 x2 y2).map
        (fun p => (x1 + x2 - p.1, y1 + y2 - p.2)) := by
    have key := draw_line_points_loop_mirror x2 y2 (x2 - x1).natAbs (y2 - y1).natAbs
      (if x1 < x2 then 1 else -1) (if y1 < y2 then 1 else -1)
      (if x2 < x1 then 1 else -1) (if y2 < y1 then 1 else -1) (x1 + x2) (y1 + y2)
      (by split <;> split <;> omega) (by split <;> split <;> omega)
      ((x2 - x1).natAbs + (y2 - y1).natAbs + 1) x1 y1 _ _ _ (line_inv_init x1 y1 x2 y2)
    simp only [add_sub_cancel_right, add_sub_cancel_left] at key
    have hx : (x1 - x2).natAbs = (x2 - x1).natAbs := by omega
    have hy : (y1 - y2).natAbs = (y2 - y1).natAbs := by omega
    unfold engine_draw_line_points
    simp only [hx, hy]
    exact key
  refine ⟨hmain, by rw [hmain, List.length_map], ?_⟩
  intro e c
  rw [draw_line_eq_points, hmain]

/-- C12: the loop of `engine_draw_line` terminates: it leaves through its `break` within
`|x2 - x1| + |y2 - y1| + 1` iterations, so that with any amount `k` of extra fuel it emits
the same points and returns the same engine.  The first point it emits is `(x1, y1)` and
the last is `(x2, y2)`; `engine_draw_line` draws exactly the emitted points. -/
theorem draw_line_visits_endpoints (x1 y1 x2 y2 : Int) :
    (∀ k : Nat,
      draw_line_points_loop x2 y2 (x2 - x1).natAbs (if x1 < x2 then 1 else -1)
        (-((y2 - y1).natAbs : Int)) (if y1 < y2 then 1 else -1)
        ((x2 - x1).natAbs + (y2 - y1).natAbs + 1 + k) x1 y1
        (((x2 - x1).natAbs : Int) + -((y2 - y1).natAbs : Int)) =
        engine_draw_line_points x1 y1 x2 y2) ∧
    (∀ (k : Nat) (e : Engine) (c : Color),
      draw_line_loop x2 y2 (x2 - x1).natAbs (if x1 < x2 then 1 else -1)
        (-((y2 - y1).natAbs : Int)) (if y1 < y2 then 1 else -1) c
        ((x2 - x1).natAbs + (y2 - y1).natAbs + 1 + k) e x1 y1
        (((x2 - x1).natAbs : Int) + -((y2 - y1).natAbs : Int)) =
        engine_draw_line e x1 y1 x2 y2 c) ∧
    (engine_draw_line_points x1 y1 x2 y2).head? = some (x1, y1) ∧
    (engine_draw_line_points x1 y1 x2 y2).getLast? = some (x2, y2) ∧
    (∀ (e : Engine) (c : Color),
      engine_draw_line e x1 y1 x2 y2 c =
        draw_points c e (engine_draw_line_points x1 y1 x2 y2)) := by
  refine ⟨?_, fun k e c => draw_line_fuel_enough e x1 y1 x2 y2 c k, ?_, ?_,
    fun e c => draw_line_eq_points e x1 y1 x2 y2 c⟩
  · intro k
    unfold engine_draw_line_points
    exact draw_line_points_loop_fuel _ _ _ _ _ _ _ k _ _ _ _ _ (line_inv_init x1 y1 x2 y2)
      (by push_cast; omega)
  · unfold engine_draw_line_points
    simp only [draw_line_points_loop, List.head?_cons]
  · unfold engine_draw_line_points
    exact draw_line_points_loop_last _ _ _ _ _ _ _ _ _ _ _ _ (line_inv_init x1 y1 x2 y2)
      (by push_cast; omega)

theorem draw_line_same_point (e : Engine) (x y : Int) (c : Color) :
    engine_draw_line e x y x y c = engine_draw_point e x y c := by
  unfold engine_draw_line
  simp [draw_line_loop]

/-- C13: for `(x, y)` inside the clip and a colour with `c.a > 0`,
`engine_draw_line(x, y, x, y, c)` emits the single point `(x, y)` and changes exactly one
pixel: pixel `(x, y)` becomes `engine_blend_pixel(old, c)`, every other surface pixel, the
clip and the surface shape are unchanged. -/
theorem draw_line_single_point (e : Engine) (x y : Int) (c : Color) (hv : e.screen.valid)
    (hclip : e.clip_established) (hin : e.clip.contains x y) (ha : 0 < c.a) :
    engine_draw_line_points x y x y = [(x, y)] ∧
    (engine_draw_line e x y x y c).clip = e.clip ∧
    (engine_draw_line e x y x y c).screen.w = e.screen.w ∧
    (engine_draw_line e x y x y c).screen.h = e.screen.h ∧
    (engine_draw_line e x y x y c).screen.pixel x y =
      engine_blend_pixel (e.screen.pixel x y) c ∧
    ∀ px py : Int, 0 ≤ px → px < e.screen.w → 0 ≤ py → py < e.screen.h →
      ¬ (px = x ∧ py = y) →
      (engine_draw_line e x y x y c).screen.pixel px py = e.screen.pixel px py := by
  have hok : e.ok := ⟨established_clip_ok e hclip, hv.2.2.1⟩
  obtain ⟨hx0, hx1, hy0, hy1⟩ := clip_contains_in_surface e hok.1 x y hin
  obtain ⟨p1, p2, p3, _, p5⟩ := draw_point_pixel e x y c hok
  rw [draw_line_same_point]
  refine ⟨?_, p1, p2, p3, ?_, ?_⟩
  · unfold engine_draw_line_points
    simp [draw_line_points_loop]
  · rw [p5 x y hx0 hx1 hy0 hy1, if_pos ⟨by omega, hin, rfl, rfl⟩]
  · intro px py h0 h1 h2 h3 hne
    rw [p5 px py h0 h1 h2 h3, if_neg (fun h => hne h.2.2)]

/-- Witness of C13: the point (1,1) on a transparent 2×2 surface, opaque white. -/
theorem draw_line_single_point_witness :
    (Image.mk (List.replicate 4 ⟨0, 0, 0, 0⟩) 2 2).valid ∧
    (engine_set_clip ⟨⟨0, 0, 0, 0⟩, ⟨List.replicate 4 ⟨0, 0, 0, 0⟩, 2, 2⟩⟩
      ⟨0, 0, 2, 2⟩).clip.contains 1 1 ∧
    0 < ENGINE_WHITE.a ∧
    (engine_draw_line
      (engine_set_clip ⟨⟨0, 0, 0, 0⟩, ⟨List.replicate 4 ⟨0, 0, 0, 0⟩, 2, 2⟩⟩ ⟨0, 0, 2, 2⟩)
      1 1 1 1 ENGINE_WHITE).screen.pixel 1 1 =
      engine_blend_pixel
        ((engine_set_clip ⟨⟨0, 0, 0, 0⟩, ⟨List.replicate 4 ⟨0, 0, 0, 0⟩, 2, 2⟩⟩
          ⟨0, 0, 2, 2⟩).screen.pixel 1 1) ENGINE_WHITE :=
  ⟨by decide, by decide, by decide,
    (draw_line_single_point
      (engine_set_clip ⟨⟨0, 0, 0, 0⟩, ⟨List.replicate 4 ⟨0, 0, 0, 0⟩, 2, 2⟩⟩ ⟨0, 0, 2, 2⟩)
      1 1 ENGINE_WHITE (by decide) (set_clip_established _ _) (by decide)
      (by decide)).2.2.2.2.1⟩

/-- C14, the code at failing inputs: for the rectangle `{0,0,1,2}` (w == 1)
`engine_draw_rect` draws the line from (0,0) to (0,2) and blends pixel (0,2), which is
below the rectangle; for `{0,0,2,1}` (h == 1) it draws the line from (0,0) to (2,0) and
blends pixel (2,0), which is right of the rectangle.  For `{0,0,3,3}` it blends the eight
border pixels only. -/
theorem draw_rect_degenerate_overshoots :
    ¬ Rect.contains ⟨0, 0, 1, 2⟩ 0 2 ∧
    (engine_draw_rect ⟨⟨0, 0, 4, 4⟩, ⟨List.replicate 16 ⟨0, 0, 0, 0⟩, 4, 4⟩⟩ ⟨0, 0, 1, 2⟩
      ENGINE_WHITE).screen.pixels.map (fun p => p.r) =
      [254, 0, 0, 0,
       254, 0, 0, 0,
       254, 0, 0, 0,
       0, 0, 0, 0] ∧
    ¬ Rect.contains ⟨0, 0, 2, 1⟩ 2 0 ∧
    (engine_draw_rect ⟨⟨0, 0, 4, 4⟩, ⟨List.replicate 16 ⟨0, 0, 0, 0⟩, 4, 4⟩⟩ ⟨0, 0, 2, 1⟩
      ENGINE_WHITE).screen.pixels.map (fun p => p.r) =
      [254, 254, 254, 0,
       0, 0, 0, 0,
       0, 0, 0, 0,
       0, 0, 0, 0] ∧
    (engine_draw_rect ⟨⟨0, 0, 4, 4⟩, ⟨List.replicate 16 ⟨0, 0, 0, 0⟩, 4, 4⟩⟩ ⟨0, 0, 3, 3⟩
      ENGINE_WHITE).screen.pixels.map (fun p => p.r) =
      [254, 254, 254, 0,
       254, 0, 254, 0,
       254, 254, 254, 0,
       0, 0, 0, 0] := by
  decide

/-- Drawing a point inside the clip blends that pixel and no other. -/
theorem draw_point_in_clip (e : Engine) (x y : Int) (c : Color) (hok : e.ok)
    (ha : c.a ≠ 0) (hin : e.clip.contains x y) :
    (engine_draw_point e x y c).ok ∧ (engine_draw_point e x y c).clip = e.clip ∧
    (engine_draw_point e x y c).screen.w = e.screen.w ∧
    (engine_draw_point e x y c).screen.h = e.screen.h ∧
    (engine_draw_point e x y c).screen.pixel x y = engine_blend_pixel (e.screen.pixel x y) c ∧
    ∀ px py : Int, 0 ≤ px → px < e.screen.w → 0 ≤ py → py < e.screen.h →
      ¬ (px = x ∧ py = y) →
      (engine_draw_point e x y c).screen.pixel px py = e.screen.pixel px py := by
  obtain ⟨hx0, hx1, hy0, hy1⟩ := clip_contains_in_surface e hok.1 x y hin
  obtain ⟨p1, p2, p3, p4, p5⟩ := draw_point_pixel e x y c hok
  refine ⟨ok_of_same_outside_clip _ _ (draw_point_frame e x y c hok) hok, p1, p2, p3, ?_, ?_⟩
  · rw [p5 x y hx0 hx1 hy0 hy1, if_pos ⟨ha, hin, rfl, rfl⟩]
  · intro px py h0 h1 h2 h3 hne
    rw [p5 px py h0 h1 h2 h3, if_neg (fun h => hne h.2.2)]

/-- Drawing a point outside the clip changes nothing. -/
theorem draw_point_out_of_clip (e : Engine) (x y : Int) (c : Color)
    (hout : ¬ e.clip.contains x y) : engine_draw_point e x y c = e := by
  unfold engine_draw_point
  split
  · rfl
  · simp only
    rw [if_pos (by unfold Rect.contains at hout; omega)]

/-- The loop of `engine_draw_circle` does nothing when entered with `x = 0`, `y = 0`. -/
theorem draw_circle_loop_radius0 (x0 y0 : Int) (c : Color) (fuel : Nat) (e : Engine)
    (E dx dy : Int) : draw_circle_loop x0 y0 c fuel e E dx dy 0 0 = e := by
  cases fuel with
  | zero => rfl
  | succ n => simp [draw_circle_loop]

/-- C15: for every radius ≤ 0 `engine_draw_circle_fill` returns the engine it was given;
`engine_draw_circle` with radius 0 and a colour with `a > 0` draws exactly the four points
`(x0, y0)`, `(x0, y0)`, `(x0, y0)`, `(x0, y0)` (its loop body never runs, whatever the
fuel), so the centre pixel, if in the clip, is blended four times in succession and no
other surface pixel changes; if the centre is outside the clip nothing changes. -/
theorem circle_radius_edge_cases (e : Engine) (x0 y0 : Int) (c : Color)
    (hv : e.screen.valid) (hclip : e.clip_established) (ha : 0 < c.a) :
    (∀ (radius : Int) (c1 : Color), radius ≤ 0 →
      engine_draw_circle_fill e x0 y0 radius c1 = e) ∧
    engine_draw_circle e x0 y0 0 c =
      draw_points c e [(x0, y0), (x0, y0), (x0, y0), (x0, y0)] ∧
    (∀ (fuel : Nat) (e1 : Engine) (E dx dy : Int),
      draw_circle_loop x0 y0 c fuel e1 E dx dy 0 0 = e1) ∧
    (e.clip.contains x0 y0 →
      (engine_draw_circle e x0 y0 0 c).screen.pixel x0 y0 =
        engine_blend_pixel (engine_blend_pixel (engine_blend_pixel
          (engine_blend_pixel (e.screen.pixel x0 y0) c) c) c) c ∧
      ∀ px py : Int, 0 ≤ px → px < e.screen.w → 0 ≤ py → py < e.screen.h →
        ¬ (px = x0 ∧ py = y0) →
        (engine_draw_circle e x0 y0 0 c).screen.pixel px py = e.screen.pixel px py) ∧
    (¬ e.clip.contains x0 y0 → engine_draw_circle e x0 y0 0 c = e) := by
  have hok : e.ok := ⟨established_clip_ok e hclip, hv.2.2.1⟩
  have hane : c.a ≠ 0 := by omega
  have hcirc : engine_draw_circle e x0 y0 0 c =
      draw_points c e [(x0, y0), (x0, y0), (x0, y0), (x0, y0)] := by
    unfold engine_draw_circle
    rw [if_neg hane]
    simp only [add_zero, sub_zero, Int.toNat_zero, draw_circle_loop, draw_points,
      List.foldl_cons, List.foldl_nil]
  refine ⟨?_, hcirc, fun fuel e1 E dx dy => draw_circle_loop_radius0 x0 y0 c fuel e1 E dx dy,
    ?_, ?_⟩
  · intro radius c1 hr
    unfold engine_draw_circle_fill
    by_cases h : c1.a = 0
    · rw [if_pos h]
    · rw [if_neg h, if_pos hr]
  · intro hin
    rw [hcirc]
    simp only [draw_points, List.foldl_cons, List.foldl_nil]
    obtain ⟨o1, c1, w1, h1, q1, r1⟩ := draw_point_in_clip e x0 y0 c hok hane hin
    obtain ⟨o2, c2, w2, h2, q2, r2⟩ := draw_point_in_clip _ x0 y0 c o1 hane (by rw [c1]; exact hin)
    obtain ⟨o3, c3, w3, h3, q3, r3⟩ := draw_point_in_clip _ x0 y0 c o2 hane
      (by rw [c2, c1]; exact hin)
    obtain ⟨_, _, _, _, q4, r4⟩ := draw_point_in_clip _ x0 y0 c o3 hane
      (by rw [c3, c2, c1]; exact hin)
    refine ⟨by rw [q4, q3, q2, q1], ?_⟩
    intro px py hx0 hx1 hy0 hy1 hne
    rw [r4 px py hx0 (by rw [w3, w2, w1]; exact hx1) hy0 (by rw [h3, h2, h1]; exact hy1) hne,
      r3 px py hx0 (by rw [w2, w1]; exact hx1) hy0 (by rw [h2, h1]; exact hy1) hne,
      r2 px py hx0 (by rw [w1]; exact hx1) hy0 (by rw [h1]; exact hy1) hne,
      r1 px py hx0 hx1 hy0 hy1 hne]
  · intro hout
    rw [hcirc]
    simp only [draw_points, List.foldl_cons, List.foldl_nil, draw_point_out_of_clip e x0 y0 c hout]

/-- Witness of C15: centre (1,1) on a transparent 2×2 surface, opaque white. -/
theorem circle_radius_edge_cases_witness :
    (Image.mk (List.replicate 4 ⟨0, 0, 0, 0⟩) 2 2).valid ∧
    (engine_set_clip ⟨⟨0, 0, 0, 0⟩, ⟨List.replicate 4 ⟨0, 0, 0, 0⟩, 2, 2⟩⟩
      ⟨0, 0, 2, 2⟩).clip_established ∧
    0 < ENGINE_WHITE.a ∧
    engine_draw_circle
      (engine_set_clip ⟨⟨0, 0, 0, 0⟩, ⟨List.replicate 4 ⟨0, 0, 0, 0⟩, 2, 2⟩⟩ ⟨0, 0, 2, 2⟩)
      1 1 0 ENGINE_WHITE =
      draw_points ENGINE_WHITE
        (engine_set_clip ⟨⟨0, 0, 0, 0⟩, ⟨List.replicate 4 ⟨0, 0, 0, 0⟩, 2, 2⟩⟩ ⟨0, 0, 2, 2⟩)
        [(1, 1), (1, 1), (1, 1), (1, 1)] :=
  ⟨by decide, set_clip_established _ _, by decide,
    (circle_radius_edge_cases
      (engine_set_clip ⟨⟨0, 0, 0, 0⟩, ⟨List.replicate 4 ⟨0, 0, 0, 0⟩, 2, 2⟩⟩ ⟨0, 0, 2, 2⟩)
      1 1 ENGINE_WHITE (by decide) (set_clip_established _ _) (by decide)).2.1⟩

theorem Call.run_same_alpha (c : Call) (e : Engine) : e.screen.same_alpha (c.run e).screen := by
  cases c with
  | set_clip rect => exact Image.same_alpha_refl _
  | clear color => exact (clear_same_alpha e color).2
  | draw_point x y color => exact (draw_point_same_alpha e x y color).2
  | draw_rect rect color => exact (draw_rect_same_alpha e rect color).2
  | draw_rect_fill rect color => exact (draw_rect_fill_same_alpha e rect color).2
  | draw_circle x0 y0 radius color => exact (draw_circle_same_alpha e x0 y0 radius color).2
  | draw_circle_fill x0 y0 radius color =>
    exact (draw_circle_fill_same_alpha e x0 y0 radius color).2
  | draw_line x1 y1 x2 y2 color => exact (draw_line_same_alpha e x1 y1 x2 y2 color).2
  | draw_image img x y => exact (draw_image_same_alpha e img x y).2
  | draw_image2 img x y src color => exact (draw_image2_same_alpha e img x y src color).2
  | draw_image3 img dst src mul add => exact (draw_image3_same_alpha e img dst src mul add).2
  | draw_text2 font text x y color => exact (draw_text2_same_alpha font y color text e x).2

theorem Call.run_list_same_alpha (cs : List Call) :
    ∀ e : Engine, e.screen.same_alpha (cs.foldl (fun e1 c => c.run e1) e).screen := by
  induction cs with
  | nil => intro e; exact Image.same_alpha_refl _
  | cons c cs ih =>
    intro e
    simp only [List.foldl_cons]
    exact Image.same_alpha_trans _ _ _ (Call.run_same_alpha c e) (ih _)

/-- C16: `engine_blend_pixel`, `engine_blend_pixel2` and `engine_blend_pixel3` return a
colour whose alpha is `dst.a`; hence after any sequence of calls of the drawing interface
(clip changes, clear, primitives, blits, text) the surface has the shape it had and every
pixel has the alpha it had. -/
theorem destination_alpha_preserved :
    (∀ dst src : Color, (engine_blend_pixel dst src).a = dst.a) ∧
    (∀ dst src clr : Color, (engine_blend_pixel2 dst src clr).a = dst.a) ∧
    (∀ dst src clr add : Color, (engine_blend_pixel3 dst src clr add).a = dst.a) ∧
    ∀ (cs : List Call) (e : Engine),
      (cs.foldl (fun e1 c => c.run e1) e).screen.w = e.screen.w ∧
      (cs.foldl (fun e1 c => c.run e1) e).screen.h = e.screen.h ∧
      (cs.foldl (fun e1 c => c.run e1) e).screen.pixels.length = e.screen.pixels.length ∧
      ∀ px py : Int,
        ((cs.foldl (fun e1 c => c.run e1) e).screen.pixel px py).a =
          (e.screen.pixel px py).a := by
  refine ⟨fun _ _ => rfl, fun _ _ _ => rfl, fun _ _ _ _ => rfl, ?_⟩
  intro cs e
  obtain ⟨h1, h2, h3, h4⟩ := Call.run_list_same_alpha cs e
  refine ⟨h1, h2, h3, ?_⟩
  intro px py
  unfold Image.pixel
  rw [h1, h4]

/-- What holds in every reachable drawing state. -/
theorem reachable_ok (e : Engine) (hr : e.Reachable) : e.ok ∧ e.clip_established := by
  induction hr with
  | create w h e hfit he =>
    obtain ⟨hv, hc⟩ := engine_create_established w h e hfit he
    exact ⟨⟨established_clip_ok e (Or.inl hc), hv.2.2.1⟩, Or.inl hc⟩
  | call c e _ ih =>
    obtain ⟨⟨hc, hl⟩, hest⟩ := ih
    have hsa := Call.run_same_alpha c e
    obtain ⟨a1, a2, a3, _⟩ := hsa
    by_cases hset : ∃ rect, c = Call.set_clip rect
    · obtain ⟨rect, rfl⟩ := hset
      exact ⟨⟨set_clip_clip_ok e rect, hl⟩, set_clip_established e rect⟩
    · have hclip : (c.run e).clip = e.clip := by
        cases c with
        | set_clip rect => exact absurd ⟨rect, rfl⟩ hset
        | clear color => exact (clear_same_alpha e color).1
        | draw_point x y color => exact (draw_point_same_alpha e x y color).1
        | draw_rect rect color => exact (draw_rect_same_alpha e rect color).1
        | draw_rect_fill rect color => exact (draw_rect_fill_same_alpha e rect color).1
        | draw_circle x0 y0 radius color =>
          exact (draw_circle_same_alpha e x0 y0 radius color).1
        | draw_circle_fill x0 y0 radius color =>
          exact (draw_circle_fill_same_alpha e x0 y0 radius color).1
        | draw_line x1 y1 x2 y2 color => exact (draw_line_same_alpha e x1 y1 x2 y2 color).1
        | draw_image img x y => exact (draw_image_same_alpha e img x y).1
        | draw_image2 img x y src color =>
          exact (draw_image2_same_alpha e img x y src color).1
        | draw_image3 img dst src mul add =>
          exact (draw_image3_same_alpha e img dst src mul add).1
        | draw_text2 font text x y color =>
          exact (draw_text2_same_alpha font y color text e x).1
      refine ⟨⟨?_, ?_⟩, ?_⟩
      · unfold Engine.clip_ok at hc ⊢
        rw [hclip, a1, a2]
        exact hc
      · rw [a3, a1, a2]
        exact hl
      · unfold Engine.clip_established engine_set_clip at hest ⊢
        simp only at hest ⊢
        rw [hclip, a1, a2]
        exact hest

/-- Counterexample to C17: `engine_create(65536, 16384)` computes the byte count
`16 + 2^32` of its surface, which becomes 16 as the `int` argument of `engine_alloc`: the
surface has no pixel, the clip is the full rectangle, and the point (0, 0) inside the
clip does not index a pixel. -/
theorem clip_point_without_pixel :
    engine_create 65536 16384 =
      some ⟨⟨0, 0, 65536, 16384⟩, ⟨[], 65536, 16384⟩⟩ ∧
    (Engine.mk ⟨0, 0, 65536, 16384⟩ ⟨[], 65536, 16384⟩).clip.contains 0 0 ∧
    ¬ ((0 : Int) + 0 * (Engine.mk ⟨0, 0, 65536, 16384⟩ ⟨[], 65536, 16384⟩).screen.w <
      (Engine.mk ⟨0, 0, 65536, 16384⟩ ⟨[], 65536, 16384⟩).screen.pixels.length) := by
  decide

/-- C17 (amended): `engine_create` sets the clip to `(0, 0, width, height)`, the shape of
the surface; `engine_set_clip(R)` sets it to the intersection of `R` with the surface
rectangle, so that a point is inside the new clip iff it is inside `R` and inside the
surface; and in every state reachable from an `engine_create` whose byte count
`sizeof(Image) + width * height * sizeof(Color)` fits an `int`, the clip is one of these
two, with `clip.x ≥ 0`, `clip.y ≥ 0`, `clip.x + clip.w ≤ screen.w` and
`clip.y + clip.h ≤ screen.h`, so that every point inside the clip indexes a pixel
`x + y * w` of the pixel array. -/
theorem clip_invariant (e : Engine) (hr : e.Reachable) (R : Rect) (px py : Int) :
    (∀ (width height : Int) (e1 : Engine), engine_create width height = some e1 →
      e1.clip = engine_rect 0 0 width height ∧ e1.screen.w = width ∧
        e1.screen.h = height) ∧
    (engine_set_clip e R).clip =
      engine_intersect_rects R (engine_rect 0 0 e.screen.w e.screen.h) ∧
    ((engine_set_clip e R).clip.contains px py ↔
      R.contains px py ∧ (0 ≤ px ∧ px < e.screen.w ∧ 0 ≤ py ∧ py < e.screen.h)) ∧
    (e.clip = engine_rect 0 0 e.screen.w e.screen.h ∨
      ∃ R1, e.clip = engine_intersect_rects R1 (engine_rect 0 0 e.screen.w e.screen.h)) ∧
    (0 ≤ e.clip.x ∧ 0 ≤ e.clip.y ∧ e.clip.x + e.clip.w ≤ e.screen.w ∧
      e.clip.y + e.clip.h ≤ e.screen.h) ∧
    (e.clip.contains px py →
      0 ≤ px + py * e.screen.w ∧ px + py * e.screen.w < e.screen.pixels.length) := by
  obtain ⟨⟨hc, hl⟩, hest⟩ := reachable_ok e hr
  refine ⟨?_, rfl, set_clip_contains e R px py, hest, hc, ?_⟩
  · intro width height e1 he
    unfold engine_create engine_create_image at he
    cases hi : engine_create_image_alloc true width height with
    | none => rw [hi] at he; simp at he
    | some img =>
      rw [hi] at he
      simp only [Option.some.injEq] at he
      subst he
      obtain ⟨_, _, h1, h2, _, _⟩ := create_image_some true width height img hi
      exact ⟨rfl, h1, h2⟩
  · intro hin
    obtain ⟨hx0, hx1, hy0, hy1⟩ := clip_contains_in_surface e hc px py hin
    have hb := index_in_bounds e.screen.w e.screen.h px py hx0 hx1 hy0 hy1
    exact ⟨hb.1, by rw [hl]; exact hb.2⟩

/-- Witness of C17: the state after `engine_create(4, 4)` and `engine_set_clip((1,1,5,5))`,
with the point (3,3). -/
theorem clip_invariant_witness :
    (Call.run (Call.set_clip ⟨1, 1, 5, 5⟩)
      ⟨⟨0, 0, 4, 4⟩, ⟨List.replicate 16 ⟨0, 0, 0, 0⟩, 4, 4⟩⟩).Reachable ∧
    (Call.run (Call.set_clip ⟨1, 1, 5, 5⟩)
      ⟨⟨0, 0, 4, 4⟩, ⟨List.replicate 16 ⟨0, 0, 0, 0⟩, 4, 4⟩⟩).clip = ⟨1, 1, 3, 3⟩ ∧
    ((Call.run (Call.set_clip ⟨1, 1, 5, 5⟩)
        ⟨⟨0, 0, 4, 4⟩, ⟨List.replicate 16 ⟨0, 0, 0, 0⟩, 4, 4⟩⟩).clip.contains 3 3 →
      0 ≤ (3 : Int) + 3 * (Call.run (Call.set_clip ⟨1, 1, 5, 5⟩)
        ⟨⟨0, 0, 4, 4⟩, ⟨List.replicate 16 ⟨0, 0, 0, 0⟩, 4, 4⟩⟩).screen.w ∧
      (3 : Int) + 3 * (Call.run (Call.set_clip ⟨1, 1, 5, 5⟩)
        ⟨⟨0, 0, 4, 4⟩, ⟨List.replicate 16 ⟨0, 0, 0, 0⟩, 4, 4⟩⟩).screen.w <
        (Call.run (Call.set_clip ⟨1, 1, 5, 5⟩)
          ⟨⟨0, 0, 4, 4⟩, ⟨List.replicate 16 ⟨0, 0, 0, 0⟩, 4, 4⟩⟩).screen.pixels.length) :=
  ⟨Engine.Reachable.call _ _ (Engine.Reachable.create 4 4 _ (by decide) (by decide)),
    by decide,
    (clip_invariant
      (Call.run (Call.set_clip ⟨1, 1, 5, 5⟩)
        ⟨⟨0, 0, 4, 4⟩, ⟨List.replicate 16 ⟨0, 0, 0, 0⟩, 4, 4⟩⟩)
      (Engine.Reachable.call _ _ (Engine.Reachable.create 4 4 _ (by decide) (by decide)))
      ⟨0, 0, 1, 1⟩ 3
      3).2.2.2.2.2⟩

/-- Counterexample to C18: on a 4×4 surface with the clip set by
`engine_set_clip((1,1,2,2))`, `engine_clear` leaves the clip at `(1,1,2,2)`, not at the
full surface `(0,0,4,4)`. -/
theorem clear_does_not_reset_clip :
    (engine_clear
      (engine_set_clip ⟨⟨0, 0, 4, 4⟩, ⟨List.replicate 16 ⟨0, 0, 0, 0⟩, 4, 4⟩⟩ ⟨1, 1, 2, 2⟩)
      ENGINE_WHITE).clip = ⟨1, 1, 2, 2⟩ ∧
    (engine_clear
      (engine_set_clip ⟨⟨0, 0, 4, 4⟩, ⟨List.replicate 16 ⟨0, 0, 0, 0⟩, 4, 4⟩⟩ ⟨1, 1, 2, 2⟩)
      ENGINE_WHITE).clip ≠ engine_rect 0 0 4 4 := by
  decide

/-- C18 (amended): `engine_clear` leaves the clip region as it was: after
`engine_clear(c)`, for any prior clip, the clip equals the prior clip; the call is
`engine_draw_rect_fill` of the rectangle `(0, 0, 0xffffff, 0xffffff)`. -/
theorem clear_keeps_clip (e : Engine) (c : Color) :
    (engine_clear e c).clip = e.clip ∧
    engine_clear e c = engine_draw_rect_fill e (engine_rect 0 0 0xffffff 0xffffff) c :=
  ⟨(clear_same_alpha e c).1, rfl⟩

/-- C19: for a font loaded from an image of positive width (in particular one whose
width and height are multiples of 16), every glyph cell other than the space (byte 32) in
which all pixels have alpha 0 yields a glyph rect of width 0 (at the cell's origin, with
the cell's height) and an advance `xadv` equal to 1. -/
theorem transparent_cell_glyph (img : Image) (i : Nat) (hw : 0 < img.w) (hi : i < 256)
    (hi32 : i ≠ 32)
    (ht : ∀ px py : Int, (font_cell img i).contains px py → (img.pixel px py).a = 0) :
    engine_load_font_from_image (some img) = some (font_from_image img) ∧
    ((font_from_image img).glyphs.getD i default).rect.w = 0 ∧
    ((font_from_image img).glyphs.getD i default).xadv = 1 ∧
    ((font_from_image img).glyphs.getD i default).rect =
      ⟨(font_cell img i).x, (font_cell img i).y, 0, (font_cell img i).h⟩ := by
  have hcw : 0 ≤ (font_cell img i).w := by
    unfold font_cell
    exact Int.tdiv_nonneg (by omega) (by omega)
  have hcol : ∀ j : Nat, j < (font_cell img i).w.toNat →
      engine_check_column img ((font_cell img i).x + (font_cell img i).w - 1 - j)
        (font_cell img i).y (font_cell img i).h = false := by
    intro j hj
    unfold engine_check_column
    apply check_column_loop_transparent
    intro k hk
    exact ht _ _ (by unfold Rect.contains; omega)
  have htrim := font_trim_right_transparent img (font_cell img i).y (font_cell img i).h
    (font_cell img i).w.toNat ((font_cell img i).x + (font_cell img i).w - 1)
    (font_cell img i).w hcol
  have hz : (font_cell img i).w - ((font_cell img i).w.toNat : Int) = 0 := by omega
  have hg : font_glyph img i =
      ⟨⟨(font_cell img i).x, (font_cell img i).y, 0, (font_cell img i).h⟩, 1⟩ := by
    unfold font_glyph
    simp only [htrim, hz, Int.toNat_zero, font_trim_left, zero_add]
  rw [font_glyph_at img i hi hi32, hg]
  exact ⟨rfl, rfl, rfl, rfl⟩

/-- Witness of C19: glyph 0 of a 16×16 image without any opaque pixel. -/
theorem transparent_cell_glyph_witness :
    0 < (Image.mk (List.replicate 256 ⟨0, 0, 0, 0⟩) 16 16).w ∧ 0 < 256 ∧ 0 ≠ 32 ∧
    ((font_from_image ⟨List.replicate 256 ⟨0, 0, 0, 0⟩, 16, 16⟩).glyphs.getD 0 default).xadv =
      1 :=
  ⟨by decide, by decide, by decide,
    (transparent_cell_glyph ⟨List.replicate 256 ⟨0, 0, 0, 0⟩, 16, 16⟩ 0 (by decide) (by decide)
      (by decide) (by
        intro px py h
        have h0 : (font_cell ⟨List.replicate 256 ⟨0, 0, 0, 0⟩, 16, 16⟩ 0) = ⟨0, 0, 1, 1⟩ := by
          decide
        rw [h0] at h
        simp only [Rect.contains] at h
        have hx : px = 0 := by omega
        have hy : py = 0 := by omega
        rw [hx, hy]
        decide)).2.2.1⟩

/-- C20: after `engine_load_font_from_image` the table has 256 glyphs; for every glyph
index `i` in 0..255 other than 32 the advance is the trimmed rect width plus one; glyph 32
(space) has the rect `{0,0,0,0}` and the advance of glyph 'a' (index 97). -/
theorem font_advances (img : Image) (i : Nat) (hi : i < 256) (hi32 : i ≠ 32) :
    engine_load_font_from_image (some img) = some (font_from_image img) ∧
    (font_from_image img).glyphs.length = 256 ∧
    ((font_from_image img).glyphs.getD i default).xadv =
      ((font_from_image img).glyphs.getD i default).rect.w + 1 ∧
    ((font_from_image img).glyphs.getD 32 default).rect = ⟨0, 0, 0, 0⟩ ∧
    ((font_from_image img).glyphs.getD 32 default).xadv =
      ((font_from_image img).glyphs.getD 97 default).xadv := by
  refine ⟨rfl, font_glyphs_length img, ?_, ?_, ?_⟩
  · rw [font_glyph_at img i hi hi32]
    rfl
  · rw [font_glyph_space]
  · rw [font_glyph_space, font_glyph_at img 97 (by omega) (by omega)]

/-- Witness of C20: glyph 'a' of a 32×16 image with an opaque column at x = 2. -/
theorem font_advances_witness :
    97 < 256 ∧ 97 ≠ 32 ∧
    ((font_from_image
        ⟨(List.range 512).map (fun n => if n % 32 = 2 then ⟨0, 0, 0, 255⟩ else ⟨0, 0, 0, 0⟩),
          32, 16⟩).glyphs.getD 97 default).xadv =
      ((font_from_image
        ⟨(List.range 512).map (fun n => if n % 32 = 2 then ⟨0, 0, 0, 255⟩ else ⟨0, 0, 0, 0⟩),
          32, 16⟩).glyphs.getD 97 default).rect.w + 1 :=
  ⟨by decide, by decide,
    (font_advances
      ⟨(List.range 512).map (fun n => if n % 32 = 2 then ⟨0, 0, 0, 255⟩ else ⟨0, 0, 0, 0⟩),
        32, 16⟩ 97 (by decide) (by decide)).2.2.1⟩

/-- C21: `engine_text_width` is the sum of the advances `glyphs[b].xadv` over the bytes
`b` of the text in front of its terminator; `engine_draw_text2` returns
`x + engine_text_width(font, text)`, and the surface it leaves is the one obtained by
drawing, for `i = 0, 1, …` in order, the glyph of byte `i` at `x` plus the sum of the
advances of the bytes before it. -/
theorem text_width_and_layout (font : Font) (text : List Nat) (e : Engine) (x y : Int)
    (color : Color) :
    engine_text_width font text =
      ((text_bytes text).map (fun b => (font.glyphs.getD b default).xadv)).sum ∧
    (engine_draw_text2 font y color text e x).2 = x + engine_text_width font text ∧
    (engine_draw_text2 font y color text e x).1 =
      (List.range (text_bytes text).length).foldl
        (fun e1 i => engine_draw_image2 e1 font.image
          (x + (((text_bytes text).take i).map
            (fun b => (font.glyphs.getD b default).xadv)).sum) y
          (font.glyphs.getD ((text_bytes text).getD i 0) default).rect color) e :=
  ⟨text_width_eq_sum font text, draw_text2_x font y color text e x,
    draw_text2_glyphs font y color text e x⟩

/-- C22: for a key code `k < 256` and any state of the 256 key cells, a key-down event
that is not an auto-repeat leaves the cell of `k` at `DOWN | PRESSED`; the clearing step
of `engine_update` then leaves `DOWN`; a key-up after that leaves `RELEASED`; and the
next clearing step leaves 0. -/
theorem key_automaton (s : InputState) (k lparam : Nat) (hk : k < 256)
    (hlen : s.key_state.length = 256) (hrep : lparam &&& (1 <<< 30) = 0) :
    (wndproc_keydown s k lparam).key_state.getD k 0 =
      ENGINE_INPUT_DOWN ||| ENGINE_INPUT_PRESSED ∧
    (engine_update_clear (wndproc_keydown s k lparam)).key_state.getD k 0 =
      ENGINE_INPUT_DOWN ∧
    (wndproc_keyup (engine_update_clear (wndproc_keydown s k lparam)) k).key_state.getD k 0 =
      ENGINE_INPUT_RELEASED ∧
    (engine_update_clear
      (wndproc_keyup (engine_update_clear (wndproc_keydown s k lparam)) k)).key_state.getD k 0 =
      0 := by
  have hmod : k % 256 = k := Nat.mod_eq_of_lt hk
  have h1 : (wndproc_keydown s k lparam).key_state.getD k 0 =
      ENGINE_INPUT_DOWN ||| ENGINE_INPUT_PRESSED := by
    unfold wndproc_keydown
    rw [if_neg (by simpa using hrep)]
    simp only [hmod]
    rw [getD_set_eq, if_pos ⟨rfl, by omega⟩]
  have h2 : (engine_update_clear (wndproc_keydown s k lparam)).key_state.getD k 0 =
      ENGINE_INPUT_DOWN := by
    rw [update_clear_key _ k hk, h1]
    decide
  have hl2 : (engine_update_clear (wndproc_keydown s k lparam)).key_state.length = 256 := by
    simp only [engine_update_clear]
    rw [clear_edges_loop_length]
    unfold wndproc_keydown
    rw [if_neg (by simpa using hrep)]
    simp only [List.length_set]
    exact hlen
  have h3 : (wndproc_keyup (engine_update_clear (wndproc_keydown s k lparam)) k).key_state.getD
      k 0 = ENGINE_INPUT_RELEASED := by
    unfold wndproc_keyup
    simp only [hmod]
    rw [getD_set_eq, if_pos ⟨rfl, by rw [List.length_set]; omega⟩, getD_set_eq,
      if_pos ⟨rfl, by omega⟩, h2]
    decide
  refine ⟨h1, h2, h3, ?_⟩
  rw [update_clear_key _ k hk, h3]
  decide

/-- Witness of C22: the key `A` (65) on a fresh state. -/
theorem key_automaton_witness :
    65 < 256 ∧ (0 : Nat) &&& (1 <<< 30) = 0 ∧
    (wndproc_keydown InputState.zero 65 0).key_state.getD 65 0 =
      ENGINE_INPUT_DOWN ||| ENGINE_INPUT_PRESSED ∧
    (engine_update_clear
      (wndproc_keyup (engine_update_clear
        (wndproc_keydown InputState.zero 65 0)) 65)).key_state.getD 65 0 = 0 :=
  ⟨by decide, by decide,
    (key_automaton InputState.zero 65 0 (by decide) (List.length_replicate 256 0)
      (by decide)).1,
    (key_automaton InputState.zero 65 0 (by decide) (List.length_replicate 256 0)
      (by decide)).2.2.2⟩

/-- C23: the clearing step of `engine_update` replaces every key cell `i < 256` and every
mouse-button cell `j < 16` by the cell with its `PRESSED` and `RELEASED` bits cleared: in
the new cell both bits are 0 and the `DOWN` bit is the old one.  Hence after any number
`n` of frame boundaries without an event the `DOWN` bit of every cell is still the one it
started with. -/
theorem frame_boundary_keeps_down (s : InputState) (n i j : Nat) (hi : i < 256)
    (hj : j < 16) :
    ((engine_update_clear s).key_state.getD i 0 =
        byte_and_not (s.key_state.getD i 0) (ENGINE_INPUT_PRESSED ||| ENGINE_INPUT_RELEASED) ∧
      (engine_update_clear s).key_state.getD i 0 &&& ENGINE_INPUT_PRESSED = 0 ∧
      (engine_update_clear s).key_state.getD i 0 &&& ENGINE_INPUT_RELEASED = 0 ∧
      (engine_update_clear s).key_state.getD i 0 &&& ENGINE_INPUT_DOWN =
        s.key_state.getD i 0 &&& ENGINE_INPUT_DOWN) ∧
    ((engine_update_clear s).mouse_state.getD j 0 =
        byte_and_not (s.mouse_state.getD j 0) (ENGINE_INPUT_PRESSED ||| ENGINE_INPUT_RELEASED) ∧
      (engine_update_clear s).mouse_state.getD j 0 &&& ENGINE_INPUT_PRESSED = 0 ∧
      (engine_update_clear s).mouse_state.getD j 0 &&& ENGINE_INPUT_RELEASED = 0 ∧
      (engine_update_clear s).mouse_state.getD j 0 &&& ENGINE_INPUT_DOWN =
        s.mouse_state.getD j 0 &&& ENGINE_INPUT_DOWN) ∧
    (frame_boundaries n s).key_state.getD i 0 &&& ENGINE_INPUT_DOWN =
      s.key_state.getD i 0 &&& ENGINE_INPUT_DOWN ∧
    (frame_boundaries n s).mouse_state.getD j 0 &&& ENGINE_INPUT_DOWN =
      s.mouse_state.getD j 0 &&& ENGINE_INPUT_DOWN := by
  refine ⟨⟨update_clear_key s i hi, ?_⟩, ⟨update_clear_mouse s j hj, ?_⟩,
    (frame_boundaries_down n s).1 i hi, (frame_boundaries_down n s).2 j hj⟩
  · rw [update_clear_key s i hi]
    exact byte_and_not_edges _
  · rw [update_clear_mouse s j hj]
    exact byte_and_not_edges _

/-- Witness of C23: the key 65 and the left button (index 1) have just gone down; three
frame boundaries later both are still down. -/
theorem frame_boundary_keeps_down_witness :
    65 < 256 ∧ 1 < 16 ∧
    (wndproc_buttondown (wndproc_keydown InputState.zero 65 0) 1 10 10).key_state.getD 65 0
        &&& ENGINE_INPUT_DOWN = ENGINE_INPUT_DOWN ∧
    (frame_boundaries 3
      (wndproc_buttondown (wndproc_keydown InputState.zero 65 0) 1 10 10)).key_state.getD 65 0
        &&& ENGINE_INPUT_DOWN =
      (wndproc_buttondown (wndproc_keydown InputState.zero 65 0) 1 10 10).key_state.getD 65 0
        &&& ENGINE_INPUT_DOWN ∧
    (frame_boundaries 3
      (wndproc_buttondown (wndproc_keydown InputState.zero 65 0) 1 10 10)).mouse_state.getD 1 0
        &&& ENGINE_INPUT_DOWN =
      (wndproc_buttondown (wndproc_keydown InputState.zero 65 0) 1 10 10).mouse_state.getD 1 0
        &&& ENGINE_INPUT_DOWN :=
  ⟨by decide, by decide, by decide,
    (frame_boundary_keeps_down
      (wndproc_buttondown (wndproc_keydown InputState.zero 65 0) 1 10 10) 3 65 1
      (by decide) (by decide)).2.2.1,
    (frame_boundary_keeps_down
      (wndproc_buttondown (wndproc_keydown InputState.zero 65 0) 1 10 10) 3 65 1
      (by decide) (by decide)).2.2.2⟩

/-- C24 (the code): a mouse move from (0, 0) to (5, 3) on a fresh state, then the clearing
step of `engine_update`: `engine_mouse_delta` still returns (5, 3), while the scroll value
set by a wheel event is back at 0.  The clearing step leaves `mouse_delta` of every state
as it was. -/
theorem mouse_delta_survives_frame_boundary :
    engine_mouse_delta (wndproc_mousemove InputState.zero 5 3) = (5, 3) ∧
    engine_mouse_delta (engine_update_clear (wndproc_mousemove InputState.zero 5 3)) = (5, 3) ∧
    engine_mouse_scroll (engine_update_clear (wndproc_mousewheel InputState.zero 120)) = 0 ∧
    ∀ s : InputState, engine_mouse_delta (engine_update_clear s) = engine_mouse_delta s :=
  ⟨by decide, by decide, by decide, fun _ => rfl⟩

/-- C25: a `WM_CHAR` event with a code `c ≥ 32` stores the code (converted to `int`) in
the first slot of the 32 that holds 0 and changes nothing else; if all 32 slots are
non-zero the state is unchanged.  After typing `cs` (at most 32 codes, each at least 32
and below `2^31`) into an empty buffer, `cs.length` calls of `engine_get_char` return the
codes of `cs` in order and the call after them returns 0. -/
theorem char_buffer_fifo (s s0 : InputState) (c : Nat) (cs : List Nat) (hc : 32 ≤ c)
    (hlen : cs.length ≤ 32) (hcs : ∀ c1, c1 ∈ cs → 32 ≤ c1 ∧ c1 < 2 ^ 31)
    (hempty : s0.char_buf = List.replicate 32 0) :
    (∀ m, m < 32 → s.char_buf.getD m 0 = 0 → (∀ j, j < m → s.char_buf.getD j 0 ≠ 0) →
      wndproc_char s c = { s with char_buf := s.char_buf.set m (to_int32 c) }) ∧
    ((∀ j, j < 32 → s.char_buf.getD j 0 ≠ 0) → wndproc_char s c = s) ∧
    (get_chars cs.length (type_chars cs s0)).1 = cs.map Int.ofNat ∧
    (engine_get_char (get_chars cs.length (type_chars cs s0)).2).1 = 0 := by
  refine ⟨?_, ?_, ?_⟩
  · intro m hm h0 hbefore
    unfold wndproc_char
    rw [if_neg (by omega),
      char_store_loop_first _ 32 0 m _ (by omega) (by omega) h0 (fun j _ hj => hbefore j hj)]
  · intro hfull
    unfold wndproc_char
    rw [if_neg (by omega), char_store_loop_full _ 32 0 _ (fun j _ hj => hfull j (by omega))]
  · have hb := type_chars_buf cs s0 hempty hlen hcs
    have hg := get_chars_buf (cs.map Int.ofNat) (type_chars cs s0) 0 (32 - cs.length)
      (by rw [hb, List.replicate_zero, List.nil_append])
      (by rw [List.length_map]; omega)
      (by
        intro c1 h1
        obtain ⟨c2, h2, h3⟩ := List.mem_map.1 h1
        have := (hcs c2 h2).1
        intro h4
        rw [← h3] at h4
        have h5 : (c2 : Int) = 0 := h4
        omega)
    rw [List.length_map] at hg
    refine ⟨hg.1, ?_⟩
    unfold engine_get_char
    simp only []
    rw [get_char_loop_empty 32 0 _ (fun j _ _ => by
      rw [hg.2, List.getD_eq_getElem?_getD, List.getElem?_replicate]
      split <;> rfl)]

/-- Witness of C25: a buffer whose slot 0 is taken receives `A` in slot 1, and the three
codes typed into an empty buffer come back in order. -/
theorem char_buffer_fifo_witness :
    (wndproc_char (wndproc_char InputState.zero 66) 65).char_buf.getD 1 0 = 65 ∧
    (get_chars 3 (type_chars [72, 105, 33] InputState.zero)).1 = [72, 105, 33] ∧
    (engine_get_char (get_chars 3 (type_chars [72, 105, 33] InputState.zero)).2).1 = 0 := by
  have h := char_buffer_fifo (wndproc_char InputState.zero 66) InputState.zero 65
    [72, 105, 33] (by decide) (by decide) (by decide) rfl
  refine ⟨?_, h.2.2.1, h.2.2.2⟩
  rw [h.1 1 (by decide) (by decide) (by decide)]
  decide

/-- C26 (as stated, refuted): with positive dimensions 1×1 the call is still fatal when
`calloc` returns no block (`engine_alloc` panics); and `engine_create_image(65536, 16384)`
with a successful `calloc` returns an image that has no pixel at all, the byte count
`16 + 2^32` having become 16 as the `int` argument of `engine_alloc`. -/
theorem create_image_fatal_on_alloc_failure :
    (engine_create_image_alloc false 1 1 = none ∧ ¬ ((1 : Int) ≤ 0 ∨ (1 : Int) ≤ 0)) ∧
    image_alloc_size 65536 16384 = 16 ∧
    engine_create_image_alloc true 65536 16384 = some ⟨[], 65536, 16384⟩ := by
  decide

/-- C26 (amended): `engine_create_image(width, height)` is fatal if and only if
`width ≤ 0` or `height ≤ 0` or `engine_alloc` gets no block, which is the case when the
`int` byte count is negative or `calloc` fails; otherwise it returns an image with
`w = width`, `h = height` whose pixels are all zero.  When
`sizeof(Image) + width * height * sizeof(Color)` fits an `int`, this is the byte count
handed to `engine_alloc` and the image has `width * height` pixels. -/
theorem create_image_fatal_iff (calloc_ok : Bool) (width height : Int) :
    (engine_create_image_alloc calloc_ok width height = none ↔
      (width ≤ 0 ∨ height ≤ 0 ∨ image_alloc_size width height < 0 ∨ calloc_ok = false)) ∧
    (∀ img, engine_create_image_alloc calloc_ok width height = some img →
      img.w = width ∧ img.h = height ∧ (∀ c, c ∈ img.pixels → c = ⟨0, 0, 0, 0⟩) ∧
      ((SIZEOF_IMAGE : Int) + width * height * SIZEOF_COLOR < 2 ^ 31 →
        (img.pixels.length : Int) = width * height)) ∧
    (0 < width → 0 < height →
      (SIZEOF_IMAGE : Int) + width * height * SIZEOF_COLOR < 2 ^ 31 →
      image_alloc_size width height = SIZEOF_IMAGE + width * height * SIZEOF_COLOR) ∧
    engine_create_image width height = engine_create_image_alloc true width height := by
  refine ⟨?_, ?_, image_alloc_size_fit width height, rfl⟩
  · have hr := to_int32_range
      ((SIZEOF_IMAGE + to_size_t (width * height) * SIZEOF_COLOR) % 2 ^ 64)
    have hn : to_int32 ((SIZEOF_IMAGE + to_size_t (width * height) * SIZEOF_COLOR) % 2 ^ 64) =
        image_alloc_size width height := rfl
    rw [hn] at hr
    obtain ⟨hnone, _⟩ := engine_alloc_cases calloc_ok (image_alloc_size width height) hr.1 hr.2
    unfold engine_create_image_alloc
    by_cases hwh : width > 0 ∧ height > 0
    · rw [if_neg (not_not.2 hwh)]
      cases ha : engine_alloc calloc_ok (image_alloc_size width height) with
      | none =>
        simp only [true_iff]
        exact Or.inr (Or.inr (hnone.1 ha))
      | some size =>
        simp only [reduceCtorEq, false_iff]
        intro h
        rcases h with h | h | h
        · omega
        · omega
        · rw [hnone.2 h] at ha
          simp at ha
    · rw [if_pos hwh]
      simp only [true_iff]
      by_cases h1 : width ≤ 0
      · exact Or.inl h1
      · by_cases h2 : height ≤ 0
        · exact Or.inr (Or.inl h2)
        · exact absurd ⟨by omega, by omega⟩ hwh
  · intro img h
    obtain ⟨_, _, h1, h2, h3, h4⟩ := create_image_some calloc_ok width height img h
    exact ⟨h1, h2, h3, h4⟩

/-- Witness of C26: `engine_create_image(2, 3)` with a successful allocation; the byte
count is 16 + 24. -/
theorem create_image_fatal_iff_witness :
    engine_create_image_alloc true 2 3 = some ⟨List.replicate 6 ⟨0, 0, 0, 0⟩, 2, 3⟩ ∧
    (SIZEOF_IMAGE : Int) + 2 * 3 * SIZEOF_COLOR < 2 ^ 31 ∧
    ((⟨List.replicate 6 ⟨0, 0, 0, 0⟩, 2, 3⟩ : Image).pixels.length : Int) = 2 * 3 := by
  have h := (create_image_fatal_iff true 2 3).2.1 ⟨List.replicate 6 ⟨0, 0, 0, 0⟩, 2, 3⟩
    (by decide)
  exact ⟨by decide, by decide, h.2.2.2 (by decide)⟩

/-- C27: for colours of bytes, the b and r channels that `engine_blend_pixel` takes out of
the packed 32-bit word (arithmetic modulo `2^32`, logical shift) and the g channel it
computes on its own are all the per-channel interpolation
`d + floor((s - d) * src.a / 256)` of that channel's `d` and `s`: nothing carries or
borrows between the b and r fields of the word. -/
theorem blend_pixel_is_lerp (dst src : Color) (hd : dst.wf) (hs : src.wf) :
    ((engine_blend_pixel dst src).b : Int) = lerp_channel dst.b src.b src.a ∧
    ((engine_blend_pixel dst src).r : Int) = lerp_channel dst.r src.r src.a ∧
    ((engine_blend_pixel dst src).g : Int) = lerp_channel dst.g src.g src.a :=
  ⟨(blend_pixel_channels dst src hd hs).1, (blend_pixel_channels dst src hd hs).2.2,
    (blend_pixel_channels dst src hd hs).2.1⟩

/-- Witness of C27: (b, g, r, a) = (200, 100, 50, 128) under (10, 20, 30, 77); the b
field needs a borrow from the r field of the word, and the result is b = 142, r = 43. -/
theorem blend_pixel_is_lerp_witness :
    (⟨200, 100, 50, 128⟩ : Color).wf ∧ (⟨10, 20, 30, 77⟩ : Color).wf ∧
    ((engine_blend_pixel ⟨200, 100, 50, 128⟩ ⟨10, 20, 30, 77⟩).b : Int) =
      lerp_channel 200 10 77 ∧
    ((engine_blend_pixel ⟨200, 100, 50, 128⟩ ⟨10, 20, 30, 77⟩).r : Int) =
      lerp_channel 50 30 77 ∧
    (engine_blend_pixel ⟨200, 100, 50, 128⟩ ⟨10, 20, 30, 77⟩).b = 142 ∧
    (engine_blend_pixel ⟨200, 100, 50, 128⟩ ⟨10, 20, 30, 77⟩).r = 43 :=
  ⟨by decide, by decide,
    (blend_pixel_is_lerp ⟨200, 100, 50, 128⟩ ⟨10, 20, 30, 77⟩ (by decide) (by decide)).1,
    (blend_pixel_is_lerp ⟨200, 100, 50, 128⟩ ⟨10, 20, 30, 77⟩ (by decide) (by decide)).2.1,
    by decide, by decide⟩

/-- C28: for a font image of non-negative width and a glyph `i < 256` other than the
space, the rect of the loaded glyph keeps the `y` and the height of its cell and lies
within the cell horizontally (with a width that is not negative); every pixel of a cell
column outside the rect has alpha 0; and if the rect is not empty, its first and its last
column each hold a pixel of non-zero alpha in the rows of the cell. -/
theorem glyph_trim_tight (img : Image) (i : Nat) (hi : i < 256) (hi32 : i ≠ 32)
    (hw : 0 ≤ img.w) :
    ((font_from_image img).glyphs.getD i default).rect.y = (font_cell img i).y ∧
    ((font_from_image img).glyphs.getD i default).rect.h = (font_cell img i).h ∧
    (font_cell img i).x ≤ ((font_from_image img).glyphs.getD i default).rect.x ∧
    0 ≤ ((font_from_image img).glyphs.getD i default).rect.w ∧
    ((font_from_image img).glyphs.getD i default).rect.x +
        ((font_from_image img).glyphs.getD i default).rect.w ≤
      (font_cell img i).x + (font_cell img i).w ∧
    (∀ c row : Int, (font_cell img i).x ≤ c → c < (font_cell img i).x + (font_cell img i).w →
      (c < ((font_from_image img).glyphs.getD i default).rect.x ∨
        ((font_from_image img).glyphs.getD i default).rect.x +
          ((font_from_image img).glyphs.getD i default).rect.w ≤ c) →
      (font_cell img i).y ≤ row → row < (font_cell img i).y + (font_cell img i).h →
      (img.pixel c row).a = 0) ∧
    (0 < ((font_from_image img).glyphs.getD i default).rect.w →
      (∃ row : Int, (font_cell img i).y ≤ row ∧
        row < (font_cell img i).y + (font_cell img i).h ∧
        (img.pixel ((font_from_image img).glyphs.getD i default).rect.x row).a ≠ 0) ∧
      (∃ row : Int, (font_cell img i).y ≤ row ∧
        row < (font_cell img i).y + (font_cell img i).h ∧
        (img.pixel (((font_from_image img).glyphs.getD i default).rect.x +
          ((font_from_image img).glyphs.getD i default).rect.w - 1) row).a ≠ 0)) := by
  rw [font_glyph_at img i hi hi32]
  obtain ⟨h1, h2, h3, h4, h5, h6, h7⟩ := font_glyph_tight img i hw
  refine ⟨h1, h2, h3, h4, h5, ?_, ?_⟩
  · intro c row hc0 hc1 hout hr0 hr1
    exact check_column_false img c _ _ (h6 c hc0 hc1 hout) row hr0 hr1
  · intro hpos
    exact ⟨(check_column_true img _ _ _).1 (h7 hpos).1,
      (check_column_true img _ _ _).1 (h7 hpos).2⟩

/-- Witness of C28: glyph `a` (97) of a 16×16 image whose only opaque pixel is (1, 6),
the one pixel of the cell of `a`; the rect is the cell (1, 6, 1, 1). -/
theorem glyph_trim_tight_witness :
    97 < 256 ∧ 97 ≠ 32 ∧
    ((font_from_image
        ⟨(List.replicate 97 ⟨0, 0, 0, 0⟩ ++ ⟨0, 0, 0, 255⟩ :: List.replicate 158 ⟨0, 0, 0, 0⟩),
          16, 16⟩).glyphs.getD 97 default).rect = ⟨1, 6, 1, 1⟩ ∧
    (0 : Int) ≤ ((font_from_image
        ⟨(List.replicate 97 ⟨0, 0, 0, 0⟩ ++ ⟨0, 0, 0, 255⟩ :: List.replicate 158 ⟨0, 0, 0, 0⟩),
          16, 16⟩).glyphs.getD 97 default).rect.w := by
  have h := glyph_trim_tight
    ⟨(List.replicate 97 ⟨0, 0, 0, 0⟩ ++ ⟨0, 0, 0, 255⟩ :: List.replicate 158 ⟨0, 0, 0, 0⟩),
      16, 16⟩ 97 (by decide) (by decide) (by decide)
  exact ⟨by decide, by decide, by decide, h.2.2.2.1⟩

/-- C29: for colours of bytes, each of the b, g and r channels of
`engine_blend_pixel dst src` lies between the values of that channel in `dst` and in
`src`, both included. -/
theorem blend_pixel_no_overshoot (dst src : Color) (hd : dst.wf) (hs : src.wf) :
    (min dst.b src.b ≤ (engine_blend_pixel dst src).b ∧
      (engine_blend_pixel dst src).b ≤ max dst.b src.b) ∧
    (min dst.g src.g ≤ (engine_blend_pixel dst src).g ∧
      (engine_blend_pixel dst src).g ≤ max dst.g src.g) ∧
    (min dst.r src.r ≤ (engine_blend_pixel dst src).r ∧
      (engine_blend_pixel dst src).r ≤ max dst.r src.r) := by
  obtain ⟨hb, hg, hr⟩ := blend_pixel_channels dst src hd hs
  have h1 := lerp_channel_between dst.b src.b src.a hs.2.2.2
  have h2 := lerp_channel_between dst.g src.g src.a hs.2.2.2
  have h3 := lerp_channel_between dst.r src.r src.a hs.2.2.2
  rw [← hb] at h1
  rw [← hg] at h2
  rw [← hr] at h3
  simp only [min_def, max_def] at h1 h2 h3 ⊢
  refine ⟨⟨?_, ?_⟩, ⟨?_, ?_⟩, ⟨?_, ?_⟩⟩ <;> split_ifs at * <;> omega

/-- Witness of C29: the colours (200, 100, 50, 128) and (10, 20, 30, 77) again. -/
theorem blend_pixel_no_overshoot_witness :
    (⟨200, 100, 50, 128⟩ : Color).wf ∧ (⟨10, 20, 30, 77⟩ : Color).wf ∧
    min 200 10 ≤ (engine_blend_pixel ⟨200, 100, 50, 128⟩ ⟨10, 20, 30, 77⟩).b ∧
    (engine_blend_pixel ⟨200, 100, 50, 128⟩ ⟨10, 20, 30, 77⟩).b ≤ max 200 10 :=
  ⟨by decide, by decide,
    (blend_pixel_no_overshoot ⟨200, 100, 50, 128⟩ ⟨10, 20, 30, 77⟩ (by decide)
      (by decide)).1.1,
    (blend_pixel_no_overshoot ⟨200, 100, 50, 128⟩ ⟨10, 20, 30, 77⟩ (by decide)
      (by decide)).1.2⟩

/-- C30: for colours of bytes and `a1 = (src.a * clr.a) >> 8`, the sum
`((s * t * a1) >> 16) + ((d * (255 - a1)) >> 8)` is at most 255 for each of the b, g, r
channels and is the channel that `engine_blend_pixel2` stores; the same holds for
`engine_blend_pixel3`, whose source channels are `min(255, s + add)`. -/
theorem blend_pixel2_no_overflow (dst src clr add : Color) (hd : dst.wf) (hs : src.wf)
    (hc : clr.wf) :
    (((src.b * clr.b * ((src.a * clr.a) >>> 8)) >>> 16) +
        ((dst.b * (0xff - (src.a * clr.a) >>> 8)) >>> 8) ≤ 255 ∧
      (engine_blend_pixel2 dst src clr).b =
        ((src.b * clr.b * ((src.a * clr.a) >>> 8)) >>> 16) +
          ((dst.b * (0xff - (src.a * clr.a) >>> 8)) >>> 8)) ∧
    (((src.g * clr.g * ((src.a * clr.a) >>> 8)) >>> 16) +
        ((dst.g * (0xff - (src.a * clr.a) >>> 8)) >>> 8) ≤ 255 ∧
      (engine_blend_pixel2 dst src clr).g =
        ((src.g * clr.g * ((src.a * clr.a) >>> 8)) >>> 16) +
          ((dst.g * (0xff - (src.a * clr.a) >>> 8)) >>> 8)) ∧
    (((src.r * clr.r * ((src.a * clr.a) >>> 8)) >>> 16) +
        ((dst.r * (0xff - (src.a * clr.a) >>> 8)) >>> 8) ≤ 255 ∧
      (engine_blend_pixel2 dst src clr).r =
        ((src.r * clr.r * ((src.a * clr.a) >>> 8)) >>> 16) +
          ((dst.r * (0xff - (src.a * clr.a) >>> 8)) >>> 8)) ∧
    (((min 255 (src.b + add.b) * clr.b * ((src.a * clr.a) >>> 8)) >>> 16) +
        ((dst.b * (0xff - (src.a * clr.a) >>> 8)) >>> 8) ≤ 255 ∧
      (engine_blend_pixel3 dst src clr add).b =
        ((min 255 (src.b + add.b) * clr.b * ((src.a * clr.a) >>> 8)) >>> 16) +
          ((dst.b * (0xff - (src.a * clr.a) >>> 8)) >>> 8)) ∧
    (((min 255 (src.g + add.g) * clr.g * ((src.a * clr.a) >>> 8)) >>> 16) +
        ((dst.g * (0xff - (src.a * clr.a) >>> 8)) >>> 8) ≤ 255 ∧
      (engine_blend_pixel3 dst src clr add).g =
        ((min 255 (src.g + add.g) * clr.g * ((src.a * clr.a) >>> 8)) >>> 16) +
          ((dst.g * (0xff - (src.a * clr.a) >>> 8)) >>> 8)) ∧
    (((min 255 (src.r + add.r) * clr.r * ((src.a * clr.a) >>> 8)) >>> 16) +
        ((dst.r * (0xff - (src.a * clr.a) >>> 8)) >>> 8) ≤ 255 ∧
      (engine_blend_pixel3 dst src clr add).r =
        ((min 255 (src.r + add.r) * clr.r * ((src.a * clr.a) >>> 8)) >>> 16) +
          ((dst.r * (0xff - (src.a * clr.a) >>> 8)) >>> 8)) := by
  have ha := blend2_alpha_le src.a clr.a hs.2.2.2 hc.2.2.2
  have h2 := blend_pixel2_channels dst src clr hd hs hc
  have hs1 : (⟨min 255 (src.b + add.b), min 255 (src.g + add.g), min 255 (src.r + add.r),
      src.a⟩ : Color).wf := by
    refine ⟨?_, ?_, ?_, hs.2.2.2⟩
    · exact lt_of_le_of_lt (min_le_left _ _) (by omega)
    · exact lt_of_le_of_lt (min_le_left _ _) (by omega)
    · exact lt_of_le_of_lt (min_le_left _ _) (by omega)
  have h3 := blend_pixel2_channels dst _ clr hd hs1 hc
  refine ⟨⟨?_, h2.1⟩, ⟨?_, h2.2.1⟩, ⟨?_, h2.2.2⟩, ⟨?_, h3.1⟩, ⟨?_, h3.2.1⟩, ⟨?_, h3.2.2⟩⟩
  · exact blend2_sum_le _ _ _ _ hs.1 hc.1 hd.1 ha
  · exact blend2_sum_le _ _ _ _ hs.2.1 hc.2.1 hd.2.1 ha
  · exact blend2_sum_le _ _ _ _ hs.2.2.1 hc.2.2.1 hd.2.2.1 ha
  · exact blend2_sum_le _ _ _ _ hs1.1 hc.1 hd.1 ha
  · exact blend2_sum_le _ _ _ _ hs1.2.1 hc.2.1 hd.2.1 ha
  · exact blend2_sum_le _ _ _ _ hs1.2.2.1 hc.2.2.1 hd.2.2.1 ha

/-- Witness of C30: white over white with a white tint, where every operand is largest:
the sum is 252 + 0. -/
theorem blend_pixel2_no_overflow_witness :
    (⟨255, 255, 255, 255⟩ : Color).wf ∧
    (engine_blend_pixel2 ⟨255, 255, 255, 255⟩ ⟨255, 255, 255, 255⟩ ⟨255, 255, 255, 255⟩).r =
      ((255 * 255 * ((255 * 255) >>> 8)) >>> 16) + ((255 * (0xff - (255 * 255) >>> 8)) >>> 8) ∧
    (engine_blend_pixel2 ⟨255, 255, 255, 255⟩ ⟨255, 255, 255, 255⟩ ⟨255, 255, 255, 255⟩).r =
      252 :=
  ⟨by decide,
    (blend_pixel2_no_overflow ⟨255, 255, 255, 255⟩ ⟨255, 255, 255, 255⟩
      ⟨255, 255, 255, 255⟩ ⟨0, 0, 0, 0⟩ (by decide) (by decide) (by decide)).2.2.1.2,
    by decide⟩

/-- C32: `engine_draw_line` draws the points of `engine_draw_line_points`, and there are
`max(|x2 - x1|, |y2 - y1|) + 1` of them; from each point to the next both coordinates
change by at most 1, and the coordinate of the larger extent (either one, if the extents
are equal) changes by exactly 1; no point occurs twice. -/
theorem line_without_gaps (e : Engine) (x1 y1 x2 y2 : Int) (c : Color) :
    engine_draw_line e x1 y1 x2 y2 c =
      draw_points c e (engine_draw_line_points x1 y1 x2 y2) ∧
    (engine_draw_line_points x1 y1 x2 y2).length =
      max (x2 - x1).natAbs (y2 - y1).natAbs + 1 ∧
    List.Chain' (fun p q => (q.1 - p.1).natAbs ≤ 1 ∧ (q.2 - p.2).natAbs ≤ 1 ∧
        ((y2 - y1).natAbs ≤ (x2 - x1).natAbs → (q.1 - p.1).natAbs = 1) ∧
        ((x2 - x1).natAbs ≤ (y2 - y1).natAbs → (q.2 - p.2).natAbs = 1))
      (engine_draw_line_points x1 y1 x2 y2) ∧
    (engine_draw_line_points x1 y1 x2 y2).Nodup := by
  refine ⟨draw_line_eq_points e x1 y1 x2 y2 c, ?_⟩
  have hinv := line_inv_init x1 y1 x2 y2
  have hsx : (if x1 < x2 then (1 : Int) else -1) = 1 ∨ (if x1 < x2 then (1 : Int) else -1) = -1 := by
    split
    · exact Or.inl rfl
    · exact Or.inr rfl
  have hsy : (if y1 < y2 then (1 : Int) else -1) = 1 ∨ (if y1 < y2 then (1 : Int) else -1) = -1 := by
    split
    · exact Or.inl rfl
    · exact Or.inr rfl
  unfold engine_draw_line_points
  simp only
  generalize hA : (x2 - x1).natAbs = A at hinv ⊢
  generalize hB : (y2 - y1).natAbs = B at hinv ⊢
  generalize (if x1 < x2 then (1 : Int) else -1) = sx at hinv hsx ⊢
  generalize (if y1 < y2 then (1 : Int) else -1) = sy at hinv hsy ⊢
  have hxm : B ≤ A → ∃ tail : List (Int × Int),
      draw_line_points_loop x2 y2 A sx (-(B : Int)) sy (A + B + 1) x1 y1 ((A : Int) + -(B : Int)) =
        (x1, y1) :: tail ∧ (tail.length : Int) = A ∧
      List.Chain (fun p q => q.1 = p.1 + sx ∧ (q.2 = p.2 ∨ q.2 = p.2 + sy)) (x1, y1) tail := by
    intro h
    exact draw_line_points_x_major x2 y2 A B sx sy (by omega) hsx _ x1 y1 _ A B hinv
      (by omega) (by push_cast; omega)
  have hym : A ≤ B → ∃ tail : List (Int × Int),
      draw_line_points_loop x2 y2 A sx (-(B : Int)) sy (A + B + 1) x1 y1 ((A : Int) + -(B : Int)) =
        (x1, y1) :: tail ∧ (tail.length : Int) = B ∧
      List.Chain (fun p q => q.2 = p.2 + sy ∧ (q.1 = p.1 ∨ q.1 = p.1 + sx)) (x1, y1) tail := by
    intro h
    exact draw_line_points_y_major x2 y2 A B sx sy (by omega) hsy _ x1 y1 _ A B hinv
      (by omega) (by push_cast; omega)
  by_cases hAB : B ≤ A
  · obtain ⟨tail, ht, hlen, hch⟩ := hxm hAB
    rw [ht]
    refine ⟨?_, ?_, ?_⟩
    · simp only [List.length_cons]
      omega
    · show List.Chain _ (x1, y1) tail
      by_cases hBA : A ≤ B
      · obtain ⟨tail2, ht2, _, hch2⟩ := hym hBA
        rw [ht] at ht2
        have htt : tail2 = tail := by
          have := List.cons.inj ht2
          exact this.2.symm
        rw [htt] at hch2
        refine List.Chain.imp ?_ (chain_and _ _ _ _ hch hch2)
        intro p q ⟨⟨h1, _⟩, ⟨h3, _⟩⟩
        rcases hsx with hs | hs <;> rcases hsy with hs2 | hs2 <;> rw [hs] at h1 <;>
          rw [hs2] at h3 <;> omega
      · refine List.Chain.imp ?_ hch
        intro p q ⟨h1, h2⟩
        rcases hsx with hs | hs <;> rcases hsy with hs2 | hs2 <;> rw [hs] at h1 <;>
          rw [hs2] at h2 <;> omega
    · refine (chain_step_nodup (fun p : Int × Int => p.1) sx hsx tail (x1, y1) ?_).2
      exact List.Chain.imp (fun p q h => h.1) hch
  · obtain ⟨tail, ht, hlen, hch⟩ := hym (by omega)
    rw [ht]
    refine ⟨?_, ?_, ?_⟩
    · simp only [List.length_cons]
      omega
    · show List.Chain _ (x1, y1) tail
      refine List.Chain.imp ?_ hch
      intro p q ⟨h1, h2⟩
      rcases hsx with hs | hs <;> rcases hsy with hs2 | hs2 <;> rw [hs] at h2 <;>
        rw [hs2] at h1 <;> omega
    · refine (chain_step_nodup (fun p : Int × Int => p.2) sy hsy tail (x1, y1) ?_).2
      exact List.Chain.imp (fun p q h => h.1) hch

/-- C33: for a radius `r ≥ 1` and a colour of non-zero alpha, `engine_draw_circle` draws
the points of `engine_draw_circle_points`; every one of them, `(x0 + dx, y0 + dy)`, has
`(r - 1)^2 < dx^2 + dy^2 < (r + 1)^2`; and no point occurs twice. -/
theorem circle_outline_near_radius (e : Engine) (x0 y0 r : Int) (c : Color) (hr : 1 ≤ r)
    (hc : c.a ≠ 0) :
    engine_draw_circle e x0 y0 r c = draw_points c e (engine_draw_circle_points x0 y0 r) ∧
    (∀ dx dy : Int, (x0 + dx, y0 + dy) ∈ engine_draw_circle_points x0 y0 r →
      (r - 1) ^ 2 < dx ^ 2 + dy ^ 2 ∧ dx ^ 2 + dy ^ 2 < (r + 1) ^ 2) ∧
    (engine_draw_circle_points x0 y0 r).Nodup := by
  have hinv := circle_inv_init r hr
  have hmem := draw_circle_points_loop_mem x0 y0 r r.toNat _ _ _ _ _ hinv
  have hnd := draw_circle_points_loop_nodup x0 y0 r r.toNat _ _ _ _ _ hinv
  refine ⟨draw_circle_eq_points e x0 y0 r c hc, ?_, ?_⟩
  · intro dx dy hp
    have e1 : (r - 1) ^ 2 = r * r - 2 * r + 1 := by ring
    have e2 : (r + 1) ^ 2 = r * r + 2 * r + 1 := by ring
    have e3 : dx ^ 2 + dy ^ 2 = dx * dx + dy * dy := by ring
    rw [e1, e2, e3]
    unfold engine_draw_circle_points at hp
    rw [List.mem_append] at hp
    rcases hp with hp | hp
    · have ho : on_octants x0 y0 0 r (x0 + dx, y0 + dy) := by
        simp only [List.mem_cons, List.mem_singleton, List.not_mem_nil, or_false,
          Prod.mk.injEq] at hp
        unfold on_octants
        simp only [Prod.mk.injEq]
        rcases hp with h | h | h | h
        · exact Or.inl ⟨by omega, by omega⟩
        · exact Or.inr (Or.inr (Or.inl ⟨by omega, by omega⟩))
        · exact Or.inr (Or.inr (Or.inr (Or.inr (Or.inl ⟨by omega, by omega⟩))))
        · exact Or.inr (Or.inr (Or.inr (Or.inr (Or.inr (Or.inl ⟨by omega, by omega⟩)))))
      rw [on_octants_dist x0 y0 0 r dx dy ho]
      have e4 : (0 : Int) * 0 + r * r = r * r := by ring
      rw [e4]
      constructor <;> omega
    · obtain ⟨a, b, ha, hab, hb, har, hd1, hd2, ho⟩ := hmem _ hp
      rw [on_octants_dist x0 y0 a b dx dy ho]
      constructor <;> omega
  · unfold engine_draw_circle_points
    rw [List.nodup_append]
    refine ⟨?_, hnd, ?_⟩
    · simp only [List.nodup_cons, List.mem_cons, List.mem_singleton, Prod.mk.injEq,
        List.not_mem_nil, not_false_eq_true, List.nodup_nil, and_true, not_or]
      omega
    · intro p hp1 hp2
      obtain ⟨a, b, ha, hab, _, _, _, _, ho⟩ := hmem p hp2
      have hf := on_octants_far x0 y0 a b 0 p ho ha hab
      simp only [List.mem_cons, List.mem_singleton, List.not_mem_nil, or_false] at hp1
      rcases hp1 with hp | hp | hp | hp <;> rw [hp] at hf <;> simp only at hf <;> omega

/-- Witness of C33: radius 2 about (2, 2) in opaque white; the twelve points are four
at distance 2 and eight at squared distance 5. -/
theorem circle_outline_near_radius_witness :
    (1 : Int) ≤ 2 ∧ ENGINE_WHITE.a ≠ 0 ∧
    engine_draw_circle_points 2 2 2 =
      [(2, 4), (2, 0), (4, 2), (0, 2), (3, 4), (1, 4), (3, 0), (1, 0), (4, 3), (0, 3),
        (4, 1), (0, 1)] ∧
    (engine_draw_circle_points 2 2 2).Nodup := by
  have h := circle_outline_near_radius
    ⟨⟨0, 0, 5, 5⟩, ⟨List.replicate 25 ⟨0, 0, 0, 0⟩, 5, 5⟩⟩ 2 2 2 ENGINE_WHITE (by decide)
    (by decide)
  exact ⟨by decide, by decide, by decide, h.2.2⟩

/-- C34 (the code): on a transparent 5×5 surface with the full clip, centre (2, 2) and
radius 1 in opaque white: `engine_draw_circle` blends the pixels (2, 3), (2, 1) and
(1, 2) of the outline, and `engine_draw_circle_fill` leaves all three as they were; it
draws the one line from (2, 2) to (3, 2). -/
theorem circle_fill_misses_outline :
    (engine_draw_circle ⟨⟨0, 0, 5, 5⟩, ⟨List.replicate 25 ⟨0, 0, 0, 0⟩, 5, 5⟩⟩
        2 2 1 ENGINE_WHITE).screen.pixel 2 3 ≠ ⟨0, 0, 0, 0⟩ ∧
    (engine_draw_circle_fill ⟨⟨0, 0, 5, 5⟩, ⟨List.replicate 25 ⟨0, 0, 0, 0⟩, 5, 5⟩⟩
        2 2 1 ENGINE_WHITE).screen.pixel 2 3 = ⟨0, 0, 0, 0⟩ ∧
    (engine_draw_circle ⟨⟨0, 0, 5, 5⟩, ⟨List.replicate 25 ⟨0, 0, 0, 0⟩, 5, 5⟩⟩
        2 2 1 ENGINE_WHITE).screen.pixel 2 1 ≠ ⟨0, 0, 0, 0⟩ ∧
    (engine_draw_circle_fill ⟨⟨0, 0, 5, 5⟩, ⟨List.replicate 25 ⟨0, 0, 0, 0⟩, 5, 5⟩⟩
        2 2 1 ENGINE_WHITE).screen.pixel 2 1 = ⟨0, 0, 0, 0⟩ ∧
    (engine_draw_circle ⟨⟨0, 0, 5, 5⟩, ⟨List.replicate 25 ⟨0, 0, 0, 0⟩, 5, 5⟩⟩
        2 2 1 ENGINE_WHITE).screen.pixel 1 2 ≠ ⟨0, 0, 0, 0⟩ ∧
    (engine_draw_circle_fill ⟨⟨0, 0, 5, 5⟩, ⟨List.replicate 25 ⟨0, 0, 0, 0⟩, 5, 5⟩⟩
        2 2 1 ENGINE_WHITE).screen.pixel 1 2 = ⟨0, 0, 0, 0⟩ ∧
    engine_draw_circle_fill ⟨⟨0, 0, 5, 5⟩, ⟨List.replicate 25 ⟨0, 0, 0, 0⟩, 5, 5⟩⟩
        2 2 1 ENGINE_WHITE =
      engine_draw_line ⟨⟨0, 0, 5, 5⟩, ⟨List.replicate 25 ⟨0, 0, 0, 0⟩, 5, 5⟩⟩
        2 2 3 2 ENGINE_WHITE := by
  decide

/-- C35: in every input state reachable from the all-zero state by key, character, mouse
button, mouse move and wheel events and frame boundaries, every key cell and every
mouse-button cell is below 8 (only the three flag bits are used) and does not have the
`DOWN` bit and the `RELEASED` bit both set. -/
theorem down_and_released_exclusive (s : InputState) (hr : s.Reachable) (i : Nat) :
    (s.key_state.getD i 0 < 8 ∧
      ¬ (s.key_state.getD i 0 &&& ENGINE_INPUT_DOWN ≠ 0 ∧
        s.key_state.getD i 0 &&& ENGINE_INPUT_RELEASED ≠ 0)) ∧
    (s.mouse_state.getD i 0 < 8 ∧
      ¬ (s.mouse_state.getD i 0 &&& ENGINE_INPUT_DOWN ≠ 0 ∧
        s.mouse_state.getD i 0 &&& ENGINE_INPUT_RELEASED ≠ 0)) :=
  ⟨(reachable_flags_ok s hr).1 i, (reachable_flags_ok s hr).2 i⟩

/-- Witness of C35: the key 65 goes down and comes up again within one frame; its cell
is then `PRESSED | RELEASED`. -/
theorem down_and_released_exclusive_witness :
    ((InputEvent.keyup 65).run ((InputEvent.keydown 65 0).run InputState.zero)).Reachable ∧
    ((InputEvent.keyup 65).run
      ((InputEvent.keydown 65 0).run InputState.zero)).key_state.getD 65 0 =
        ENGINE_INPUT_PRESSED ||| ENGINE_INPUT_RELEASED ∧
    ((InputEvent.keyup 65).run
      ((InputEvent.keydown 65 0).run InputState.zero)).key_state.getD 65 0 < 8 :=
  ⟨.step _ _ (.step _ _ .zero), by decide,
    (down_and_released_exclusive _ (.step _ _ (.step _ _ .zero)) 65).1.1⟩

/-- C36 (the code): the guard of `engine_check_input_flag` is `idx > cap`, so the index
`cap` itself goes on to the read: `engine_key_down(engine, 256)` reads `key_state[256]`
and `engine_mouse_down(engine, 16)` reads `mouse_state[16]`, one past the end of the
table (`none`).  The indices above, and the negative keys, are answered `false`. -/
theorem input_query_reads_past_table :
    engine_key_down InputState.zero 256 = none ∧
    engine_key_pressed InputState.zero 256 = none ∧
    engine_key_released InputState.zero 256 = none ∧
    engine_mouse_down InputState.zero 16 = none ∧
    engine_mouse_pressed InputState.zero 16 = none ∧
    engine_mouse_released InputState.zero 16 = none ∧
    engine_key_down InputState.zero 257 = some false ∧
    engine_key_down InputState.zero (-1) = some false ∧
    engine_mouse_down InputState.zero 17 = some false := by
  have hk : ∀ flag, engine_check_input_flag (List.replicate 256 0) 256 256 flag = none := by
    intro flag
    have := check_input_flag_at_cap (List.replicate 256 0) flag
    rw [List.length_replicate] at this
    exact this
  have hm : ∀ flag, engine_check_input_flag (List.replicate 16 0) 16 16 flag = none := by
    intro flag
    have := check_input_flag_at_cap (List.replicate 16 0) flag
    rw [List.length_replicate] at this
    exact this
  exact ⟨hk _, hk _, hk _, hm _, hm _, hm _,
    check_input_flag_above _ _ _ _ (by decide), check_input_flag_above _ _ _ _ (by decide),
    check_input_flag_above _ _ _ _ (by decide)⟩

end Blink
